import Mathlib

/-!
Verification of the batch-orchestration / response-reconciliation core of the
pdf-to-excel repository, shallowly embedded from
`src/services/geminiService.ts` and `src/utils/excelHelper.ts`.

Conventions of the embedding:
* JS strings are modelled as Lean `String` / `List Char` (`String.data`).
* JS numbers appearing as page counts / indices are `Nat` (they never go
  negative or fractional in the embedded code paths).
* A JS object used as a map is an association list in insertion order;
  the JS ordering quirk for integer-like keys is abstracted away (the spec
  declares `PageDataMap` order-irrelevant).
* Async control flow is sequential (the code awaits every call), so the
  batch loop is a plain fold with early abort; thrown errors are `Except`.
-/

namespace PdfToExcel

/-! ### Data model (`src/types`, §3 of the spec) -/

/-- A page grid: rows of string cells (the JSON shape `string[][]`). -/
abbrev Grid := List (List String)

/-- `PageDataMap`: page key → grid, as an insertion-ordered association list. -/
abbrev PageDataMap := List (String × Grid)

/-- JS `obj[k] = v` on an object modelled as an association list:
overwrite in place when the key exists, otherwise append. -/
def objInsert (m : PageDataMap) (k : String) (v : Grid) : PageDataMap :=
  if m.any (fun p => p.1 == k) then
    m.map (fun p => if p.1 == k then (k, v) else p)
  else m ++ [(k, v)]

/-! ### PageRenumberer and SortKeyExtractor
(`geminiService.ts` lines 63–79, `excelHelper.ts` lines 26–30) -/

/-- Embedding of `s.replace(/\D/g, '')`: the decimal digits of `s`, in order. -/
def stripNonDigits (s : String) : List Char := s.data.filter Char.isDigit

/-- Embedding of `parseInt` on a nonempty all-digit string (the only way the
code reaches it with a non-NaN result): base-10 left fold. -/
def parseDigits (ds : List Char) : Nat :=
  ds.foldl (fun a c => a * 10 + (c.toNat - 48)) 0

/-- `geminiService.ts` lines 63–78: map a batch-local key to a global key.
`i` is the window's 0-based start index (the loop variable `i`).
If stripping non-digits leaves something, `parseInt` it and render
`i + localNum`; otherwise fall back to `` `${localKey}_batch_${startPage}` ``
with `startPage = i + 1`. -/
def toGlobalKey (i : Nat) (localKey : String) : String :=
  let ds := stripNonDigits localKey
  if ds.isEmpty then
    localKey ++ "_batch_" ++ Nat.repr (i + 1)
  else
    Nat.repr (i + parseDigits ds)

/-- `excelHelper.ts` lines 27–28: `parseInt(a.replace(/\D/g, '')) || 0`
(NaN coalesces to 0). -/
def sortKey (s : String) : Nat :=
  let ds := stripNonDigits s
  if ds.isEmpty then 0 else parseDigits ds

/-! ### Batch windows (`geminiService.ts` lines 31–33) -/

/-- Number of pages per AI request (`geminiService.ts` line 7). -/
def BATCH_SIZE : Nat := 3

/-- The windows produced by `for (let i = 0; i < totalPages; i += BATCH_SIZE)`
with `endPage = Math.min(i + BATCH_SIZE, totalPages)`, as 0-based half-open
pairs `(i, end)`; recursion is on the remaining page count. -/
def mkWindowsFrom (i : Nat) : Nat → List (Nat × Nat)
  | 0 => []
  | 1 => [(i, i + 1)]
  | 2 => [(i, i + 2)]
  | r + 3 => (i, i + 3) :: mkWindowsFrom (i + 3) r

/-- All batch windows of a document with `totalPages` pages. -/
def mkWindows (totalPages : Nat) : List (Nat × Nat) := mkWindowsFrom 0 totalPages

/-! ### BatchOrchestrator (`geminiService.ts` `processFile`, lines 26–91) -/

/-- The progress string of line 36 (`startPage`/`endPage` are 1-based). -/
def progressMsg (startPage endPage totalPages : Nat) : String :=
  "正在分析第 " ++ Nat.repr startPage ++ " - " ++ Nat.repr endPage ++
    " 頁 (共 " ++ Nat.repr totalPages ++ " 頁)..."

/-- The batch-failure wrapper of line 86; `cause` is the underlying error's
`.message` (the non-`Error` fallback branch `"未知錯誤"` is not modelled:
the extraction call is parameterised by its message already). -/
def batchErrMsg (startPage endPage : Nat) (cause : String) : String :=
  "第 " ++ Nat.repr startPage ++ "-" ++ Nat.repr endPage ++
    " 頁處理失敗: " ++ cause

/-- Lines 63–79: merge one batch fragment into the aggregate, key by key,
remapping each batch-local key through `toGlobalKey` with window start `i`. -/
def mergeBatch (acc : PageDataMap) (i : Nat) (frag : PageDataMap) : PageDataMap :=
  frag.foldl (fun a kv => objInsert a (toGlobalKey i kv.1) kv.2) acc

/-- Observable outcome of one `processFile` run: the progress strings emitted,
the windows for which the extraction call was made (as `(start, end)` 0-based
pairs, in order), and the returned map or thrown error message. -/
structure RunResult where
  progress : List String
  called : List (Nat × Nat)
  result : Except String PageDataMap

/-- The batch loop of `processFile` (lines 31–88) over its window list.
`call s e` is the (awaited) `callGeminiWithRetry` outcome for the window
`[s, e)`: a batch-local fragment or the thrown cause's message. -/
def runWindows (call : Nat → Nat → Except String PageDataMap) (totalPages : Nat) :
    List (Nat × Nat) → PageDataMap → RunResult
  | [], acc => ⟨[], [], .ok acc⟩
  | (s, e) :: ws, acc =>
    let msg := progressMsg (s + 1) e totalPages
    match call s e with
    | .error cause => ⟨[msg], [(s, e)], .error (batchErrMsg (s + 1) e cause)⟩
    | .ok frag =>
      let r := runWindows call totalPages ws (mergeBatch acc s frag)
      ⟨msg :: r.progress, (s, e) :: r.called, r.result⟩

/-- `processFile`'s page-processing core for a loaded document with
`totalPages` pages, starting from the empty aggregate (line 27). -/
def processFile (call : Nat → Nat → Except String PageDataMap)
    (totalPages : Nat) : RunResult :=
  runWindows call totalPages (mkWindows totalPages) []

/-! ### Excel export (`src/utils/excelHelper.ts`) -/

/-- A raw cell value as `sanitizeGridData` receives it. `GridData` is typed
`string[][]`, but the helper defends against `null`/`undefined` cells. -/
inductive Cell where
  | str (s : String)
  | nullV
  | undefV
deriving DecidableEq

/-- Lines 12–13: `null`/`undefined` become `""`, anything else `String(cell)`
(the identity on strings). -/
def sanitizeCell : Cell → String
  | .str s => s
  | .nullV => ""
  | .undefV => ""

abbrev RawGrid := List (List Cell)
abbrev RawPageDataMap := List (String × RawGrid)

/-- `sanitizeGridData` (lines 6–16). In the typed model rows are always
arrays, so the `!Array.isArray` guards are vacuous. -/
def sanitizeGridData (rows : RawGrid) : List (List String) :=
  rows.map (fun row => row.map sanitizeCell)

/-- JS `data[pageKey]` lookup (`undefined` would sanitize to `[]`). -/
def jsGet (data : RawPageDataMap) (k : String) : RawGrid :=
  match data.find? (fun p => p.1 == k) with
  | some p => p.2
  | none => []

/-- Lines 26–30: the page keys sorted by numeric sort key. JS `Array.sort`
with a consistent comparator is a stable sort, embedded as insertion sort. -/
def sortedPages (data : RawPageDataMap) : List String :=
  List.insertionSort (fun a b => sortKey a ≤ sortKey b) (data.map Prod.fst)

/-- Merge mode (lines 23–39): fold the sorted pages, appending each page's
sanitized rows and then `allRows.push([])`. -/
def mergeRows (data : RawPageDataMap) : List (List String) :=
  (sortedPages data).foldl
    (fun allRows pageKey =>
      (allRows ++ sanitizeGridData (jsGet data pageKey)) ++ [[]]) []

/-! ## Window lemmas -/

theorem mkWindowsFrom_join : ∀ (r i : Nat),
    ((mkWindowsFrom i r).map (fun w => List.range' w.1 (w.2 - w.1))).flatten
      = List.range' i r
  | 0, i => by simp [mkWindowsFrom]
  | 1, i => by simp [mkWindowsFrom, Nat.add_sub_cancel_left]
  | 2, i => by simp [mkWindowsFrom, Nat.add_sub_cancel_left]
  | r + 3, i => by
    have ih := mkWindowsFrom_join r (i + 3)
    simp only [mkWindowsFrom, List.map_cons, List.flatten_cons, ih,
      Nat.add_sub_cancel_left]
    have := List.range'_append_1 i 3 r
    rw [this, Nat.add_comm r 3]

theorem mkWindowsFrom_length : ∀ (r i : Nat),
    (mkWindowsFrom i r).length = (r + 2) / 3
  | 0, _ => rfl
  | 1, _ => rfl
  | 2, _ => rfl
  | r + 3, i => by
    have ih := mkWindowsFrom_length r (i + 3)
    simp only [mkWindowsFrom, List.length_cons, ih]
    omega

theorem mkWindowsFrom_width : ∀ (r i : Nat) (w : Nat × Nat),
    w ∈ mkWindowsFrom i r → w.1 < w.2 ∧ w.2 - w.1 ≤ 3
  | 0, _, _ => by simp [mkWindowsFrom]
  | 1, i, w => by
    simp only [mkWindowsFrom, List.mem_singleton]
    rintro rfl; omega
  | 2, i, w => by
    simp only [mkWindowsFrom, List.mem_singleton]
    rintro rfl; omega
  | r + 3, i, w => by
    simp only [mkWindowsFrom, List.mem_cons]
    rintro (rfl | hw)
    · omega
    · exact mkWindowsFrom_width r (i + 3) w hw

theorem mkWindowsFrom_full : ∀ (r i : Nat) (w : Nat × Nat),
    w ∈ (mkWindowsFrom i r).dropLast → w.2 - w.1 = 3
  | 0, _, _ => by simp [mkWindowsFrom]
  | 1, i, w => by simp [mkWindowsFrom]
  | 2, i, w => by simp [mkWindowsFrom]
  | r + 3, i, w => by
    cases hr : mkWindowsFrom (i + 3) r with
    | nil => simp [mkWindowsFrom, hr]
    | cons x xs =>
      simp only [mkWindowsFrom, hr, List.dropLast_cons₂, List.mem_cons]
      rintro (rfl | hw)
      · omega
      · have := mkWindowsFrom_full r (i + 3) w
        rw [hr] at this
        exact this hw

/-! ## Claims C1, C10, C2, C6 -/

/-- **C1** (confirmed). For every `totalPages = N ≥ 0`, the batch loop
produces exactly `ceil(N / 3)` windows (`BATCH_SIZE = 3`); mapped to their
0-based index ranges they concatenate, in order, to exactly `[0, N)`
(consecutive, no overlap, no gap); every window is nonempty of width at most
`BATCH_SIZE`, and every window except possibly the last has width exactly
`BATCH_SIZE`. -/
theorem c1_batch_windows (N : Nat) :
    (mkWindows N).length = (N + BATCH_SIZE - 1) / BATCH_SIZE ∧
    ((mkWindows N).map (fun w => List.range' w.1 (w.2 - w.1))).flatten
      = List.range N ∧
    (∀ w ∈ mkWindows N, w.1 < w.2 ∧ w.2 - w.1 ≤ BATCH_SIZE) ∧
    (∀ w ∈ (mkWindows N).dropLast, w.2 - w.1 = BATCH_SIZE) := by
  refine ⟨?_, ?_, ?_, ?_⟩
  · rw [mkWindows, mkWindowsFrom_length, BATCH_SIZE]
    congr 1
  · rw [mkWindows, mkWindowsFrom_join, List.range_eq_range']
  · exact fun w hw => mkWindowsFrom_width N 0 w hw
  · exact fun w hw => mkWindowsFrom_full N 0 w hw

/-- **C10** (confirmed). A 0-page document: the batch loop body is never
entered, so no extraction call is made, no progress message is emitted, and
the empty map is returned. -/
theorem c10_empty_document (call : Nat → Nat → Except String PageDataMap) :
    processFile call 0 = ⟨[], [], Except.ok []⟩ := rfl

/-! ### C2: digit extraction in `toGlobalKey` -/

theorem foldl_digits (ds : List Char) : ∀ (a : Nat),
    ds.foldl (fun a c => a * 10 + (c.toNat - 48)) a
      = a * 10 ^ ds.length
        + Nat.ofDigits 10 (ds.reverse.map (fun c => c.toNat - 48)) := by
  induction ds with
  | nil => intro a; simp [Nat.ofDigits]
  | cons c ds ih =>
    intro a
    have happ : Nat.ofDigits 10 ((c :: ds).reverse.map (fun c => c.toNat - 48))
        = Nat.ofDigits 10 (ds.reverse.map (fun c => c.toNat - 48))
          + 10 ^ ds.length * (c.toNat - 48) := by
      rw [List.reverse_cons, List.map_append, Nat.ofDigits_append]
      simp [Nat.ofDigits]
    rw [List.foldl_cons, ih, happ, List.length_cons]
    ring

theorem parseDigits_eq_ofDigits (ds : List Char) :
    parseDigits ds = Nat.ofDigits 10 (ds.reverse.map (fun c => c.toNat - 48)) := by
  rw [parseDigits, foldl_digits]
  simp

/-- Modelled from the claim's words, for comparison with the code's
behaviour: the longest maximal run of consecutive decimal digits in the key
(the first such run on ties). -/
def longestDigitRun (s : String) : List Char :=
  (s.data.foldl
    (fun st c =>
      if c.isDigit then
        let cur := st.1 ++ [c]
        (cur, if st.2.length < cur.length then cur else st.2)
      else ([], st.2))
    ([], [])).2

/-- **C2** counterexample. On the key `"1a23"` the code strips the `'a'` and
concatenates *both* digit runs, giving `parseInt("123")` and the global key
`"123"`; the claim's "longest run of decimal digits" is `"23"`, which would
give global key `"23"` at window start 0. -/
theorem c2_counterexample :
    toGlobalKey 0 "1a23" = "123" ∧
    longestDigitRun "1a23" = ['2', '3'] ∧
    parseDigits (longestDigitRun "1a23") = 23 ∧
    toGlobalKey 0 "1a23" ≠ Nat.repr (0 + 23) := by decide

/-- **C2** amended: for every `windowStartIndex w ≥ 0` and every
`batchLocalKey` containing at least one decimal digit, the renumbering step
keeps the subsequence of *all* decimal digits of the key in order (stripping
every non-digit), parses that digit string as `localNumber` (characterised
here through `Nat.ofDigits` on the base-10 digit values), and produces the
decimal string of `w + localNumber`; in particular
`toGlobalKey 6 "3" = "9"`. -/
theorem c2_global_key (w : Nat) (key : String)
    (h : stripNonDigits key ≠ []) :
    toGlobalKey w key
      = Nat.repr (w + Nat.ofDigits 10
          ((stripNonDigits key).reverse.map (fun c => c.toNat - 48))) ∧
    toGlobalKey 6 "3" = "9" := by
  constructor
  · rw [toGlobalKey, ← parseDigits_eq_ofDigits]
    simp only [List.isEmpty_iff, h, if_false]
  · decide

theorem c2_global_key_witness :
    toGlobalKey 6 "3"
      = Nat.repr (6 + Nat.ofDigits 10
          ((stripNonDigits "3").reverse.map (fun c => c.toNat - 48))) ∧
    toGlobalKey 6 "3" = "9" :=
  c2_global_key 6 "3" (by decide)

/-! ### C6: the non-numeric fallback key -/

theorem digitChar_ne_underscore (m : Nat) : Nat.digitChar m ≠ '_' := by
  unfold Nat.digitChar
  rcases Nat.lt_or_ge m 16 with h | h
  · interval_cases m <;> decide
  · repeat rw [if_neg (by omega)]
    decide

theorem toDigitsCore_chars (b : Nat) : ∀ (fuel n : Nat) (ds : List Char)
    (c : Char), c ∈ Nat.toDigitsCore b fuel n ds →
    c ∈ ds ∨ ∃ m, c = Nat.digitChar m
  | 0, _, _, _ => fun h => Or.inl h
  | fuel + 1, n, ds, c => by
    intro h
    rw [Nat.toDigitsCore] at h
    by_cases hnb : n / b = 0
    · rw [if_pos hnb] at h
      rcases List.mem_cons.mp h with h | h
      · exact Or.inr ⟨n % b, h⟩
      · exact Or.inl h
    · rw [if_neg hnb] at h
      rcases toDigitsCore_chars b fuel (n / b) (Nat.digitChar (n % b) :: ds) c h with
        h | h
      · rcases List.mem_cons.mp h with h | h
        · exact Or.inr ⟨n % b, h⟩
        · exact Or.inl h
      · exact Or.inr h

theorem natRepr_no_underscore (n : Nat) : '_' ∉ (Nat.repr n).data := by
  intro h
  have : '_' ∈ Nat.toDigits 10 n := h
  rcases toDigitsCore_chars 10 (n + 1) n [] '_' this with h' | ⟨m, hm⟩
  · exact absurd h' (List.not_mem_nil _)
  · exact digitChar_ne_underscore m hm.symm

theorem intRepr_no_underscore (z : Int) : '_' ∉ (Int.repr z).data := by
  cases z with
  | ofNat m => exact natRepr_no_underscore m
  | negSucc m =>
    intro h
    rw [Int.repr, String.data_append] at h
    rcases List.mem_append.mp h with h | h
    · simp at h
    · exact natRepr_no_underscore (m + 1) h

/-- **C6** (confirmed). For every window start `w` and every key with no
decimal digit, the renumbering falls back to the original key concatenated
with a `_batch_` marker carrying the window's 1-based start page `w + 1`,
and the fallback key is never the decimal string of any integer (it always
contains `'_'`), so it cannot collide with a numeric global page key. -/
theorem c6_fallback_key (w : Nat) (key : String)
    (h : stripNonDigits key = []) :
    toGlobalKey w key = key ++ "_batch_" ++ Nat.repr (w + 1) ∧
    ∀ z : Int, toGlobalKey w key ≠ Int.repr z := by
  have h1 : toGlobalKey w key = key ++ "_batch_" ++ Nat.repr (w + 1) := by
    rw [toGlobalKey]
    simp only [h, List.isEmpty_nil, if_true]
  refine ⟨h1, fun z hz => ?_⟩
  have hu : '_' ∈ (toGlobalKey w key).data := by
    rw [h1, String.data_append, String.data_append]
    refine List.mem_append.mpr (Or.inl (List.mem_append.mpr (Or.inr ?_)))
    decide
  rw [hz] at hu
  exact intRepr_no_underscore z hu

theorem c6_fallback_key_witness :
    toGlobalKey 0 "page-x" = "page-x" ++ "_batch_" ++ Nat.repr 1 ∧
    toGlobalKey 0 "page-x" ≠ Int.repr 10 :=
  ⟨(c6_fallback_key 0 "page-x" (by decide)).1,
   (c6_fallback_key 0 "page-x" (by decide)).2 10⟩

/-! ### C3: all-or-nothing failure policy -/

theorem runWindows_fail (call : Nat → Nat → Except String PageDataMap)
    (N : Nat) : ∀ (ws : List (Nat × Nat)) (acc : PageDataMap)
    (j s e : Nat) (cause : String),
    ws[j]? = some (s, e) →
    (∀ k s' e', k < j → ws[k]? = some (s', e') →
      ∃ frag, call s' e' = Except.ok frag) →
    call s e = Except.error cause →
    (runWindows call N ws acc).result
        = Except.error (batchErrMsg (s + 1) e cause) ∧
    (runWindows call N ws acc).called = ws.take (j + 1) := by
  intro ws
  induction ws with
  | nil => intro acc j s e cause hj _ _; simp at hj
  | cons w tl ih =>
    intro acc j s e cause hj hok hfail
    obtain ⟨s0, e0⟩ := w
    cases j with
    | zero =>
      rw [List.getElem?_cons_zero] at hj
      obtain ⟨rfl, rfl⟩ : s0 = s ∧ e0 = e := by
        have := Option.some.inj hj
        exact ⟨congrArg Prod.fst this, congrArg Prod.snd this⟩
      rw [runWindows, hfail]
      exact ⟨rfl, rfl⟩
    | succ j =>
      obtain ⟨frag, hfrag⟩ :=
        hok 0 s0 e0 (Nat.succ_pos j) List.getElem?_cons_zero
      have hj' : tl[j]? = some (s, e) := by
        rw [List.getElem?_cons_succ] at hj; exact hj
      have hok' : ∀ k s' e', k < j → tl[k]? = some (s', e') →
          ∃ f, call s' e' = Except.ok f := by
        intro k s' e' hk hke
        refine hok (k + 1) s' e' (by omega) ?_
        rw [List.getElem?_cons_succ]; exact hke
      have hrec := ih (mergeBatch acc s0 frag) j s e cause hj' hok' hfail
      rw [runWindows, hfrag]
      exact ⟨hrec.1, by rw [List.take_succ_cons, ← hrec.2]⟩

/-- **C3** (confirmed). If the `j`-th batch call fails with message `cause`
while all earlier batches succeed, then the run's outcome is the thrown
error — no `PageDataMap` reaches the caller — whose message is exactly the
line-86 wrapper containing the 1-based display range `(s+1)-e` and the
cause's message, and the extraction call was made only for the first `j + 1`
windows: no later window is processed. -/
theorem c3_abort_on_failure (call : Nat → Nat → Except String PageDataMap)
    (N j s e : Nat) (cause : String)
    (hw : (mkWindows N)[j]? = some (s, e))
    (hok : ∀ k s' e', k < j → (mkWindows N)[k]? = some (s', e') →
      ∃ frag, call s' e' = Except.ok frag)
    (hfail : call s e = Except.error cause) :
    (processFile call N).result
        = Except.error (batchErrMsg (s + 1) e cause) ∧
    (processFile call N).called = (mkWindows N).take (j + 1) ∧
    (∃ t u, batchErrMsg (s + 1) e cause
        = t ++ (Nat.repr (s + 1) ++ "-" ++ Nat.repr e) ++ u) ∧
    (∃ t, batchErrMsg (s + 1) e cause = t ++ cause) := by
  have h := runWindows_fail call N (mkWindows N) [] j s e cause hw hok hfail
  refine ⟨h.1, h.2, ⟨"第 ", " 頁處理失敗: " ++ cause, ?_⟩,
    ⟨"第 " ++ Nat.repr (s + 1) ++ "-" ++ Nat.repr e ++ " 頁處理失敗: ", ?_⟩⟩
  · apply String.ext
    simp [batchErrMsg, String.data_append]
  · apply String.ext
    simp [batchErrMsg, String.data_append]

/-- The scenario-B extraction stub: the first window succeeds with an empty
fragment, every later window's remote call throws `"boom"`. -/
def exCall : Nat → Nat → Except String PageDataMap :=
  fun s _ => if s = 0 then Except.ok [] else Except.error "boom"

theorem c3_abort_on_failure_witness :
    (processFile exCall 5).result = Except.error (batchErrMsg 4 5 "boom") ∧
    (processFile exCall 5).called = (mkWindows 5).take 2 ∧
    (∃ t u, batchErrMsg 4 5 "boom"
        = t ++ (Nat.repr 4 ++ "-" ++ Nat.repr 5) ++ u) ∧
    (∃ t, batchErrMsg 4 5 "boom" = t ++ "boom") := by
  refine c3_abort_on_failure exCall 5 1 3 5 "boom" rfl ?_ rfl
  intro k s' e' hk hke
  interval_cases k
  have h0 : (mkWindows 5)[0]? = some ((0 : Nat), (3 : Nat)) := rfl
  rw [h0] at hke
  obtain ⟨rfl, rfl⟩ : (0 : Nat) = s' ∧ (3 : Nat) = e' := by
    have := Option.some.inj hke
    exact ⟨congrArg Prod.fst this, congrArg Prod.snd this⟩
  exact ⟨[], rfl⟩

/-! ### C8: merge-mode export -/

theorem foldl_pages (f : String → List (List String)) :
    ∀ (ks : List String) (acc : List (List String)),
    ks.foldl (fun allRows k => (allRows ++ f k) ++ [[]]) acc
      = acc ++ (ks.map (fun k => f k ++ [[]])).flatten := by
  intro ks
  induction ks with
  | nil => intro acc; simp
  | cons k ks ih =>
    intro acc
    rw [List.foldl_cons, ih, List.map_cons, List.flatten_cons]
    simp [List.append_assoc]

/-- **C8** counterexample. For the one-page map `{"1": [["a"]]}` the claim
demands `n - 1 = 0` separator rows, i.e. exported rows exactly `[["a"]]`;
the code's loop pushes a blank row after *every* page, including the last,
producing `[["a"], []]`. -/
theorem c8_counterexample :
    mergeRows [("1", [[Cell.str "a"]])] = [["a"], []] ∧
    mergeRows [("1", [[Cell.str "a"]])] ≠ [["a"]] := by
  have h1 : mergeRows [("1", [[Cell.str "a"]])] = [["a"], []] := rfl
  refine ⟨h1, fun h => ?_⟩
  rw [h1] at h
  exact absurd h (by decide)

/-- **C8** amended: in merge mode the export concatenates the pages' sanitized
rows with the pages ordered by numeric sort key (a stable sort of the keys,
so page `"10"` comes after page `"9"`), but it appends one blank separator
row after *every* page including the last: a map with `n ≥ 1` pages gets
exactly `n` separator rows (one per page), not `n - 1`. -/
theorem c8_merge_rows (data : RawPageDataMap) :
    mergeRows data
      = ((sortedPages data).map
          (fun k => sanitizeGridData (jsGet data k) ++ [[]])).flatten ∧
    List.Sorted (fun a b => sortKey a ≤ sortKey b) (sortedPages data) ∧
    (sortedPages data).Perm (data.map Prod.fst) ∧
    sortKey "9" < sortKey "10" := by
  haveI ht : IsTotal String (fun a b => sortKey a ≤ sortKey b) :=
    ⟨fun a b => Nat.le_total _ _⟩
  haveI htr : IsTrans String (fun a b => sortKey a ≤ sortKey b) :=
    ⟨fun _ _ _ => Nat.le_trans⟩
  refine ⟨?_, ?_, ?_, by decide⟩
  · rw [mergeRows, foldl_pages, List.nil_append]
  · exact List.sorted_insertionSort _ _
  · exact List.perm_insertionSort _ _

/-! ### C9: cell sanitisation -/

/-- **C9** (confirmed). `sanitizeGridData` preserves the grid's shape, maps
every cell through the string coercion (its output rows contain only
strings), and coerces `null` and `undefined` cells to `""`. -/
theorem c9_sanitize_cells (rows : RawGrid) (i j : Nat) (c : Cell)
    (h : (rows[i]?.bind (fun r => r[j]?)) = some c) :
    ((sanitizeGridData rows)[i]?.bind (fun r => r[j]?))
        = some (sanitizeCell c) ∧
    sanitizeCell Cell.nullV = "" ∧ sanitizeCell Cell.undefV = "" := by
  refine ⟨?_, rfl, rfl⟩
  rcases hri : rows[i]? with _ | row
  · rw [hri] at h; simp at h
  · rw [hri] at h
    rw [Option.some_bind] at h
    rw [sanitizeGridData, List.getElem?_map, hri]
    simp only [Option.map_some', Option.some_bind]
    rw [List.getElem?_map, h]
    rfl

theorem c9_sanitize_cells_witness :
    ((sanitizeGridData [[Cell.nullV]])[0]?.bind (fun r => r[0]?))
        = some "" ∧
    sanitizeCell Cell.nullV = "" ∧ sanitizeCell Cell.undefV = "" :=
  c9_sanitize_cells [[Cell.nullV]] 0 0 Cell.nullV (by decide)

/-! ### JSON: `JSON.parse` / `JSON.stringify` embedding
(`geminiService.ts` lines 154–192) -/

/-- JSON whitespace. -/
def jWs (c : Char) : Bool := c = ' ' || c = '\t' || c = '\n' || c = '\r'

def skipWs : List Char → List Char
  | [] => []
  | c :: r => if jWs c then skipWs r else c :: r

/-- A JSON value as produced by `JSON.parse`.
* Numeric tokens are kept in source form (`jnum`): no claim in this
  development depends on number-value (floating-point) semantics.
* Objects are member lists; repeated keys are resolved last-write-wins at
  parse time, as JS object construction does (JS's numeric-key iteration
  order is abstracted; the data model declares the map order-irrelevant).
* `\uXXXX` escapes decode to the scalar value; surrogate-pair recombination
  is not modelled (Lean `Char` has no lone surrogates); no claim exercises
  it. -/
inductive JVal where
  | jnull : JVal
  | jbool : Bool → JVal
  | jnum : List Char → JVal
  | jstr : List Char → JVal
  | jarr : List JVal → JVal
  | jobj : List (List Char × JVal) → JVal

/-- JS object member assignment (last write wins, first position kept). -/
def jsObjAssign (m : List (List Char × JVal)) (k : List Char) (v : JVal) :
    List (List Char × JVal) :=
  if m.any (fun p => p.1 == k) then
    m.map (fun p => if p.1 == k then (k, v) else p)
  else m ++ [(k, v)]

def hexVal (c : Char) : Option Nat :=
  if '0' ≤ c ∧ c ≤ '9' then some (c.toNat - 48)
  else if 'a' ≤ c ∧ c ≤ 'f' then some (c.toNat - 87)
  else if 'A' ≤ c ∧ c ≤ 'F' then some (c.toNat - 55)
  else none

/-- Parse the body of a JSON string literal (after the opening quote):
returns the decoded content and the input after the closing quote. Raw
control characters below 0x20 are rejected, as `JSON.parse` does. -/
def escDecode (e : Char) : Option Char :=
  if e = '"' then some '"'
  else if e = '\\' then some '\\'
  else if e = '/' then some '/'
  else if e = 'b' then some (Char.ofNat 8)
  else if e = 'f' then some (Char.ofNat 12)
  else if e = 'n' then some (Char.ofNat 10)
  else if e = 'r' then some (Char.ofNat 13)
  else if e = 't' then some (Char.ofNat 9)
  else none

def parseStrBody : List Char → Option (List Char × List Char)
  | [] => none
  | c :: r =>
    if c = '"' then some ([], r)
    else if c = '\\' then
      match r with
      | [] => none
      | e :: r2 =>
        if e = 'u' then
          match r2 with
          | h1 :: h2 :: h3 :: h4 :: r3 =>
            (match hexVal h1, hexVal h2, hexVal h3, hexVal h4 with
             | some a, some b, some cc, some d =>
               (fun p =>
                 (Char.ofNat (((a * 16 + b) * 16 + cc) * 16 + d) :: p.1, p.2)) <$>
                 parseStrBody r3
             | _, _, _, _ => none)
          | _ => none
        else
          match escDecode e with
          | some cc => (fun p => (cc :: p.1, p.2)) <$> parseStrBody r2
          | none => none
    else if c.toNat < 32 then none
    else (fun p => (c :: p.1, p.2)) <$> parseStrBody r

/-- JSON integer part: `0 | [1-9][0-9]*`. -/
def parseIntPart : List Char → Option (List Char × List Char)
  | '0' :: r => some (['0'], r)
  | c :: r =>
    if c.isDigit then some (c :: (r.span Char.isDigit).1, (r.span Char.isDigit).2)
    else none
  | [] => none

/-- JSON fraction part: `(\.[0-9]+)?`. -/
def parseFracPart : List Char → Option (List Char × List Char)
  | '.' :: r =>
    if (r.span Char.isDigit).1.isEmpty then none
    else some ('.' :: (r.span Char.isDigit).1, (r.span Char.isDigit).2)
  | r => some ([], r)

/-- JSON exponent part: `([eE][+-]?[0-9]+)?`. -/
def parseExpPart : List Char → Option (List Char × List Char)
  | e :: s :: r =>
    if e = 'e' ∨ e = 'E' then
      if s = '+' ∨ s = '-' then
        if ((r.span Char.isDigit).1).isEmpty then none
        else some (e :: s :: (r.span Char.isDigit).1, (r.span Char.isDigit).2)
      else
        if (((s :: r).span Char.isDigit).1).isEmpty then none
        else some (e :: ((s :: r).span Char.isDigit).1, ((s :: r).span Char.isDigit).2)
    else some ([], e :: s :: r)
  | [e] => if e = 'e' ∨ e = 'E' then none else some ([], [e])
  | [] => some ([], [])

/-- A JSON number token, kept as raw text. -/
def parseNumTok (s : List Char) : Option (List Char × List Char) :=
  let sgn : List Char × List Char :=
    match s with
    | '-' :: r => (['-'], r)
    | r => ([], r)
  match parseIntPart sgn.2 with
  | none => none
  | some (ip, r2) =>
    match parseFracPart r2 with
    | none => none
    | some (fp, r3) =>
      match parseExpPart r3 with
      | none => none
      | some (ep, r4) => some (sgn.1 ++ ip ++ fp ++ ep, r4)

mutual

/-- `JSON.parse` value parse. The head of the input is already significant
(callers skip whitespace first). The fuel only bounds recursion depth; it
never runs out when it exceeds the input length. -/
def parseVal : Nat → List Char → Option (JVal × List Char)
  | 0, _ => none
  | f + 1, s =>
    match s with
    | [] => none
    | c :: r =>
      if c = '{' then
        match skipWs r with
        | [] => none
        | d :: r2 =>
          if d = '}' then some (.jobj [], r2)
          else (fun p => (JVal.jobj p.1, p.2)) <$> parseMembers f (d :: r2) []
      else if c = '[' then
        match skipWs r with
        | [] => none
        | d :: r2 =>
          if d = ']' then some (.jarr [], r2)
          else (fun p => (JVal.jarr p.1, p.2)) <$> parseElems f (d :: r2)
      else if c = '"' then (fun p => (JVal.jstr p.1, p.2)) <$> parseStrBody r
      else if c = 't' then
        match r with
        | 'r' :: 'u' :: 'e' :: r2 => some (.jbool true, r2)
        | _ => none
      else if c = 'f' then
        match r with
        | 'a' :: 'l' :: 's' :: 'e' :: r2 => some (.jbool false, r2)
        | _ => none
      else if c = 'n' then
        match r with
        | 'u' :: 'l' :: 'l' :: r2 => some (.jnull, r2)
        | _ => none
      else (fun p => (JVal.jnum p.1, p.2)) <$> parseNumTok (c :: r)

/-- Object members from the first key's opening quote; builds the object by
JS member assignment. -/
def parseMembers : Nat → List Char → List (List Char × JVal) →
    Option (List (List Char × JVal) × List Char)
  | 0, _, _ => none
  | f + 1, s, acc =>
    match s with
    | [] => none
    | c :: r =>
      if c = '"' then
        match parseStrBody r with
        | none => none
        | some (key, r2) =>
          match skipWs r2 with
          | [] => none
          | d :: r3 =>
            if d = ':' then
              match parseVal f (skipWs r3) with
              | none => none
              | some (v, r4) =>
                match skipWs r4 with
                | [] => none
                | d2 :: r5 =>
                  if d2 = ',' then
                    parseMembers f (skipWs r5) (jsObjAssign acc key v)
                  else if d2 = '}' then some (jsObjAssign acc key v, r5)
                  else none
            else none
      else none

/-- Array elements from the first element's first significant character. -/
def parseElems : Nat → List Char → Option (List JVal × List Char)
  | 0, _ => none
  | f + 1, s =>
    match parseVal f s with
    | none => none
    | some (v, r) =>
      match skipWs r with
      | [] => none
      | d :: r2 =>
        if d = ',' then (fun p => (v :: p.1, p.2)) <$> parseElems f (skipWs r2)
        else if d = ']' then some ([v], r2)
        else none

end

/-- `JSON.parse`: whole-input parse, trailing whitespace only. -/
def jsonParse (s : List Char) : Option JVal :=
  match parseVal (s.length + 1) (skipWs s) with
  | some (v, rest) => if (skipWs rest).isEmpty then some v else none
  | none => none

/-- `JSON.stringify`'s escape of one character. -/
def escChar (c : Char) : List Char :=
  if c = '"' then ['\\', '"']
  else if c = '\\' then ['\\', '\\']
  else if c = Char.ofNat 8 then ['\\', 'b']
  else if c = Char.ofNat 9 then ['\\', 't']
  else if c = Char.ofNat 10 then ['\\', 'n']
  else if c = Char.ofNat 12 then ['\\', 'f']
  else if c = Char.ofNat 13 then ['\\', 'r']
  else if c.toNat < 32 then
    ['\\', 'u', '0', '0', Nat.digitChar (c.toNat / 16), Nat.digitChar (c.toNat % 16)]
  else [c]

def escStr (s : List Char) : List Char := (s.map escChar).flatten

/-- A serialized JSON string literal. -/
def serStr (s : List Char) : List Char := '"' :: escStr s ++ ['"']

/-- `,`-joined concatenation. -/
def joinComma : List (List Char) → List Char
  | [] => []
  | [x] => x
  | x :: xs => x ++ ',' :: joinComma xs

def serRow (row : List String) : List Char :=
  '[' :: joinComma (row.map (fun c => serStr c.data)) ++ [']']

def serGrid (g : Grid) : List Char :=
  '[' :: joinComma (g.map serRow) ++ [']']

def serMember (kv : String × Grid) : List Char :=
  serStr kv.1.data ++ ':' :: serGrid kv.2

/-- `JSON.stringify` of a `PageDataMap` (default stringify: one line,
no added whitespace). -/
def serializePM (m : PageDataMap) : List Char :=
  '{' :: joinComma (m.map serMember) ++ ['}']

/-- The `JVal` denotation of a grid. -/
def encodeGrid (g : Grid) : JVal :=
  .jarr (g.map (fun row => .jarr (row.map (fun c => JVal.jstr c.data))))

/-- The `JVal` denotation of a `PageDataMap`. -/
def encodePM (m : PageDataMap) : JVal :=
  .jobj (m.map (fun kv => (kv.1.data, encodeGrid kv.2)))

/-! ### Response preprocessing (lines 157–163) -/

/-- The whitespace class of the embedded JS `trim` / `\s` (the common
subset; exotic Unicode spaces are not modelled). -/
def jsTrimWs (c : Char) : Bool :=
  c = ' ' || c = '\t' || c = '\n' || c = '\r' ||
    c = Char.ofNat 11 || c = Char.ofNat 12

def trimBoth (s : List Char) : List Char :=
  ((s.dropWhile jsTrimWs).reverse.dropWhile jsTrimWs).reverse

/-- The backtick character. -/
def btick : Char := Char.ofNat 96

/-- `replace(/^(backtick){3}(json)?/i, '')` on a string starting with the
fence. -/
def stripFenceStart (s : List Char) : List Char :=
  match s with
  | a :: b :: c :: r =>
    if a = btick ∧ b = btick ∧ c = btick then
      match r with
      | c1 :: c2 :: c3 :: c4 :: r2 =>
        if c1.toLower = 'j' ∧ c2.toLower = 's' ∧ c3.toLower = 'o' ∧ c4.toLower = 'n'
        then r2 else r
      | _ => r
    else s
  | _ => s

/-- `replace(/(backtick){3}$/, '')`: JS `$` without the `m` flag matches at
the very end or just before one final newline. -/
def stripFenceEnd (s : List Char) : List Char :=
  if s.reverse.take 3 = [btick, btick, btick] then (s.reverse.drop 3).reverse
  else if s.reverse.take 4 = ['\n', btick, btick, btick] then
    (s.reverse.drop 4).reverse ++ ['\n']
  else s

/-- Split into lines at `'\n'`. -/
def splitLines : List Char → List (List Char)
  | [] => [[]]
  | c :: r =>
    if c = '\n' then [] :: splitLines r
    else
      match splitLines r with
      | [] => [[c]]
      | l :: ls => (c :: l) :: ls

def joinLines : List (List Char) → List Char
  | [] => []
  | [l] => l
  | l :: ls => l ++ '\n' :: joinLines ls

/-- A line matched by the comment regex `^\s*[/][/].*$`. -/
def isCommentLine (l : List Char) : Bool :=
  match l.dropWhile jsTrimWs with
  | c1 :: c2 :: _ => c1 = '/' && c2 = '/'
  | _ => false

/-- The `gm`-flagged comment-line erasure, per line. (JS's `\s*` may
additionally swallow the newlines of preceding all-whitespace lines; the
difference is whitespace-only and invisible to the subsequent parse.) -/
def stripCommentLines (s : List Char) : List Char :=
  joinLines ((splitLines s).map (fun l => if isCommentLine l then [] else l))

/-- `indexOf('{')` + `substring` (lines 162–163). -/
def cutToBrace (s : List Char) : List Char :=
  match s.findIdx? (fun c => c = '{') with
  | some i => s.drop i
  | none => s

/-- Lines 157–163: trim; if fenced, strip the leading marker (with optional
case-insensitive `json` tag) and the trailing marker and re-trim; erase
comment-only lines; cut to the first `{`. -/
def preprocess (s : List Char) : List Char :=
  let t1 := trimBoth s
  let t2 :=
    if t1.take 3 = [btick, btick, btick] then
      trimBoth (stripFenceEnd (stripFenceStart t1))
    else t1
  cutToBrace (stripCommentLines t2)

/-! ### Truncation repair (lines 165–192) -/

/-- `lastIndexOf('],')`. -/
def lastIdxRowSep (s : List Char) : Option Nat :=
  (List.range s.length).reverse.find?
    (fun i => decide ((s.drop i).take 2 = [']', ',']))

/-- `lastIndexOf(']')`. -/
def lastIdxBracket (s : List Char) : Option Nat :=
  (List.range s.length).reverse.find?
    (fun i => decide ((s.drop i).take 1 = [']']))

/-- `tryRepairJson` (lines 175–192): cut just after the last `],`'s bracket
(or, failing that, after the last `]`), then try the closing suffixes `}}`,
`]}`, `]]}` in order; the source ends with one redundant final `]}` retry. -/
def tryRepairJson (s : List Char) : Option JVal :=
  let cutIndex : Option Nat :=
    match lastIdxRowSep s with
    | some i => some (i + 1)
    | none =>
      match lastIdxBracket s with
      | some i => some (i + 1)
      | none => none
  match cutIndex with
  | none => none
  | some ci =>
    let fixedStr := s.take ci
    match jsonParse (fixedStr ++ ['}', '}']) with
    | some v => some v
    | none =>
      match jsonParse (fixedStr ++ [']', '}']) with
      | some v => some v
      | none =>
        match jsonParse (fixedStr ++ [']', ']', '}']) with
        | some v => some v
        | none => jsonParse (fixedStr ++ [']', '}'])

/-- Lines 157–172: preprocess, direct `JSON.parse`, then the repair path;
the thrown message carries the `(Truncated)` diagnostic. -/
def parseWithRepair (s : List Char) : Except String JVal :=
  match jsonParse (preprocess s) with
  | some v => Except.ok v
  | none =>
    match tryRepairJson (preprocess s) with
    | some v => Except.ok v
    | none => Except.error "JSON 解析失敗 (Truncated)"

/-- The direct parse path alone (no repair). -/
def parsePayload (s : List Char) : Option JVal := jsonParse (preprocess s)

/-! ### Round-trip lemmas: string escaping -/

theorem hexVal_digitChar (m : Nat) (h : m < 16) : hexVal (Nat.digitChar m) = some m := by
  interval_cases m <;> decide

theorem parseStrBody_escChar (c : Char) (t out rest : List Char)
    (h : parseStrBody t = some (out, rest)) :
    parseStrBody (escChar c ++ t) = some (c :: out, rest) := by
  rw [escChar]
  split
  · rename_i hc; subst hc; rw [List.cons_append, List.singleton_append,
      parseStrBody.eq_def]; simp [escDecode, h]
  split
  · rename_i hc; subst hc; rw [List.cons_append, List.singleton_append,
      parseStrBody.eq_def]; simp [escDecode, h]
  split
  · rename_i hc; subst hc; rw [List.cons_append, List.singleton_append,
      parseStrBody.eq_def]; simp [escDecode, h]
  split
  · rename_i hc; subst hc; rw [List.cons_append, List.singleton_append,
      parseStrBody.eq_def]; simp [escDecode, h]
  split
  · rename_i hc; subst hc; rw [List.cons_append, List.singleton_append,
      parseStrBody.eq_def]; simp [escDecode, h]
  split
  · rename_i hc; subst hc; rw [List.cons_append, List.singleton_append,
      parseStrBody.eq_def]; simp [escDecode, h]
  split
  · rename_i hc; subst hc; rw [List.cons_append, List.singleton_append,
      parseStrBody.eq_def]; simp [escDecode, h]
  split
  · rename_i hlt
    have e0 : hexVal '0' = some 0 := by decide
    have e1 : hexVal (Nat.digitChar (c.toNat / 16)) = some (c.toNat / 16) :=
      hexVal_digitChar _ (by omega)
    have e2 : hexVal (Nat.digitChar (c.toNat % 16)) = some (c.toNat % 16) :=
      hexVal_digitChar _ (by omega)
    simp only [List.cons_append, List.nil_append]
    rw [parseStrBody.eq_def]
    simp [e0, e1, e2, h]
    have hx : c.toNat / 16 * 16 + c.toNat % 16 = c.toNat := by omega
    rw [hx, Char.ofNat_toNat]
  · rename_i h1 h2 h3 h4 h5 h6 h7 h8
    rw [List.singleton_append, parseStrBody.eq_def]
    simp [h1, h2, h8, h]

theorem parseStrBody_escStr (s rest : List Char) :
    parseStrBody (escStr s ++ '"' :: rest) = some (s, rest) := by
  induction s with
  | nil => rw [escStr]; simp only [List.map_nil, List.flatten_nil, List.nil_append]; rw [parseStrBody.eq_def]; simp
  | cons c s ih =>
    rw [escStr, List.map_cons, List.flatten_cons, List.append_assoc]
    exact parseStrBody_escChar c _ s rest ih

/-! ### Round-trip lemmas: parser on serializer output -/

theorem skipWs_cons (c : Char) (r : List Char) (h : jWs c = false) :
    skipWs (c :: r) = c :: r := by
  rw [skipWs]
  simp [h]

theorem parseVal_succ_quote (f : Nat) (r : List Char) :
    parseVal (f + 1) ('"' :: r)
      = (fun p => (JVal.jstr p.1, p.2)) <$> parseStrBody r := rfl

theorem parseVal_succ_lcurl (f : Nat) (r : List Char) :
    parseVal (f + 1) ('{' :: r)
      = (match skipWs r with
         | [] => none
         | d :: r2 =>
           if d = '}' then some (.jobj [], r2)
           else (fun p => (JVal.jobj p.1, p.2)) <$> parseMembers f (d :: r2) []) := rfl

theorem parseVal_succ_lbrack (f : Nat) (r : List Char) :
    parseVal (f + 1) ('[' :: r)
      = (match skipWs r with
         | [] => none
         | d :: r2 =>
           if d = ']' then some (.jarr [], r2)
           else (fun p => (JVal.jarr p.1, p.2)) <$> parseElems f (d :: r2)) := rfl

theorem parseElems_succ (f : Nat) (s : List Char) :
    parseElems (f + 1) s
      = (match parseVal f s with
         | none => none
         | some (v, r) =>
           match skipWs r with
           | [] => none
           | d :: r2 =>
             if d = ',' then (fun p => (v :: p.1, p.2)) <$> parseElems f (skipWs r2)
             else if d = ']' then some ([v], r2)
             else none) := rfl

theorem parseMembers_succ_quote (f : Nat) (r : List Char)
    (acc : List (List Char × JVal)) :
    parseMembers (f + 1) ('"' :: r) acc
      = (match parseStrBody r with
         | none => none
         | some (key, r2) =>
           match skipWs r2 with
           | [] => none
           | d :: r3 =>
             if d = ':' then
               match parseVal f (skipWs r3) with
               | none => none
               | some (v, r4) =>
                 match skipWs r4 with
                 | [] => none
                 | d2 :: r5 =>
                   if d2 = ',' then
                     parseMembers f (skipWs r5) (jsObjAssign acc key v)
                   else if d2 = '}' then some (jsObjAssign acc key v, r5)
                   else none
             else none) := rfl

theorem parseVal_serStr (f : Nat) (s rest : List Char) (hf : 1 ≤ f) :
    parseVal f (serStr s ++ rest) = some (.jstr s, rest) := by
  obtain ⟨g, rfl⟩ : ∃ g, f = g + 1 := ⟨f - 1, by omega⟩
  have hs : serStr s ++ rest = '"' :: (escStr s ++ '"' :: rest) := by
    rw [serStr]; simp [List.append_assoc]
  rw [hs, parseVal_succ_quote, parseStrBody_escStr]
  rfl

theorem joinComma_serStr_head (l : List String) (rest : List Char) (h : l ≠ []) :
    ∃ T, joinComma (l.map (fun c => serStr c.data)) ++ rest = '"' :: T := by
  cases l with
  | nil => exact absurd rfl h
  | cons x xs =>
    cases xs with
    | nil =>
      exact ⟨escStr x.data ++ ['"'] ++ rest, by
        simp [joinComma, serStr, List.append_assoc]⟩
    | cons y ys =>
      exact ⟨escStr x.data ++ ['"']
          ++ ',' :: joinComma ((y :: ys).map (fun c => serStr c.data)) ++ rest, by
        simp [joinComma, serStr, List.append_assoc]⟩

theorem joinComma_single (x : List Char) : joinComma [x] = x := rfl

theorem joinComma_cons_cons (x y : List Char) (ys : List (List Char)) :
    joinComma (x :: y :: ys) = x ++ ',' :: joinComma (y :: ys) := rfl

theorem parseElems_cells : ∀ (row : List String) (f : Nat) (rest : List Char),
    row ≠ [] → row.length + 1 ≤ f →
    parseElems f (joinComma (row.map (fun c => serStr c.data)) ++ ']' :: rest)
      = some (row.map (fun c => JVal.jstr c.data), rest)
  | [], _, _, h, _ => absurd rfl h
  | [c], f, rest, _, hf => by
    obtain ⟨g, rfl⟩ : ∃ g, f = g + 1 := ⟨f - 1, by omega⟩
    rw [List.map_cons, List.map_nil, joinComma_single, parseElems_succ]
    rw [parseVal_serStr g c.data (']' :: rest) (by simp at hf; omega)]
    dsimp only
    rw [skipWs_cons ']' rest (by decide)]
    simp
  | c :: c2 :: cs, f, rest, _, hf => by
    obtain ⟨g, rfl⟩ : ∃ g, f = g + 1 := ⟨f - 1, by omega⟩
    rw [List.map_cons, List.map_cons, joinComma_cons_cons]
    have hassoc :
        (serStr c.data ++ ',' :: joinComma (serStr c2.data :: cs.map (fun c => serStr c.data)))
            ++ ']' :: rest
          = serStr c.data ++
              (',' :: (joinComma (serStr c2.data :: cs.map (fun c => serStr c.data))
                ++ ']' :: rest)) := by
      simp [List.append_assoc]
    rw [hassoc, parseElems_succ]
    rw [parseVal_serStr g c.data _ (by simp at hf; omega)]
    dsimp only
    rw [skipWs_cons ',' _ (by decide)]
    dsimp only
    rw [if_pos rfl]
    obtain ⟨T, hT⟩ :=
      joinComma_serStr_head (c2 :: cs) (']' :: rest) (by simp)
    rw [List.map_cons] at hT
    rw [hT, skipWs_cons '"' T (by decide), ← hT]
    have hrec := parseElems_cells (c2 :: cs) g rest (by simp) (by simp at hf ⊢; omega)
    rw [List.map_cons] at hrec
    rw [hrec]
    simp



theorem joinComma_nil : joinComma [] = [] := rfl

theorem joinComma_serRow_head (rows : Grid) (rest : List Char) (h : rows ≠ []) :
    ∃ T, joinComma (rows.map serRow) ++ rest = '[' :: T := by
  cases rows with
  | nil => exact absurd rfl h
  | cons x xs =>
    cases xs with
    | nil =>
      exact ⟨joinComma (x.map (fun c => serStr c.data)) ++ [']'] ++ rest, by
        simp [joinComma_single, serRow, List.append_assoc]⟩
    | cons y ys =>
      exact ⟨joinComma (x.map (fun c => serStr c.data)) ++ [']']
          ++ ',' :: joinComma ((y :: ys).map serRow) ++ rest, by
        simp [joinComma_cons_cons, serRow, List.append_assoc]⟩

theorem parseVal_serRow (row : List String) (f : Nat) (rest : List Char)
    (hf : row.length + 2 ≤ f) :
    parseVal f (serRow row ++ rest)
      = some (.jarr (row.map (fun c => JVal.jstr c.data)), rest) := by
  obtain ⟨g, rfl⟩ : ∃ g, f = g + 1 := ⟨f - 1, by omega⟩
  have hs : serRow row ++ rest
      = '[' :: (joinComma (row.map (fun c => serStr c.data)) ++ ']' :: rest) := by
    rw [serRow]; simp [List.append_assoc]
  rw [hs, parseVal_succ_lbrack]
  cases row with
  | nil =>
    rw [List.map_nil, joinComma_nil, List.nil_append,
      skipWs_cons ']' rest (by decide)]
    simp
  | cons c cs =>
    obtain ⟨T, hT⟩ := joinComma_serStr_head (c :: cs) (']' :: rest) (by simp)
    rw [hT, skipWs_cons '"' T (by decide)]
    dsimp only
    rw [if_neg (by decide), ← hT]
    rw [parseElems_cells (c :: cs) g rest (by simp) (by simp at hf ⊢; omega)]
    rfl

theorem parseElems_rows : ∀ (rows : Grid) (f : Nat) (rest : List Char),
    rows ≠ [] → (rows.map (fun r => r.length + 3)).sum ≤ f →
    parseElems f (joinComma (rows.map serRow) ++ ']' :: rest)
      = some (rows.map
          (fun row => JVal.jarr (row.map (fun c => JVal.jstr c.data))), rest)
  | [], _, _, h, _ => absurd rfl h
  | [row], f, rest, _, hf => by
    simp only [List.map_cons, List.map_nil, List.sum_cons, List.sum_nil] at hf
    obtain ⟨g, rfl⟩ : ∃ g, f = g + 1 := ⟨f - 1, by omega⟩
    rw [List.map_cons, List.map_nil, joinComma_single, parseElems_succ]
    rw [parseVal_serRow row g (']' :: rest) (by omega)]
    dsimp only
    rw [skipWs_cons ']' rest (by decide)]
    simp
  | row :: row2 :: rows, f, rest, _, hf => by
    simp only [List.map_cons, List.sum_cons] at hf
    obtain ⟨g, rfl⟩ : ∃ g, f = g + 1 := ⟨f - 1, by omega⟩
    rw [List.map_cons, List.map_cons, joinComma_cons_cons]
    have hassoc :
        (serRow row ++ ',' :: joinComma (serRow row2 :: rows.map serRow))
            ++ ']' :: rest
          = serRow row ++
              (',' :: (joinComma (serRow row2 :: rows.map serRow)
                ++ ']' :: rest)) := by
      simp [List.append_assoc]
    rw [hassoc, parseElems_succ]
    rw [parseVal_serRow row g _ (by omega)]
    dsimp only
    rw [skipWs_cons ',' _ (by decide)]
    dsimp only
    rw [if_pos rfl]
    obtain ⟨T, hT⟩ := joinComma_serRow_head (row2 :: rows) (']' :: rest) (by simp)
    rw [List.map_cons] at hT
    rw [hT, skipWs_cons '[' T (by decide), ← hT]
    have hrec := parseElems_rows (row2 :: rows) g rest (by simp)
      (by simp only [List.map_cons, List.sum_cons]; omega)
    rw [List.map_cons] at hrec
    rw [hrec]
    simp

theorem parseVal_serGrid (rows : Grid) (f : Nat) (rest : List Char)
    (hf : (rows.map (fun r => r.length + 3)).sum + 1 ≤ f) :
    parseVal f (serGrid rows ++ rest) = some (encodeGrid rows, rest) := by
  obtain ⟨g, rfl⟩ : ∃ g, f = g + 1 := ⟨f - 1, by omega⟩
  have hs : serGrid rows ++ rest
      = '[' :: (joinComma (rows.map serRow) ++ ']' :: rest) := by
    rw [serGrid]; simp [List.append_assoc]
  rw [hs, parseVal_succ_lbrack]
  cases rows with
  | nil =>
    rw [List.map_nil, joinComma_nil, List.nil_append,
      skipWs_cons ']' rest (by decide)]
    simp [encodeGrid]
  | cons row rows =>
    obtain ⟨T, hT⟩ := joinComma_serRow_head (row :: rows) (']' :: rest) (by simp)
    rw [hT, skipWs_cons '[' T (by decide)]
    dsimp only
    rw [if_neg (by decide), ← hT]
    rw [parseElems_rows (row :: rows) g rest (by simp) (by simp at hf ⊢; omega)]
    rfl



/-- The member fold a successful object parse performs. -/
def assignFold (acc : List (List Char × JVal)) (m : PageDataMap) :
    List (List Char × JVal) :=
  m.foldl (fun a kv => jsObjAssign a kv.1.data (encodeGrid kv.2)) acc

theorem joinComma_serMember_head (m : PageDataMap) (rest : List Char)
    (h : m ≠ []) :
    ∃ T, joinComma (m.map serMember) ++ rest = '"' :: T := by
  cases m with
  | nil => exact absurd rfl h
  | cons x xs =>
    cases xs with
    | nil =>
      exact ⟨escStr x.1.data ++ ['"'] ++ ':' :: serGrid x.2 ++ rest, by
        simp [joinComma_single, serMember, serStr, List.append_assoc]⟩
    | cons y ys =>
      exact ⟨escStr x.1.data ++ ['"'] ++ ':' :: serGrid x.2
          ++ ',' :: joinComma ((y :: ys).map serMember) ++ rest, by
        simp [joinComma_cons_cons, serMember, serStr, List.append_assoc]⟩

/-- Fuel needed below one member's grid. -/
def gridNeed (rows : Grid) : Nat := (rows.map (fun r => r.length + 3)).sum + 1

theorem parseMembers_pm : ∀ (m : PageDataMap) (f : Nat) (rest : List Char)
    (acc : List (List Char × JVal)),
    m ≠ [] → (m.map (fun kv => gridNeed kv.2 + 1)).sum ≤ f →
    parseMembers f (joinComma (m.map serMember) ++ '}' :: rest) acc
      = some (assignFold acc m, rest)
  | [], _, _, _, h, _ => absurd rfl h
  | [kv], f, rest, acc, _, hf => by
    simp only [List.map_cons, List.map_nil, List.sum_cons, List.sum_nil] at hf
    obtain ⟨g, rfl⟩ : ∃ g, f = g + 1 := ⟨f - 1, by omega⟩
    rw [List.map_cons, List.map_nil, joinComma_single]
    have hs : serMember kv ++ '}' :: rest
        = '"' :: (escStr kv.1.data ++ '"' :: (':' :: (serGrid kv.2 ++ '}' :: rest))) := by
      rw [serMember, serStr]; simp [List.append_assoc]
    rw [hs, parseMembers_succ_quote, parseStrBody_escStr]
    dsimp only
    rw [skipWs_cons ':' _ (by decide)]
    dsimp only
    rw [if_pos rfl]
    have hg : ∃ T, serGrid kv.2 ++ '}' :: rest = '[' :: T := by
      rw [serGrid]
      exact ⟨joinComma (kv.2.map serRow) ++ ']' :: '}' :: rest, by
        simp [List.append_assoc]⟩
    obtain ⟨T, hT⟩ := hg
    rw [hT, skipWs_cons '[' T (by decide), ← hT]
    rw [parseVal_serGrid kv.2 g ('}' :: rest) (by rw [gridNeed] at hf; omega)]
    dsimp only
    rw [skipWs_cons '}' rest (by decide)]
    dsimp only
    rw [if_neg (by decide), if_pos rfl]
    rw [assignFold, List.foldl_cons, List.foldl_nil]
  | kv :: kv2 :: ms, f, rest, acc, _, hf => by
    simp only [List.map_cons, List.sum_cons] at hf
    obtain ⟨g, rfl⟩ : ∃ g, f = g + 1 := ⟨f - 1, by omega⟩
    rw [List.map_cons, List.map_cons, joinComma_cons_cons]
    have hs : (serMember kv ++ ',' :: joinComma (serMember kv2 :: ms.map serMember))
          ++ '}' :: rest
        = '"' :: (escStr kv.1.data ++ '"' :: (':' :: (serGrid kv.2
            ++ ',' :: (joinComma (serMember kv2 :: ms.map serMember)
              ++ '}' :: rest)))) := by
      rw [serMember, serStr]; simp [List.append_assoc]
    rw [hs, parseMembers_succ_quote, parseStrBody_escStr]
    dsimp only
    rw [skipWs_cons ':' _ (by decide)]
    dsimp only
    rw [if_pos rfl]
    have hg : ∃ T, serGrid kv.2
        ++ ',' :: (joinComma (serMember kv2 :: ms.map serMember) ++ '}' :: rest)
        = '[' :: T := by
      rw [serGrid]
      exact ⟨joinComma (kv.2.map serRow)
          ++ ']' :: ',' :: (joinComma (serMember kv2 :: ms.map serMember) ++ '}' :: rest), by
        simp [List.append_assoc]⟩
    obtain ⟨T, hT⟩ := hg
    rw [hT, skipWs_cons '[' T (by decide), ← hT]
    rw [parseVal_serGrid kv.2 g _ (by rw [gridNeed] at hf; omega)]
    dsimp only
    rw [skipWs_cons ',' _ (by decide)]
    dsimp only
    rw [if_pos rfl]
    obtain ⟨U, hU⟩ := joinComma_serMember_head (kv2 :: ms) ('}' :: rest) (by simp)
    rw [List.map_cons] at hU
    rw [hU, skipWs_cons '"' U (by decide), ← hU]
    have hrec := parseMembers_pm (kv2 :: ms) g rest (jsObjAssign acc kv.1.data (encodeGrid kv.2))
      (by simp) (by simp only [List.map_cons, List.sum_cons]; omega)
    rw [List.map_cons] at hrec
    rw [hrec]
    rw [assignFold, assignFold]
    simp only [List.foldl_cons]

/-- Fuel needed for the whole serialized map. -/
def pmNeed (m : PageDataMap) : Nat :=
  (m.map (fun kv => gridNeed kv.2 + 1)).sum + 1

theorem parseVal_serializePM (m : PageDataMap) (f : Nat) (rest : List Char)
    (hf : pmNeed m ≤ f) :
    parseVal f (serializePM m ++ rest)
      = some (JVal.jobj (assignFold [] m), rest) := by
  rw [pmNeed] at hf
  obtain ⟨g, rfl⟩ : ∃ g, f = g + 1 := ⟨f - 1, by omega⟩
  have hs : serializePM m ++ rest
      = '{' :: (joinComma (m.map serMember) ++ '}' :: rest) := by
    rw [serializePM]; simp [List.append_assoc]
  rw [hs, parseVal_succ_lcurl]
  cases m with
  | nil =>
    rw [List.map_nil, joinComma_nil, List.nil_append,
      skipWs_cons '}' rest (by decide)]
    simp [assignFold]
  | cons kv ms =>
    obtain ⟨T, hT⟩ := joinComma_serMember_head (kv :: ms) ('}' :: rest) (by simp)
    rw [hT, skipWs_cons '"' T (by decide)]
    dsimp only
    rw [if_neg (by decide), ← hT]
    rw [parseMembers_pm (kv :: ms) g rest [] (by simp) (by omega)]
    rfl


/-! Length bounds: the fuel `length + 1` that `jsonParse` allots suffices. -/

theorem joinComma_length : ∀ (l : List (List Char)), l ≠ [] →
    (joinComma l).length + 1 = (l.map List.length).sum + l.length
  | [], h => absurd rfl h
  | [x], _ => by simp [joinComma_single]
  | x :: y :: ys, _ => by
    rw [joinComma_cons_cons]
    have ih := joinComma_length (y :: ys) (by simp)
    simp only [List.length_append, List.length_cons, List.map_cons,
      List.sum_cons] at ih ⊢
    omega

theorem serStr_length (s : List Char) : 2 ≤ (serStr s).length := by
  rw [serStr]; simp

theorem serRow_length (row : List String) :
    row.length + 2 ≤ (serRow row).length := by
  rw [serRow]
  cases row with
  | nil => simp [joinComma_nil]
  | cons c cs =>
    have hjc := joinComma_length ((c :: cs).map (fun c => serStr c.data)) (by simp)
    have hsum : (c :: cs).length
        ≤ (((c :: cs).map (fun c => serStr c.data)).map List.length).sum := by
      have : ∀ (l : List String),
          l.length ≤ ((l.map (fun c => serStr c.data)).map List.length).sum := by
        intro l
        induction l with
        | nil => simp
        | cons a l ih =>
          simp only [List.map_cons, List.sum_cons, List.length_cons]
          have := serStr_length a.data
          omega
      exact this (c :: cs)
    simp only [List.length_append, List.length_cons, List.map_cons,
      List.sum_cons] at hjc hsum ⊢
    omega

theorem serRows_length : ∀ (rows : Grid), rows ≠ [] →
    (rows.map (fun r => r.length + 3)).sum
      ≤ (joinComma (rows.map serRow)).length + 1
  | [], h => absurd rfl h
  | [r], _ => by
    have := serRow_length r
    simp only [List.map_cons, List.map_nil, List.sum_cons, List.sum_nil,
      joinComma_single]
    omega
  | r :: r2 :: rs, _ => by
    have h1 := serRow_length r
    have ih := serRows_length (r2 :: rs) (by simp)
    simp only [List.map_cons, List.sum_cons, joinComma_cons_cons,
      List.length_append, List.length_cons] at ih ⊢
    omega

theorem serGrid_length (rows : Grid) : gridNeed rows ≤ (serGrid rows).length := by
  rw [gridNeed, serGrid]
  cases rows with
  | nil => simp [joinComma_nil]
  | cons r rs =>
    have := serRows_length (r :: rs) (by simp)
    simp only [List.length_append, List.length_cons] at this ⊢
    omega

theorem serMember_length (kv : String × Grid) :
    gridNeed kv.2 + 3 ≤ (serMember kv).length := by
  rw [serMember]
  have h1 := serStr_length kv.1.data
  have h2 := serGrid_length kv.2
  simp only [List.length_append, List.length_cons]
  omega

theorem serMembers_length : ∀ (m : PageDataMap), m ≠ [] →
    (m.map (fun kv => gridNeed kv.2 + 1)).sum
      ≤ (joinComma (m.map serMember)).length + 1
  | [], h => absurd rfl h
  | [kv], _ => by
    have := serMember_length kv
    simp only [List.map_cons, List.map_nil, List.sum_cons, List.sum_nil,
      joinComma_single]
    omega
  | kv :: kv2 :: ms, _ => by
    have h1 := serMember_length kv
    have ih := serMembers_length (kv2 :: ms) (by simp)
    simp only [List.map_cons, List.sum_cons, joinComma_cons_cons,
      List.length_append, List.length_cons] at ih ⊢
    omega

theorem pmNeed_le_length (m : PageDataMap) :
    pmNeed m ≤ (serializePM m).length + 1 := by
  rw [pmNeed, serializePM]
  cases m with
  | nil => simp [joinComma_nil]
  | cons kv ms =>
    have := serMembers_length (kv :: ms) (by simp)
    simp only [List.length_append, List.length_cons] at this ⊢
    omega

theorem digitChar_gt31 (m : Nat) (h : m < 16) : 31 < (Nat.digitChar m).toNat := by
  interval_cases m <;> decide

theorem escChar_chars (c c' : Char) (h : c' ∈ escChar c) : 31 < c'.toNat := by
  rw [escChar] at h
  split at h
  · fin_cases h <;> decide
  split at h
  · fin_cases h <;> decide
  split at h
  · fin_cases h <;> decide
  split at h
  · fin_cases h <;> decide
  split at h
  · fin_cases h <;> decide
  split at h
  · fin_cases h <;> decide
  split at h
  · fin_cases h <;> decide
  split at h
  · rename_i hlt
    rcases List.mem_cons.mp h with rfl | h
    · decide
    rcases List.mem_cons.mp h with rfl | h
    · decide
    rcases List.mem_cons.mp h with rfl | h
    · decide
    rcases List.mem_cons.mp h with rfl | h
    · decide
    rcases List.mem_cons.mp h with rfl | h
    · exact digitChar_gt31 _ (by omega)
    rcases List.mem_cons.mp h with rfl | h
    · exact digitChar_gt31 _ (by omega)
    · simp at h
  · rename_i h8
    rcases List.mem_cons.mp h with rfl | h
    · omega
    · simp at h

theorem escStr_chars (s : List Char) (c' : Char) (h : c' ∈ escStr s) :
    31 < c'.toNat := by
  rw [escStr] at h
  rcases List.mem_flatten.mp h with ⟨x, hx, hc⟩
  rcases List.mem_map.mp hx with ⟨a, _, rfl⟩
  exact escChar_chars a c' hc

theorem serStr_chars (s : List Char) (c' : Char) (h : c' ∈ serStr s) :
    31 < c'.toNat := by
  rw [serStr] at h
  rcases List.mem_cons.mp h with rfl | h
  · decide
  rcases List.mem_append.mp h with h | h
  · exact escStr_chars s c' h
  · rcases List.mem_singleton.mp h with rfl
    decide

theorem joinComma_chars (P : Char → Prop) (hc : P ',') :
    ∀ (l : List (List Char)), (∀ x ∈ l, ∀ c ∈ x, P c) →
    ∀ c ∈ joinComma l, P c
  | [], _, c, hcm => by simp [joinComma_nil] at hcm
  | [x], hx, c, hcm => hx x (by simp) c (by
      rw [joinComma_single] at hcm; exact hcm)
  | x :: y :: ys, hx, c, hcm => by
    rw [joinComma_cons_cons] at hcm
    rcases List.mem_append.mp hcm with h | h
    · exact hx x (by simp) c h
    · rcases List.mem_cons.mp h with rfl | h
      · exact hc
      · exact joinComma_chars P hc (y :: ys)
          (fun z hz => hx z (by simp [List.mem_cons.mp hz])) c h

theorem serRow_chars (row : List String) (c' : Char) (h : c' ∈ serRow row) :
    31 < c'.toNat := by
  rw [serRow] at h
  rcases List.mem_cons.mp h with rfl | h
  · decide
  rcases List.mem_append.mp h with h | h
  · refine joinComma_chars (fun c => 31 < c.toNat) (by decide) _ ?_ c' h
    intro x hx c hc
    rcases List.mem_map.mp hx with ⟨a, _, rfl⟩
    exact serStr_chars a.data c hc
  · rcases List.mem_singleton.mp h with rfl
    decide

theorem serGrid_chars (rows : Grid) (c' : Char) (h : c' ∈ serGrid rows) :
    31 < c'.toNat := by
  rw [serGrid] at h
  rcases List.mem_cons.mp h with rfl | h
  · decide
  rcases List.mem_append.mp h with h | h
  · refine joinComma_chars (fun c => 31 < c.toNat) (by decide) _ ?_ c' h
    intro x hx c hc
    rcases List.mem_map.mp hx with ⟨a, _, rfl⟩
    exact serRow_chars a c hc
  · rcases List.mem_singleton.mp h with rfl
    decide

theorem serMember_chars (kv : String × Grid) (c' : Char)
    (h : c' ∈ serMember kv) : 31 < c'.toNat := by
  rw [serMember] at h
  rcases List.mem_append.mp h with h | h
  · exact serStr_chars kv.1.data c' h
  rcases List.mem_cons.mp h with rfl | h
  · decide
  · exact serGrid_chars kv.2 c' h

theorem serializePM_chars (m : PageDataMap) (c' : Char)
    (h : c' ∈ serializePM m) : 31 < c'.toNat := by
  rw [serializePM] at h
  rcases List.mem_cons.mp h with rfl | h
  · decide
  rcases List.mem_append.mp h with h | h
  · refine joinComma_chars (fun c => 31 < c.toNat) (by decide) _ ?_ c' h
    intro x hx c hc
    rcases List.mem_map.mp hx with ⟨a, _, rfl⟩
    exact serMember_chars a c hc
  · rcases List.mem_singleton.mp h with rfl
    decide


/-! Preprocessing is the identity on serializer output. -/

theorem trimBoth_eq_self (s : List Char)
    (h1 : ∀ c, s.head? = some c → jsTrimWs c = false)
    (h2 : ∀ c, s.getLast? = some c → jsTrimWs c = false) :
    trimBoth s = s := by
  cases s with
  | nil => rfl
  | cons a t =>
    rw [trimBoth]
    have ha : jsTrimWs a = false := h1 a rfl
    rw [List.dropWhile_cons, if_neg (by simp [ha])]
    cases hrev : (a :: t).reverse with
    | nil => exact absurd hrev (by simp)
    | cons b u =>
      have hb : jsTrimWs b = false := by
        refine h2 b ?_
        rw [← List.head?_reverse, hrev]
        rfl
      rw [List.dropWhile_cons, if_neg (by simp [hb]), ← hrev,
        List.reverse_reverse]

theorem splitLines_no_nl : ∀ (s : List Char), '\n' ∉ s → splitLines s = [s]
  | [], _ => rfl
  | c :: t, h => by
    rw [splitLines, if_neg (by intro habs; exact h (by simp [habs]))]
    rw [splitLines_no_nl t (fun habs => h (by simp [habs]))]

theorem stripCommentLines_id (s : List Char) (hnl : '\n' ∉ s)
    (hcl : isCommentLine s = false) : stripCommentLines s = s := by
  rw [stripCommentLines, splitLines_no_nl s hnl]
  simp [hcl, joinLines]

theorem serializePM_decomp (m : PageDataMap) :
    serializePM m = ('{' :: joinComma (m.map serMember)) ++ ['}'] := rfl

theorem preprocess_serializePM (m : PageDataMap) :
    preprocess (serializePM m) = serializePM m := by
  have hchars := serializePM_chars m
  have hhead : (serializePM m).head? = some '{' := by rw [serializePM]; rfl
  have hlast : (serializePM m).getLast? = some '}' := by
    rw [serializePM_decomp, List.getLast?_concat]
  have htrim : trimBoth (serializePM m) = serializePM m := by
    refine trimBoth_eq_self _ (fun c hc => ?_) (fun c hc => ?_)
    · rw [hhead] at hc
      rw [← Option.some.inj hc]
      decide
    · rw [hlast] at hc
      rw [← Option.some.inj hc]
      decide
  have hnl : '\n' ∉ serializePM m := by
    intro habs
    have := hchars '\n' habs
    simp at this
  have hcl : isCommentLine (serializePM m) = false := by
    have hd : (serializePM m).dropWhile jsTrimWs = serializePM m := by
      rw [serializePM_decomp, List.cons_append]
      rw [List.dropWhile_cons, if_neg (by decide), ← List.cons_append]
    rw [isCommentLine, hd, serializePM_decomp]
    cases hjc : joinComma (m.map serMember) with
    | nil => rfl
    | cons x xs => rfl
  have hfence : ¬((serializePM m).take 3 = [btick, btick, btick]) := by
    rw [serializePM_decomp, List.cons_append]
    intro habs
    rw [List.take_succ_cons] at habs
    exact absurd (List.cons.inj habs).1 (by decide)
  rw [preprocess]
  simp only [htrim, if_neg hfence, stripCommentLines_id _ hnl hcl]
  rw [cutToBrace, serializePM_decomp, List.cons_append, List.findIdx?_cons]
  simp


theorem jsObjAssign_not_mem (acc : List (List Char × JVal)) (k : List Char)
    (v : JVal) (h : acc.any (fun p => p.1 == k) = false) :
    jsObjAssign acc k v = acc ++ [(k, v)] := by
  rw [jsObjAssign, h]
  rfl

theorem assignFold_of_nodup : ∀ (m : PageDataMap)
    (acc : List (List Char × JVal)),
    (m.map (fun kv => kv.1.data)).Nodup →
    (∀ kv ∈ m, acc.any (fun p => p.1 == kv.1.data) = false) →
    assignFold acc m = acc ++ m.map (fun kv => (kv.1.data, encodeGrid kv.2))
  | [], acc, _, _ => by simp [assignFold]
  | kv :: ms, acc, hnd, hacc => by
    rw [assignFold, List.foldl_cons,
      jsObjAssign_not_mem acc kv.1.data (encodeGrid kv.2) (hacc kv (by simp))]
    rw [List.map_cons, List.nodup_cons] at hnd
    have hacc' : ∀ kv' ∈ ms,
        (acc ++ [(kv.1.data, encodeGrid kv.2)]).any
          (fun p => p.1 == kv'.1.data) = false := by
      intro kv' hkv'
      rw [List.any_append]
      have e1 := hacc kv' (by simp [hkv'])
      have e2 : (kv.1.data == kv'.1.data) = false := by
        rw [beq_eq_false_iff_ne]
        intro habs
        exact hnd.1 (habs ▸ List.mem_map_of_mem (fun kv => kv.1.data) hkv')
      simp [e1, e2]
    have hrec := assignFold_of_nodup ms (acc ++ [(kv.1.data, encodeGrid kv.2)])
      hnd.2 hacc'
    rw [assignFold] at hrec
    rw [hrec, List.map_cons]
    simp

theorem encodePM_eq_assignFold (m : PageDataMap)
    (hnd : (m.map Prod.fst).Nodup) :
    JVal.jobj (assignFold [] m) = encodePM m := by
  have hdata : (m.map (fun kv => kv.1.data)).Nodup := by
    have heq : m.map (fun kv => kv.1.data)
        = (m.map Prod.fst).map String.data := by
      rw [List.map_map]; rfl
    rw [heq]
    refine hnd.map ?_
    intro a b hab
    cases a; cases b
    exact congrArg String.mk hab
  rw [assignFold_of_nodup m [] hdata (fun kv _ => rfl), List.nil_append,
    encodePM]

theorem jsonParse_serializePM (m : PageDataMap)
    (hnd : (m.map Prod.fst).Nodup) :
    jsonParse (serializePM m) = some (encodePM m) := by
  rw [jsonParse]
  have hsk : skipWs (serializePM m) = serializePM m := by
    rw [serializePM_decomp, List.cons_append, skipWs_cons '{' _ (by decide),
      ← List.cons_append]
  rw [hsk]
  have hv := parseVal_serializePM m ((serializePM m).length + 1) []
    (by have := pmNeed_le_length m; omega)
  rw [List.append_nil] at hv
  rw [hv]
  simp [skipWs, encodePM_eq_assignFold m hnd]

/-- **C5** (confirmed). Parsing the JSON serialization of a well-formed
`PageDataMap` (string keys, 2D string-array values, no duplicate keys)
through the response-parse path reproduces the map exactly: the direct
`JSON.parse` succeeds with the map's JSON denotation and the repair path is
never consulted. -/
theorem c5_parse_serialize (m : PageDataMap)
    (hnd : (m.map Prod.fst).Nodup) :
    parseWithRepair (serializePM m) = Except.ok (encodePM m) ∧
    parsePayload (serializePM m) = some (encodePM m) := by
  have h := jsonParse_serializePM m hnd
  constructor
  · rw [parseWithRepair, preprocess_serializePM m, h]
  · rw [parsePayload, preprocess_serializePM m, h]

theorem c5_parse_serialize_witness :
    parseWithRepair (serializePM [("1", [["A", "B"], ["C"]]), ("2", [])])
      = Except.ok (encodePM [("1", [["A", "B"], ["C"]]), ("2", [])]) ∧
    parsePayload (serializePM [("1", [["A", "B"], ["C"]]), ("2", [])])
      = some (encodePM [("1", [["A", "B"], ["C"]]), ("2", [])]) :=
  c5_parse_serialize [("1", [["A", "B"], ["C"]]), ("2", [])] (by decide)


theorem parseVal_succ_cons (f : Nat) (c : Char) (r : List Char) :
    parseVal (f + 1) (c :: r)
      = (if c = '{' then
          match skipWs r with
          | [] => none
          | d :: r2 =>
            if d = '}' then some (.jobj [], r2)
            else (fun p => (JVal.jobj p.1, p.2)) <$> parseMembers f (d :: r2) []
        else if c = '[' then
          match skipWs r with
          | [] => none
          | d :: r2 =>
            if d = ']' then some (.jarr [], r2)
            else (fun p => (JVal.jarr p.1, p.2)) <$> parseElems f (d :: r2)
        else if c = '"' then (fun p => (JVal.jstr p.1, p.2)) <$> parseStrBody r
        else if c = 't' then
          match r with
          | 'r' :: 'u' :: 'e' :: r2 => some (.jbool true, r2)
          | _ => none
        else if c = 'f' then
          match r with
          | 'a' :: 'l' :: 's' :: 'e' :: r2 => some (.jbool false, r2)
          | _ => none
        else if c = 'n' then
          match r with
          | 'u' :: 'l' :: 'l' :: r2 => some (.jnull, r2)
          | _ => none
        else (fun p => (JVal.jnum p.1, p.2)) <$> parseNumTok (c :: r)) := rfl

/-- A successful object parse can only start at a `{`. -/
theorem parseVal_jobj_head (f : Nat) (u rest : List Char)
    (mem : List (List Char × JVal))
    (h : parseVal f u = some (JVal.jobj mem, rest)) : ∃ r, u = '{' :: r := by
  match f, u with
  | 0, _ => exact absurd h (by rw [parseVal]; simp)
  | f + 1, [] => exact absurd h (by rw [parseVal]; simp)
  | f + 1, c :: r =>
    refine ⟨r, ?_⟩
    rw [parseVal_succ_cons] at h
    by_cases h1 : c = '{'
    · rw [h1]
    exfalso
    rw [if_neg h1] at h
    by_cases h2 : c = '['
    · rw [if_pos h2] at h
      rcases hsk : skipWs r with _ | ⟨d, r2⟩ <;> rw [hsk] at h <;> dsimp only at h
      · exact absurd h (by simp)
      · by_cases h3 : d = ']'
        · rw [if_pos h3] at h
          simp at h
        · rw [if_neg h3] at h
          rcases hpe : parseElems f (d :: r2) with _ | p <;> rw [hpe] at h <;>
            simp at h
    rw [if_neg h2] at h
    by_cases h3 : c = '"'
    · rw [if_pos h3] at h
      rcases hps : parseStrBody r with _ | p <;> rw [hps] at h <;> simp at h
    rw [if_neg h3] at h
    by_cases h4 : c = 't'
    · rw [if_pos h4] at h
      split at h <;> simp_all
    rw [if_neg h4] at h
    by_cases h5 : c = 'f'
    · rw [if_pos h5] at h
      split at h <;> simp_all
    rw [if_neg h5] at h
    by_cases h6 : c = 'n'
    · rw [if_pos h6] at h
      split at h <;> simp_all
    rw [if_neg h6] at h
    rcases hpn : parseNumTok (c :: r) with _ | p <;> rw [hpn] at h <;> simp at h


theorem skipWs_drop : ∀ (t : List Char), ∃ k, skipWs t = t.drop k
  | [] => ⟨0, rfl⟩
  | c :: r => by
    rw [skipWs]
    by_cases hc : jWs c = true
    · rw [if_pos hc]
      obtain ⟨k, hk⟩ := skipWs_drop r
      exact ⟨k + 1, by rw [hk]; rfl⟩
    · rw [if_neg hc]
      exact ⟨0, rfl⟩

theorem jsonParse_jobj_mem (t : List Char) (mem : List (List Char × JVal))
    (h : jsonParse t = some (JVal.jobj mem)) : '{' ∈ t := by
  rw [jsonParse] at h
  rcases hpv : parseVal (t.length + 1) (skipWs t) with _ | ⟨v, rest⟩ <;>
    rw [hpv] at h <;> dsimp only at h
  · simp at h
  · by_cases hre : (skipWs rest).isEmpty
    · rw [if_pos hre] at h
      have hv : v = JVal.jobj mem := by
        have := Option.some.inj h
        rw [this]
      rw [hv] at hpv
      obtain ⟨r, hr⟩ := parseVal_jobj_head _ _ _ _ hpv
      obtain ⟨k, hk⟩ := skipWs_drop t
      have : '{' ∈ skipWs t := by rw [hr]; simp
      rw [hk] at this
      exact List.mem_of_mem_drop this
    · rw [if_neg hre] at h
      simp at h

theorem trimBoth_fixed_ends (p : List Char) (h : trimBoth p = p) :
    (∀ c, p.head? = some c → jsTrimWs c = false) ∧
    (∀ c, p.getLast? = some c → jsTrimWs c = false) := by
  have hdw : List.dropWhile jsTrimWs p = p := by
    have h1 : (List.dropWhile jsTrimWs p).length ≤ p.length :=
      (List.dropWhile_sublist jsTrimWs).length_le
    have h2 : (trimBoth p).length ≤ (List.dropWhile jsTrimWs p).length := by
      rw [trimBoth]
      have := (List.dropWhile_sublist (l := (p.dropWhile jsTrimWs).reverse)
        jsTrimWs).length_le
      simp only [List.length_reverse] at this ⊢
      omega
    rw [h] at h2
    exact (List.dropWhile_sublist jsTrimWs).eq_of_length (by omega)
  have hrdw : List.dropWhile jsTrimWs p.reverse = p.reverse := by
    have h2 : (trimBoth p).length ≤ (List.dropWhile jsTrimWs p.reverse).length := by
      rw [trimBoth, hdw]
      simp only [List.length_reverse]
      exact Nat.le_refl _
    rw [h] at h2
    have h1 : (List.dropWhile jsTrimWs p.reverse).length ≤ p.reverse.length :=
      (List.dropWhile_sublist jsTrimWs).length_le
    simp only [List.length_reverse] at h1 h2
    refine (List.dropWhile_sublist jsTrimWs).eq_of_length ?_
    simp only [List.length_reverse]
    omega
  constructor
  · intro c hc
    cases hp : p with
    | nil => rw [hp] at hc; simp at hc
    | cons a t =>
      rw [hp, List.head?_cons] at hc
      obtain rfl := Option.some.inj hc
      rw [hp, List.dropWhile_cons] at hdw
      by_contra hws
      rw [Bool.not_eq_false] at hws
      rw [if_pos (by simp [hws])] at hdw
      have := congrArg List.length hdw
      have hle : (List.dropWhile jsTrimWs t).length ≤ t.length :=
        (List.dropWhile_sublist jsTrimWs).length_le
      simp at this
      omega
  · intro c hc
    have hrv : p.reverse.head? = some c := by rw [List.head?_reverse]; exact hc
    cases hp : p.reverse with
    | nil => rw [hp] at hrv; simp at hrv
    | cons b u =>
      rw [hp, List.head?_cons] at hrv
      obtain rfl := Option.some.inj hrv
      rw [hp, List.dropWhile_cons] at hrdw
      by_contra hws
      rw [Bool.not_eq_false] at hws
      rw [if_pos (by simp [hws])] at hrdw
      have := congrArg List.length hrdw
      have hle : (List.dropWhile jsTrimWs u).length ≤ u.length :=
        (List.dropWhile_sublist jsTrimWs).length_le
      simp at this
      omega


theorem trimBoth_sandwich (Z : List Char) (hne : Z ≠ [])
    (h1 : ∀ c, Z.head? = some c → jsTrimWs c = false)
    (h2 : ∀ c, Z.getLast? = some c → jsTrimWs c = false) :
    trimBoth ('\n' :: (Z ++ ['\n'])) = Z := by
  rcases Z with _ | ⟨zh, zt⟩
  · exact absurd rfl hne
  rw [trimBoth, List.dropWhile_cons, if_pos (by decide), List.cons_append,
    List.dropWhile_cons, if_neg (by simp [h1 zh rfl])]
  rw [← List.cons_append, List.reverse_append, List.reverse_singleton,
    List.singleton_append, List.dropWhile_cons, if_pos (by decide)]
  cases hrz : (zh :: zt).reverse with
  | nil => exact absurd hrz (by simp)
  | cons b u =>
    have hb : jsTrimWs b = false := by
      refine h2 b ?_
      rw [← List.head?_reverse, hrz, List.head?_cons]
    rw [List.dropWhile_cons, if_neg (by simp [hb]), ← hrz,
      List.reverse_reverse]

theorem splitLines_ne_nil : ∀ (s : List Char), splitLines s ≠ []
  | [] => by rw [splitLines]; simp
  | c :: r => by
    rw [splitLines]
    by_cases hc : c = '\n'
    · rw [if_pos hc]; simp
    · rw [if_neg hc]
      cases hsp : splitLines r with
      | nil => simp
      | cons l ls => simp

theorem splitLines_append (a b : List Char) (ha : '\n' ∉ a) :
    splitLines (a ++ '\n' :: b) = a :: splitLines b := by
  induction a with
  | nil => rw [List.nil_append, splitLines, if_pos rfl]
  | cons c a ih =>
    have hc : ¬c = '\n' := fun habs => ha (by simp [habs])
    rw [List.cons_append, splitLines, if_neg hc,
      ih (fun habs => ha (by simp [habs]))]

theorem isCommentLine_slashes (comment : List Char) :
    isCommentLine ('/' :: '/' :: comment) = true := by
  rw [isCommentLine, List.dropWhile_cons, if_neg (by decide)]
  rfl

theorem joinLines_cons_of_ne_nil (l : List Char) (ls : List (List Char))
    (h : ls ≠ []) : joinLines (l :: ls) = l ++ '\n' :: joinLines ls := by
  cases ls with
  | nil => exact absurd rfl h
  | cons x xs => rfl

theorem stripCommentLines_comment_line (comment p : List Char)
    (hcm : '\n' ∉ comment) :
    stripCommentLines (('/' :: '/' :: comment) ++ '\n' :: p)
      = '\n' :: stripCommentLines p := by
  rw [stripCommentLines,
    splitLines_append _ _ (by
      intro habs
      rcases List.mem_cons.mp habs with h | h
      · exact absurd h.symm (by decide)
      rcases List.mem_cons.mp h with h | h
      · exact absurd h.symm (by decide)
      · exact hcm h)]
  rw [List.map_cons, if_pos (isCommentLine_slashes comment)]
  rw [joinLines_cons_of_ne_nil _ _ (by
    intro habs
    exact splitLines_ne_nil p (List.map_eq_nil_iff.mp habs))]
  rw [List.nil_append, stripCommentLines]

theorem cutToBrace_cons_nl (S : List Char) (h : '{' ∈ S) :
    cutToBrace ('\n' :: S) = cutToBrace S := by
  rw [cutToBrace, cutToBrace, List.findIdx?_cons, if_neg (by decide),
    List.findIdx?_succ]
  rcases hfi : S.findIdx? (fun c => c = '{') with _ | i
  · exfalso
    have := List.findIdx?_eq_none_iff.mp hfi
    have := this '{' h
    simp at this
  · simp only [Option.map_some']
    rw [List.drop_succ_cons]

theorem cutToBrace_mem (S : List Char) (h : '{' ∈ cutToBrace S) : '{' ∈ S := by
  rw [cutToBrace] at h
  rcases hfi : S.findIdx? (fun c => c = '{') with _ | i <;> rw [hfi] at h
  · exact h
  · exact List.mem_of_mem_drop h


/-- Scenario C's wrapped response: the payload inside a fenced code block
tagged `json`, preceded by one leaked comment-only line. -/
def wrapFenced (comment p : List Char) : List Char :=
  [btick, btick, btick, 'j', 's', 'o', 'n', '\n', '/', '/']
    ++ (comment ++ ('\n' :: (p ++ ['\n', btick, btick, btick])))

/-- **C7** (confirmed). For every valid JSON payload `p` (trim-normalized,
not itself starting with a fence, and parsing to a JSON object — the shape
every `PageDataMap` payload has), wrapping it in a fenced code block tagged
`json` together with one leaked comment-only line parses to exactly the same
value as the bare payload. -/
theorem c7_fenced_comment_parse (p comment : List Char) (mem : List (List Char × JVal))
    (hv : parsePayload p = some (JVal.jobj mem))
    (htrim : trimBoth p = p)
    (hfence : p.take 3 ≠ [btick, btick, btick])
    (hcm : '\n' ∉ comment) :
    parsePayload (wrapFenced comment p) = some (JVal.jobj mem) := by
  have hpne : p ≠ [] := by
    intro habs
    rw [habs] at hv
    have : parsePayload ([] : List Char) = none := rfl
    rw [this] at hv
    exact Option.noConfusion hv
  obtain ⟨hph, hpl⟩ := trimBoth_fixed_ends p htrim
  rw [parsePayload, preprocess] at hv
  rw [htrim, if_neg hfence] at hv
  have hbrace : '{' ∈ stripCommentLines p :=
    cutToBrace_mem _ (jsonParse_jobj_mem _ _ hv)
  -- the wrapped pipeline
  have hWtrim : trimBoth (wrapFenced comment p) = wrapFenced comment p := by
    refine trimBoth_eq_self _ (fun c hc => ?_) (fun c hc => ?_)
    · rw [wrapFenced] at hc
      have : some btick = some c := hc
      rw [← Option.some.inj this]
      decide
    · rw [wrapFenced, List.getLast?_append, List.getLast?_append] at hc
      have htail : (('\n' : Char) :: (p ++ ['\n', btick, btick, btick])).getLast?
          = some btick := by
        have hsh : ('\n' : Char) :: (p ++ ['\n', btick, btick, btick])
            = ('\n' :: p ++ ['\n', btick, btick]) ++ [btick] := by
          simp [List.append_assoc]
        rw [hsh, List.getLast?_concat]
      rw [htail] at hc
      have : some btick = some c := hc
      rw [← Option.some.inj this]
      decide
  have hWtake : (wrapFenced comment p).take 3 = [btick, btick, btick] := rfl
  rw [parsePayload, preprocess, hWtrim, if_pos hWtake]
  have h1a : stripFenceStart (wrapFenced comment p)
      = '\n' :: '/' :: '/' :: (comment ++ ('\n' :: (p ++ ['\n', btick, btick, btick]))) := rfl
  have h1 : stripFenceStart (wrapFenced comment p)
      = ('\n' :: (('/' :: '/' :: comment) ++ ('\n' :: p)))
          ++ ['\n', btick, btick, btick] := by
    rw [h1a]
    simp [List.append_assoc]
  rw [h1]
  have hc1 : (((('\n' :: (('/' :: '/' :: comment) ++ ('\n' :: p)))
      ++ ['\n', btick, btick, btick]).reverse).take 3
        = [btick, btick, btick]) := by
    rw [List.reverse_append]
    rfl
  have h2 : stripFenceEnd (('\n' :: (('/' :: '/' :: comment) ++ ('\n' :: p)))
      ++ ['\n', btick, btick, btick])
        = ('\n' :: (('/' :: '/' :: comment) ++ ('\n' :: p))) ++ ['\n'] := by
    rw [stripFenceEnd, if_pos hc1, List.reverse_append]
    have hdr : (List.reverse ['\n', btick, btick, btick]
        ++ ('\n' :: (('/' :: '/' :: comment) ++ ('\n' :: p))).reverse).drop 3
          = '\n' :: ('\n' :: (('/' :: '/' :: comment) ++ ('\n' :: p))).reverse := rfl
    rw [hdr, List.reverse_cons, List.reverse_reverse]
  rw [h2]
  have h3 : trimBoth (('\n' :: (('/' :: '/' :: comment) ++ ('\n' :: p)))
      ++ ['\n']) = ('/' :: '/' :: comment) ++ ('\n' :: p) := by
    rw [List.cons_append]
    refine trimBoth_sandwich _ (by simp) (fun c hc => ?_) (fun c hc => ?_)
    · have : some '/' = some c := hc
      rw [← Option.some.inj this]
      decide
    · rw [List.getLast?_append] at hc
      have hpl' : ∀ c, (('\n' : Char) :: p).getLast? = some c →
          jsTrimWs c = false := by
        intro c hc2
        have hsh : ('\n' : Char) :: p = ['\n'] ++ p := rfl
        rw [hsh, List.getLast?_append] at hc2
        rcases hgp : p.getLast? with _ | d
        · exfalso
          exact hpne (List.getLast?_eq_none_iff.mp hgp)
        · rw [hgp] at hc2
          have : some d = some c := hc2
          rw [← Option.some.inj this]
          exact hpl d hgp
      rcases hgl : (('\n' : Char) :: p).getLast? with _ | d
      · exfalso
        have : ('\n' : Char) :: p ≠ [] := by simp
        exact this (List.getLast?_eq_none_iff.mp hgl)
      · rw [hgl] at hc
        have : some d = some c := hc
        rw [← Option.some.inj this]
        exact hpl' d hgl
  rw [h3, stripCommentLines_comment_line comment p hcm,
    cutToBrace_cons_nl _ hbrace]
  exact hv


theorem c7_fenced_comment_parse_witness :
    parsePayload (wrapFenced (" leaked".data) ("\x7b\"1\":[[\"A\"]]\x7d".data))
      = some (JVal.jobj [(['1'], JVal.jarr [JVal.jarr [JVal.jstr ['A']]])]) ∧
    parsePayload ("\x7b\"1\":[[\"A\"]]\x7d".data)
      = some (JVal.jobj [(['1'], JVal.jarr [JVal.jarr [JVal.jstr ['A']]])]) :=
  ⟨c7_fenced_comment_parse ("\x7b\"1\":[[\"A\"]]\x7d".data) (" leaked".data)
      [(['1'], JVal.jarr [JVal.jarr [JVal.jstr ['A']]])]
      rfl rfl (by decide) (by decide),
   rfl⟩

end PdfToExcel

namespace PdfToExcel

/-! ### C4: truncation repair. String-literal level. -/

/-- Suffixes the repair may append contain only closing braces/brackets. -/
def strOk (X : List Char) : Prop := ∀ c ∈ X, c = '}' ∨ c = ']'

theorem append_prefix_split : ∀ (a b t : List Char),
    (∃ r, t ++ r = a ++ b) →
    (∃ r, t ++ r = a) ∨ (∃ u, t = a ++ u ∧ ∃ r, u ++ r = b)
  | [], b, t, h => Or.inr ⟨t, rfl, h⟩
  | x :: a, b, [], _ => Or.inl ⟨x :: a, rfl⟩
  | x :: a, b, y :: t, h => by
    obtain ⟨r, hr⟩ := h
    rw [List.cons_append, List.cons_append] at hr
    obtain ⟨rfl, hr2⟩ : y = x ∧ t ++ r = a ++ b :=
      ⟨(List.cons.inj hr).1, (List.cons.inj hr).2⟩
    rcases append_prefix_split a b t ⟨r, hr2⟩ with ⟨r', hr'⟩ | ⟨u, hu, hr'⟩
    · exact Or.inl ⟨r', by rw [List.cons_append, hr']⟩
    · exact Or.inr ⟨u, by rw [List.cons_append, hu], hr'⟩

/-- `parseStrBody` maps over an escaped character uniformly (also when the
tail fails). -/
theorem parseStrBody_escChar_gen (c : Char) (t : List Char) :
    parseStrBody (escChar c ++ t)
      = (fun p => (c :: p.1, p.2)) <$> parseStrBody t := by
  rcases hps : parseStrBody t with _ | p
  · rw [escChar]
    split
    · rename_i hc; subst hc
      rw [List.cons_append, List.singleton_append, parseStrBody.eq_def]
      simp [escDecode, hps]
    split
    · rename_i hc; subst hc
      rw [List.cons_append, List.singleton_append, parseStrBody.eq_def]
      simp [escDecode, hps]
    split
    · rename_i hc; subst hc
      rw [List.cons_append, List.singleton_append, parseStrBody.eq_def]
      simp [escDecode, hps]
    split
    · rename_i hc; subst hc
      rw [List.cons_append, List.singleton_append, parseStrBody.eq_def]
      simp [escDecode, hps]
    split
    · rename_i hc; subst hc
      rw [List.cons_append, List.singleton_append, parseStrBody.eq_def]
      simp [escDecode, hps]
    split
    · rename_i hc; subst hc
      rw [List.cons_append, List.singleton_append, parseStrBody.eq_def]
      simp [escDecode, hps]
    split
    · rename_i hc; subst hc
      rw [List.cons_append, List.singleton_append, parseStrBody.eq_def]
      simp [escDecode, hps]
    split
    · rename_i hlt
      have e0 : hexVal '0' = some 0 := by decide
      have e1 : hexVal (Nat.digitChar (c.toNat / 16)) = some (c.toNat / 16) :=
        hexVal_digitChar _ (by omega)
      have e2 : hexVal (Nat.digitChar (c.toNat % 16)) = some (c.toNat % 16) :=
        hexVal_digitChar _ (by omega)
      simp only [List.cons_append, List.nil_append]
      rw [parseStrBody.eq_def]
      simp [e0, e1, e2, hps]
    · rename_i h1 h2 h3 h4 h5 h6 h7 h8
      rw [List.singleton_append, parseStrBody.eq_def]
      simp [h1, h2, h8, hps]
  · obtain ⟨out, rest⟩ := p
    rw [parseStrBody_escChar c t out rest hps]
    rfl

theorem parseStrBody_strOk : ∀ (X : List Char), strOk X →
    parseStrBody X = none
  | [], _ => rfl
  | c :: X, h => by
    rcases h c (by simp) with rfl | rfl
    · rw [parseStrBody.eq_def]
      simp only [if_neg (by decide : ¬('}' : Char) = '"'),
        if_neg (by decide : ¬('}' : Char) = '\\'),
        if_neg (by decide : ¬('}' : Char).toNat < 32)]
      rw [parseStrBody_strOk X (fun c hc => h c (by simp [hc]))]
      rfl
    · rw [parseStrBody.eq_def]
      simp only [if_neg (by decide : ¬(']' : Char) = '"'),
        if_neg (by decide : ¬(']' : Char) = '\\'),
        if_neg (by decide : ¬(']' : Char).toNat < 32)]
      rw [parseStrBody_strOk X (fun c hc => h c (by simp [hc]))]
      rfl

end PdfToExcel

namespace PdfToExcel

theorem parseStrBody_bslash (X : List Char) (h : strOk X) :
    parseStrBody ('\\' :: X) = none := by
  rcases X with _ | ⟨x, xs⟩
  · rfl
  rcases h x (by simp) with rfl | rfl
  · rw [parseStrBody.eq_def]
    simp [escDecode]
  · rw [parseStrBody.eq_def]
    simp [escDecode]

theorem parseStrBody_bslash_u (Y : List Char)
    (h : ∀ y1 y2 y3 y4 yr, Y = y1 :: y2 :: y3 :: y4 :: yr →
      hexVal y1 = none ∨ hexVal y2 = none ∨ hexVal y3 = none ∨
        hexVal y4 = none) :
    parseStrBody ('\\' :: 'u' :: Y) = none := by
  rcases Y with _ | ⟨y1, Y1⟩
  · rfl
  rcases Y1 with _ | ⟨y2, Y2⟩
  · rfl
  rcases Y2 with _ | ⟨y3, Y3⟩
  · rfl
  rcases Y3 with _ | ⟨y4, Y4⟩
  · rfl
  rw [parseStrBody.eq_def]
  rcases h y1 y2 y3 y4 Y4 rfl with h1 | h1 | h1 | h1 <;> simp [h1]

theorem hexVal_brace (c : Char) (h : c = '}' ∨ c = ']') : hexVal c = none := by
  rcases h with rfl | rfl <;> decide

theorem escChar_shape (c : Char) :
    (∃ e, escChar c = ['\\', e]) ∨
    (∃ d1 d2, escChar c = ['\\', 'u', '0', '0', d1, d2]) ∨
    (∃ x, escChar c = [x]) := by
  simp only [escChar]
  split_ifs <;>
    first
      | exact Or.inl ⟨_, rfl⟩
      | exact Or.inr (Or.inl ⟨_, _, rfl⟩)
      | exact Or.inr (Or.inr ⟨_, rfl⟩)

theorem escChar_prefix_noterm (c : Char) (pc r : List Char)
    (hr : r ≠ []) (h : pc ++ r = escChar c) (X : List Char) (hX : strOk X) :
    parseStrBody (pc ++ X) = none := by
  rcases escChar_shape c with ⟨e, he⟩ | ⟨d1, d2, he⟩ | ⟨x, he⟩ <;> rw [he] at h
  · rcases pc with _ | ⟨p1, pc⟩
    · exact parseStrBody_strOk X hX
    injection h with h1 h2
    subst h1
    rcases pc with _ | ⟨p2, pc⟩
    · exact parseStrBody_bslash X hX
    injection h2 with h3 h4
    exact absurd (List.append_eq_nil.mp h4).2 hr
  · rcases pc with _ | ⟨p1, pc⟩
    · exact parseStrBody_strOk X hX
    injection h with h1 h2
    subst h1
    rcases pc with _ | ⟨p2, pc⟩
    · exact parseStrBody_bslash X hX
    injection h2 with h3 h4
    subst h3
    rcases pc with _ | ⟨p3, pc⟩
    · refine parseStrBody_bslash_u X ?_
      intro y1 y2 y3 y4 yr hy
      exact Or.inl (hexVal_brace y1 (hX y1 (by rw [hy]; simp)))
    injection h4 with h5 h6
    subst h5
    rcases pc with _ | ⟨p4, pc⟩
    · refine parseStrBody_bslash_u ('0' :: X) ?_
      intro y1 y2 y3 y4 yr hy
      injection hy with hy1 hy2
      exact Or.inr (Or.inl (hexVal_brace y2 (hX y2 (by rw [hy2]; simp))))
    injection h6 with h7 h8
    subst h7
    rcases pc with _ | ⟨p5, pc⟩
    · refine parseStrBody_bslash_u ('0' :: '0' :: X) ?_
      intro y1 y2 y3 y4 yr hy
      injection hy with hy1 hy2
      injection hy2 with hy3 hy4
      exact Or.inr (Or.inr (Or.inl (hexVal_brace y3 (hX y3 (by rw [hy4]; simp)))))
    injection h8 with h9 h10
    subst h9
    rcases pc with _ | ⟨p6, pc⟩
    · refine parseStrBody_bslash_u ('0' :: '0' :: p5 :: X) ?_
      intro y1 y2 y3 y4 yr hy
      injection hy with hy1 hy2
      injection hy2 with hy3 hy4
      injection hy4 with hy5 hy6
      exact Or.inr (Or.inr (Or.inr (hexVal_brace y4 (hX y4 (by rw [hy6]; simp)))))
    injection h10 with h11 h12
    exact absurd (List.append_eq_nil.mp h12).2 hr
  · rcases pc with _ | ⟨p1, pc⟩
    · exact parseStrBody_strOk X hX
    injection h with h1 h2
    exact absurd (List.append_eq_nil.mp h2).2 hr

theorem escStr_prefix_noterm : ∀ (w e1 r X : List Char),
    e1 ++ r = escStr w → strOk X → parseStrBody (e1 ++ X) = none
  | [], e1, r, X, h, hX => by
    have he : e1 = [] := by
      have : e1 ++ r = [] := by rw [h]; rfl
      exact (List.append_eq_nil.mp this).1
    subst he
    exact parseStrBody_strOk X hX
  | c :: w, e1, r, X, h, hX => by
    have hsplit := append_prefix_split (escChar c) (escStr w) e1
      ⟨r, by rw [h]; rfl⟩
    rcases hsplit with ⟨r1, hr1⟩ | ⟨u, hu, r2, hr2⟩
    · rcases List.eq_nil_or_concat r1 with rfl | ⟨r1i, r1l, rfl⟩
      · rw [List.append_nil] at hr1
        subst hr1
        rw [parseStrBody_escChar_gen]
        rw [parseStrBody_strOk X hX]
        rfl
      · exact escChar_prefix_noterm c e1 (r1i.concat r1l) (by simp) hr1 X hX
    · subst hu
      rw [List.append_assoc, parseStrBody_escChar_gen]
      rw [escStr_prefix_noterm w u r2 X hr2 hX]
      rfl

theorem parseNumTok_strOk (c : Char) (r : List Char) (h : c = '}' ∨ c = ']') :
    parseNumTok (c :: r) = none := by
  rcases h with rfl | rfl <;>
    simp [parseNumTok, parseIntPart]

theorem parseVal_strOk : ∀ (f : Nat) (X : List Char), strOk X →
    parseVal f X = none
  | 0, _, _ => rfl
  | f + 1, [], _ => rfl
  | f + 1, c :: r, hX => by
    have hnum := parseNumTok_strOk c r (hX c (by simp))
    rcases hX c (by simp) with rfl | rfl <;>
      (rw [parseVal_succ_cons, if_neg (by decide), if_neg (by decide),
        if_neg (by decide), if_neg (by decide), if_neg (by decide),
        if_neg (by decide), hnum]; rfl)

theorem parseElems_strOk : ∀ (f : Nat) (X : List Char), strOk X →
    parseElems f X = none
  | 0, _, _ => rfl
  | f + 1, X, hX => by
    rw [parseElems_succ, parseVal_strOk f X hX]

theorem parseMembers_succ_cons (f : Nat) (c : Char) (r : List Char)
    (acc : List (List Char × JVal)) (h : ¬c = '"') :
    parseMembers (f + 1) (c :: r) acc = none := by
  show (if c = '"' then _ else none) = none
  rw [if_neg h]

theorem parseMembers_strOk : ∀ (f : Nat) (X : List Char)
    (acc : List (List Char × JVal)), strOk X → parseMembers f X acc = none
  | 0, _, _, _ => rfl
  | f + 1, [], _, _ => rfl
  | f + 1, c :: r, acc, hX => by
    rcases hX c (by simp) with rfl | rfl <;>
      exact parseMembers_succ_cons f _ r acc (by decide)

theorem parse_mono : ∀ (f : Nat),
    (∀ s x, parseVal f s = some x → parseVal (f + 1) s = some x) ∧
    (∀ s acc x, parseMembers f s acc = some x →
      parseMembers (f + 1) s acc = some x) ∧
    (∀ s x, parseElems f s = some x → parseElems (f + 1) s = some x) := by
  intro f
  induction f with
  | zero =>
    refine ⟨fun s x h => ?_, fun s acc x h => ?_, fun s x h => ?_⟩ <;>
      exact absurd h (by intro hc; cases hc)
  | succ f ih =>
    obtain ⟨ihv, ihm, ihe⟩ := ih
    refine ⟨fun s x h => ?_, fun s acc x h => ?_, fun s x h => ?_⟩
    · cases s with
      | nil => exact absurd h (by intro hc; cases hc)
      | cons c r =>
        rw [parseVal_succ_cons] at h ⊢
        by_cases h1 : c = '{'
        · rw [if_pos h1] at h ⊢
          cases hsw : skipWs r with
          | nil => rw [hsw] at h; simp at h
          | cons d r2 =>
            rw [hsw] at h
            dsimp only at h ⊢
            by_cases h2 : d = '}'
            · rw [if_pos h2] at h ⊢; exact h
            · rw [if_neg h2] at h ⊢
              cases hm : parseMembers f (d :: r2) [] with
              | none => rw [hm] at h; simp at h
              | some p => rw [hm] at h; rw [ihm _ _ _ hm]; exact h
        · rw [if_neg h1] at h ⊢
          by_cases h2 : c = '['
          · rw [if_pos h2] at h ⊢
            cases hsw : skipWs r with
            | nil => rw [hsw] at h; simp at h
            | cons d r2 =>
              rw [hsw] at h
              dsimp only at h ⊢
              by_cases h3 : d = ']'
              · rw [if_pos h3] at h ⊢; exact h
              · rw [if_neg h3] at h ⊢
                cases he : parseElems f (d :: r2) with
                | none => rw [he] at h; simp at h
                | some p => rw [he] at h; rw [ihe _ _ he]; exact h
          · rw [if_neg h2] at h ⊢; exact h
    · cases s with
      | nil => exact absurd h (by intro hc; cases hc)
      | cons c r =>
        by_cases hc : c = '"'
        · subst hc
          rw [parseMembers_succ_quote] at h ⊢
          cases hps : parseStrBody r with
          | none => rw [hps] at h; simp at h
          | some p =>
            obtain ⟨key, r2⟩ := p
            rw [hps] at h
            dsimp only at h ⊢
            cases hsw : skipWs r2 with
            | nil => rw [hsw] at h; simp at h
            | cons d r3 =>
              rw [hsw] at h
              dsimp only at h ⊢
              by_cases hd : d = ':'
              · rw [if_pos hd] at h ⊢
                cases hv : parseVal f (skipWs r3) with
                | none => rw [hv] at h; simp at h
                | some q =>
                  obtain ⟨v, r4⟩ := q
                  rw [hv] at h
                  rw [ihv _ _ hv]
                  dsimp only at h ⊢
                  cases hsw2 : skipWs r4 with
                  | nil => rw [hsw2] at h; simp at h
                  | cons d2 r5 =>
                    rw [hsw2] at h
                    dsimp only at h ⊢
                    by_cases hd2 : d2 = ','
                    · rw [if_pos hd2] at h ⊢
                      exact ihm _ _ _ h
                    · rw [if_neg hd2] at h ⊢; exact h
              · rw [if_neg hd] at h; cases h
        · rw [parseMembers_succ_cons _ _ _ _ hc] at h; cases h
    · rw [parseElems_succ] at h ⊢
      cases hv : parseVal f s with
      | none => rw [hv] at h; simp at h
      | some p =>
        obtain ⟨v, r⟩ := p
        rw [hv] at h
        rw [ihv _ _ hv]
        dsimp only at h ⊢
        cases hsw : skipWs r with
        | nil => rw [hsw] at h; simp at h
        | cons d r2 =>
          rw [hsw] at h
          dsimp only at h ⊢
          by_cases hd : d = ','
          · rw [if_pos hd] at h ⊢
            cases he : parseElems f (skipWs r2) with
            | none => rw [he] at h; simp at h
            | some q => rw [he] at h; rw [ihe _ _ he]; exact h
          · rw [if_neg hd] at h ⊢; exact h

theorem parseVal_mono_le (f f' : Nat) (hle : f ≤ f') (s : List Char)
    (x : JVal × List Char) (hp : parseVal f s = some x) :
    parseVal f' s = some x := by
  obtain ⟨d, rfl⟩ : ∃ d, f' = f + d := ⟨f' - f, by omega⟩
  clear hle
  induction d with
  | zero => exact hp
  | succ d ihd => exact (parse_mono (f + d)).1 _ _ ihd

theorem parseMembers_mono_le (f f' : Nat) (hle : f ≤ f') (s : List Char)
    (acc : List (List Char × JVal)) (x : List (List Char × JVal) × List Char)
    (hp : parseMembers f s acc = some x) : parseMembers f' s acc = some x := by
  obtain ⟨d, rfl⟩ : ∃ d, f' = f + d := ⟨f' - f, by omega⟩
  clear hle
  induction d with
  | zero => exact hp
  | succ d ihd => exact (parse_mono (f + d)).2.1 _ _ _ ihd

theorem parseElems_mono_le (f f' : Nat) (hle : f ≤ f') (s : List Char)
    (x : List JVal × List Char) (hp : parseElems f s = some x) :
    parseElems f' s = some x := by
  obtain ⟨d, rfl⟩ : ∃ d, f' = f + d := ⟨f' - f, by omega⟩
  clear hle
  induction d with
  | zero => exact hp
  | succ d ihd => exact (parse_mono (f + d)).2.2 _ _ ihd

theorem joinComma_cons_of_ne (x : List Char) (ys : List (List Char))
    (h : ys ≠ []) : joinComma (x :: ys) = x ++ ',' :: joinComma ys := by
  cases ys with
  | nil => exact absurd rfl h
  | cons y ys => exact joinComma_cons_cons x y ys

theorem joinComma_append_one : ∀ (xs : List (List Char)) (y : List Char),
    xs ≠ [] → joinComma (xs ++ [y]) = joinComma xs ++ ',' :: y
  | [], _, h => absurd rfl h
  | [x], y, _ => by
    rw [List.singleton_append, joinComma_cons_cons, joinComma_single,
      joinComma_single]
  | x :: x2 :: xs, y, _ => by
    rw [List.cons_append, joinComma_cons_of_ne x _ (by simp),
      joinComma_append_one (x2 :: xs) y (by simp), joinComma_cons_cons]
    simp [List.append_assoc]

theorem joinComma_ext (A : List (List Char)) (B C : List Char) :
    joinComma (A ++ [B ++ C]) = joinComma (A ++ [B]) ++ C := by
  cases A with
  | nil => rw [List.nil_append, List.nil_append, joinComma_single,
      joinComma_single]
  | cons a as =>
    rw [joinComma_append_one _ _ (by simp), joinComma_append_one _ _ (by simp)]
    simp [List.append_assoc]

theorem joinComma_append_getLast (xs : List (List Char)) (y : List Char)
    (hy : y ≠ []) : (joinComma (xs ++ [y])).getLast? = y.getLast? := by
  obtain ⟨yi, yl, rfl⟩ := (List.eq_nil_or_concat y).resolve_left hy
  simp only [List.concat_eq_append]
  cases xs with
  | nil => rw [List.nil_append, joinComma_single]
  | cons a as =>
    rw [joinComma_append_one _ _ (by simp)]
    have hshift : joinComma (a :: as) ++ ',' :: (yi ++ [yl])
        = (joinComma (a :: as) ++ ',' :: yi) ++ [yl] := by
      simp [List.append_assoc]
    rw [hshift, List.getLast?_concat, List.getLast?_concat]

theorem joinComma_append_nil_getLast (xs : List (List Char)) (hxs : xs ≠ []) :
    (joinComma (xs ++ [[]])).getLast? = some ',' := by
  rw [joinComma_append_one _ _ hxs]
  have : joinComma xs ++ [','] = joinComma xs ++ [','] := rfl
  rw [show (',' : Char) :: ([] : List Char) = [','] from rfl,
    List.getLast?_concat]

theorem map_split {α β : Type} (g : α → β) :
    ∀ (m : List α) (ys zs : List β), ys ++ zs = m.map g →
    ∃ m1 m2, m = m1 ++ m2 ∧ ys = m1.map g ∧ zs = m2.map g
  | m, [], zs, h => ⟨[], m, rfl, rfl, by simpa using h⟩
  | [], y :: ys, _, h => by simp at h
  | a :: m, y :: ys, zs, h => by
    rw [List.map_cons, List.cons_append] at h
    injection h with h1 h2
    obtain ⟨m1, m2, rfl, rfl, rfl⟩ := map_split g m ys zs h2
    exact ⟨a :: m1, m2, rfl, by simp [h1], rfl⟩

theorem joinComma_prefix_split :
    ∀ (xs : List (List Char)) (d : Char) (v r : List Char), xs ≠ [] →
    v ++ r = joinComma xs ++ [d] → r ≠ [] →
    (∃ ys zs, xs = ys ++ zs ∧ ys ≠ [] ∧ v = joinComma ys) ∨
    (∃ ys ycur yrest B rB, xs = ys ++ ycur :: yrest ∧ B ++ rB = ycur ∧
      rB ≠ [] ∧ v = joinComma (ys ++ [B]))
  | [], _, _, _, h, _, _ => absurd rfl h
  | [x], d, v, r, _, h, hr => by
    rw [joinComma_single] at h
    rcases append_prefix_split x [d] v ⟨r, h⟩ with ⟨r1, hr1⟩ | ⟨u, hu, r2, hr2⟩
    · rcases List.eq_nil_or_concat r1 with rfl | ⟨ri, rl, rfl⟩
      · rw [List.append_nil] at hr1
        exact Or.inl ⟨[x], [], by simp, by simp,
          by rw [joinComma_single]; exact hr1⟩
      · exact Or.inr ⟨[], x, [], v, ri.concat rl, by simp, hr1, by simp,
          by rw [List.nil_append, joinComma_single]⟩
    · subst hu
      have hur : u ++ r = [d] := by
        rw [List.append_assoc] at h
        exact List.append_cancel_left h
      cases u with
      | nil =>
        rw [List.append_nil]
        exact Or.inl ⟨[x], [], by simp, by simp, (joinComma_single x).symm⟩
      | cons u0 us =>
        rw [List.cons_append] at hur
        injection hur with hu0 hus
        exact absurd (List.append_eq_nil.mp hus).2 hr
  | x :: x2 :: xs, d, v, r, _, h, hr => by
    rw [joinComma_cons_cons, List.append_assoc, List.cons_append] at h
    rcases append_prefix_split x (',' :: (joinComma (x2 :: xs) ++ [d])) v
        ⟨r, h⟩ with ⟨r1, hr1⟩ | ⟨u, hu, r2, hr2⟩
    · rcases List.eq_nil_or_concat r1 with rfl | ⟨ri, rl, rfl⟩
      · rw [List.append_nil] at hr1
        exact Or.inl ⟨[x], x2 :: xs, by simp, by simp,
          by rw [joinComma_single]; exact hr1⟩
      · exact Or.inr ⟨[], x, x2 :: xs, v, ri.concat rl, by simp, hr1,
          by simp, by rw [List.nil_append, joinComma_single]⟩
    · subst hu
      have hur : u ++ r = ',' :: (joinComma (x2 :: xs) ++ [d]) := by
        rw [List.append_assoc] at h
        exact List.append_cancel_left h
      cases u with
      | nil =>
        rw [List.append_nil]
        exact Or.inl ⟨[x], x2 :: xs, by simp, by simp,
          (joinComma_single x).symm⟩
      | cons u0 us =>
        injection hur with hu0 hus
        subst hu0
        rcases joinComma_prefix_split (x2 :: xs) d us r (by simp) hus hr with
          ⟨ys, zs, hxs, hysne, hv⟩ | ⟨ys, ycur, yrest, B, rB, hxs, hB, hrB, hv⟩
        · refine Or.inl ⟨x :: ys, zs, by rw [List.cons_append, ← hxs],
            by simp, ?_⟩
          rw [joinComma_cons_of_ne x ys hysne, hv]
        · refine Or.inr ⟨x :: ys, ycur, yrest, B, rB,
            by rw [List.cons_append, ← hxs], hB, hrB, ?_⟩
          rw [List.cons_append,
            joinComma_cons_of_ne x (ys ++ [B]) (by simp), hv]

/-- The shapes a proper prefix of a serialized string literal can take:
nothing yet, or the opening quote plus a prefix of the escaped body (the
closing quote is never reached). -/
def CellShape (c : String) (CB : List Char) : Prop :=
  CB = [] ∨ ∃ e1 r, CB = '"' :: e1 ∧ e1 ++ r = escStr c.data

/-- The shapes a proper prefix of a serialized row can take. -/
def RowShape (row : List String) (RB : List Char) : Prop :=
  RB = [] ∨
  (∃ cells1 cr, cells1 ++ cr = row ∧
      RB = '[' :: joinComma (cells1.map (fun c => serStr c.data))) ∨
  (∃ cells1 ccur crest CB, row = cells1 ++ ccur :: crest ∧
      CellShape ccur CB ∧
      RB = '[' :: joinComma (cells1.map (fun c => serStr c.data) ++ [CB]))

/-- The shapes a nonempty proper prefix of a serialized grid can take. -/
def GridShape (g : Grid) (G : List Char) : Prop :=
  (∃ rows1 rr, rows1 ++ rr = g ∧ G = '[' :: joinComma (rows1.map serRow)) ∨
  (∃ rows1 rcur rrest RB, g = rows1 ++ rcur :: rrest ∧ RowShape rcur RB ∧
      G = '[' :: joinComma (rows1.map serRow ++ [RB]))

/-- The shapes a proper prefix of a serialized object member can take. -/
def BadShape (kv : String × Grid) (Bad : List Char) : Prop :=
  CellShape kv.1 Bad ∨
  Bad = serStr kv.1.data ∨
  Bad = serStr kv.1.data ++ [':'] ∨
  (∃ G, GridShape kv.2 G ∧ Bad = serStr kv.1.data ++ ':' :: G)

/-- The shapes of what follows the opening brace in a proper prefix of a
serialized page map: a member boundary, or complete members followed by a
partial member. -/
def WShape (m : PageDataMap) (w : List Char) : Prop :=
  (∃ mc mrest, m = mc ++ mrest ∧ mc ≠ [] ∧
      w = joinComma (mc.map serMember)) ∨
  (∃ mdone cur mrest Bad, m = mdone ++ cur :: mrest ∧ BadShape cur Bad ∧
      w = joinComma (mdone.map serMember ++ [Bad]))

theorem serStr_prefix_shape (w CB r : List Char) (h : CB ++ r = serStr w)
    (hr : r ≠ []) : CB = [] ∨ ∃ e1 r2, CB = '"' :: e1 ∧ e1 ++ r2 = escStr w := by
  cases CB with
  | nil => exact Or.inl rfl
  | cons c0 CB =>
    rw [serStr, List.cons_append] at h
    injection h with h1 h2
    subst h1
    rcases append_prefix_split (escStr w) ['"'] CB ⟨r, h2⟩ with
      ⟨r1, hr1⟩ | ⟨u, hu, r2, hr2⟩
    · exact Or.inr ⟨CB, r1, rfl, hr1⟩
    · subst hu
      have hur : u ++ r = ['"'] := by
        rw [List.append_assoc] at h2
        exact List.append_cancel_left h2
      cases u with
      | nil => exact Or.inr ⟨escStr w, [], by rw [List.append_nil], by simp⟩
      | cons u0 us =>
        rw [List.cons_append] at hur
        injection hur with hu0 hus
        exact absurd (List.append_eq_nil.mp hus).2 hr

theorem cell_prefix_shape (c : String) (CB r : List Char)
    (h : CB ++ r = serStr c.data) (hr : r ≠ []) : CellShape c CB :=
  serStr_prefix_shape c.data CB r h hr

theorem row_prefix_shape (row : List String) (RB r : List Char)
    (h : RB ++ r = serRow row) (hr : r ≠ []) : RowShape row RB := by
  cases RB with
  | nil => exact Or.inl rfl
  | cons c0 RB =>
    rw [serRow, List.cons_append] at h
    injection h with h1 h2
    subst h1
    by_cases hrow : row = []
    · subst hrow
      simp only [List.map_nil, joinComma_nil, List.nil_append] at h2
      cases RB with
      | nil =>
        exact Or.inr (Or.inl ⟨[], [], rfl, by
          rw [List.map_nil, joinComma_nil]⟩)
      | cons b0 bs =>
        rw [List.cons_append] at h2
        injection h2 with hb0 hbs
        exact absurd (List.append_eq_nil.mp hbs).2 hr
    · rcases joinComma_prefix_split (row.map (fun c => serStr c.data)) ']'
          RB r (fun hc => hrow (List.map_eq_nil_iff.mp hc)) h2 hr with
        ⟨ys, zs, hsplit, hysne, hv⟩ |
        ⟨ys, ycur, yrest, B, rB, hsplit, hB, hrB, hv⟩
      · obtain ⟨m1, m2, hm12, hys, hzs⟩ :=
          map_split (fun c : String => serStr c.data) _ ys zs hsplit.symm
        exact Or.inr (Or.inl ⟨m1, m2, hm12.symm, by rw [hv, hys]⟩)
      · obtain ⟨m1, m2, hm12, hys, hzs⟩ :=
          map_split (fun c : String => serStr c.data) _ ys
            (ycur :: yrest) hsplit.symm
        cases m2 with
        | nil => simp at hzs
        | cons ccur m2 =>
          rw [List.map_cons] at hzs
          injection hzs with hy1 hy2
          refine Or.inr (Or.inr ⟨m1, ccur, m2, B, hm12, ?_, ?_⟩)
          · exact cell_prefix_shape ccur B rB (by rw [hB, hy1]) hrB
          · rw [hv, hys]

theorem grid_prefix_shape (g : Grid) (G r : List Char)
    (h : G ++ r = serGrid g) (hr : r ≠ []) (hG : G ≠ []) : GridShape g G := by
  cases G with
  | nil => exact absurd rfl hG
  | cons c0 G =>
    rw [serGrid, List.cons_append] at h
    injection h with h1 h2
    subst h1
    by_cases hg : g = []
    · subst hg
      simp only [List.map_nil, joinComma_nil, List.nil_append] at h2
      cases G with
      | nil =>
        exact Or.inl ⟨[], [], rfl, by rw [List.map_nil, joinComma_nil]⟩
      | cons b0 bs =>
        rw [List.cons_append] at h2
        injection h2 with hb0 hbs
        exact absurd (List.append_eq_nil.mp hbs).2 hr
    · rcases joinComma_prefix_split (g.map serRow) ']' G r
          (fun hc => hg (List.map_eq_nil_iff.mp hc)) h2 hr with
        ⟨ys, zs, hsplit, hysne, hv⟩ |
        ⟨ys, ycur, yrest, B, rB, hsplit, hB, hrB, hv⟩
      · obtain ⟨m1, m2, hm12, hys, hzs⟩ :=
          map_split serRow _ ys zs hsplit.symm
        exact Or.inl ⟨m1, m2, hm12.symm, by rw [hv, hys]⟩
      · obtain ⟨m1, m2, hm12, hys, hzs⟩ :=
          map_split serRow _ ys (ycur :: yrest) hsplit.symm
        cases m2 with
        | nil => simp at hzs
        | cons rcur m2 =>
          rw [List.map_cons] at hzs
          injection hzs with hy1 hy2
          refine Or.inr ⟨m1, rcur, m2, B, hm12, ?_, ?_⟩
          · exact row_prefix_shape rcur B rB (by rw [hB, hy1]) hrB
          · rw [hv, hys]

theorem member_prefix_shape (kv : String × Grid) (Bad r : List Char)
    (h : Bad ++ r = serMember kv) (hr : r ≠ []) : BadShape kv Bad := by
  rw [serMember] at h
  rcases append_prefix_split (serStr kv.1.data) (':' :: serGrid kv.2) Bad
      ⟨r, h⟩ with ⟨r1, hr1⟩ | ⟨u, hu, r2, hr2⟩
  · rcases List.eq_nil_or_concat r1 with rfl | ⟨ri, rl, rfl⟩
    · rw [List.append_nil] at hr1
      exact Or.inr (Or.inl hr1)
    · exact Or.inl (cell_prefix_shape kv.1 Bad _ hr1 (by simp))
  · subst hu
    have hur : u ++ r = ':' :: serGrid kv.2 := by
      rw [List.append_assoc] at h
      exact List.append_cancel_left h
    cases u with
    | nil => exact Or.inr (Or.inl (by rw [List.append_nil]))
    | cons u0 us =>
      rw [List.cons_append] at hur
      injection hur with hu0 hus
      subst hu0
      by_cases hus_e : us = []
      · subst hus_e
        exact Or.inr (Or.inr (Or.inl rfl))
      · exact Or.inr (Or.inr (Or.inr ⟨us,
          grid_prefix_shape kv.2 us r hus hr hus_e, rfl⟩))

theorem w_prefix_shape (m : PageDataMap) (hm : m ≠ []) (w r : List Char)
    (h : w ++ r = joinComma (m.map serMember) ++ ['}']) (hr : r ≠ []) :
    WShape m w := by
  rcases joinComma_prefix_split (m.map serMember) '}' w r
      (by cases m with | nil => exact absurd rfl hm | cons a as => simp)
      h hr with
    ⟨ys, zs, hsplit, hysne, hv⟩ |
    ⟨ys, ycur, yrest, B, rB, hsplit, hB, hrB, hv⟩
  · obtain ⟨m1, m2, hm12, hys, hzs⟩ := map_split serMember _ ys zs hsplit.symm
    refine Or.inl ⟨m1, m2, hm12, ?_, by rw [hv, hys]⟩
    intro hc
    subst hc
    simp at hys
    exact hysne hys
  · obtain ⟨m1, m2, hm12, hys, hzs⟩ :=
      map_split serMember _ ys (ycur :: yrest) hsplit.symm
    cases m2 with
    | nil => simp at hzs
    | cons cur m2 =>
      rw [List.map_cons] at hzs
      injection hzs with hy1 hy2
      refine Or.inr ⟨m1, cur, m2, B, hm12, ?_, by rw [hv, hys]⟩
      exact member_prefix_shape cur B rB (by rw [hB, hy1]) hrB

theorem serializePM_prefix_shape (m : PageDataMap) (hm : m ≠ [])
    (p q : List Char) (hpq : p ++ q = serializePM m) (hp : p ≠ [])
    (hq : q ≠ []) : ∃ w, p = '{' :: w ∧ WShape m w := by
  rw [serializePM, List.cons_append] at hpq
  cases p with
  | nil => exact absurd rfl hp
  | cons c0 w =>
    rw [List.cons_append] at hpq
    injection hpq with h1 h2
    subst h1
    exact ⟨w, rfl, w_prefix_shape m hm w q h2 hq⟩

theorem parseVal_close (c : Char) (h : c = '}' ∨ c = ']') (t : List Char) :
    ∀ f, parseVal f (c :: t) = none
  | 0 => rfl
  | f + 1 => by
    have hnum := parseNumTok_strOk c t h
    rcases h with rfl | rfl <;>
      (rw [parseVal_succ_cons, if_neg (by decide), if_neg (by decide),
        if_neg (by decide), if_neg (by decide), if_neg (by decide),
        if_neg (by decide), hnum]; rfl)

theorem parseElems_close (c : Char) (h : c = '}' ∨ c = ']') (t : List Char) :
    ∀ f, parseElems f (c :: t) = none
  | 0 => rfl
  | f + 1 => by rw [parseElems_succ, parseVal_close c h t f]

theorem parseVal_nil : ∀ f, parseVal f ([] : List Char) = none
  | 0 => rfl
  | _ + 1 => rfl

theorem parseElems_nil : ∀ f, parseElems f ([] : List Char) = none
  | 0 => rfl
  | f + 1 => by rw [parseElems_succ, parseVal_nil f]

theorem parseMembers_nil : ∀ f (acc : List (List Char × JVal)),
    parseMembers f ([] : List Char) acc = none
  | 0, _ => rfl
  | _ + 1, _ => rfl

theorem skipWs_strOk (X : List Char) (hX : strOk X) : skipWs X = X := by
  cases X with
  | nil => rfl
  | cons c r =>
    rcases hX c (by simp) with rfl | rfl <;> exact skipWs_cons _ _ (by decide)

theorem parseVal_serStr_force (w TAIL : List Char) (f : Nat)
    (y : JVal × List Char) (h : parseVal f (serStr w ++ TAIL) = some y) :
    y = (.jstr w, TAIL) := by
  have h2 := parseVal_mono_le f (max f 1) (le_max_left _ _) _ _ h
  rw [parseVal_serStr (max f 1) w TAIL (le_max_right _ _)] at h2
  exact (Option.some.inj h2).symm

theorem parseVal_serRow_force (row : List String) (TAIL : List Char) (f : Nat)
    (y : JVal × List Char) (h : parseVal f (serRow row ++ TAIL) = some y) :
    y = (.jarr (row.map (fun c => JVal.jstr c.data)), TAIL) := by
  have h2 := parseVal_mono_le f (max f (row.length + 2)) (le_max_left _ _)
    _ _ h
  rw [parseVal_serRow row _ TAIL (le_max_right _ _)] at h2
  exact (Option.some.inj h2).symm

theorem parseVal_serGrid_force (g : Grid) (TAIL : List Char) (f : Nat)
    (y : JVal × List Char) (h : parseVal f (serGrid g ++ TAIL) = some y) :
    y = (encodeGrid g, TAIL) := by
  have h2 := parseVal_mono_le f (max f (gridNeed g)) (le_max_left _ _) _ _ h
  rw [parseVal_serGrid g _ TAIL (by rw [gridNeed]; exact le_max_right _ _)]
    at h2
  exact (Option.some.inj h2).symm

theorem parseVal_strcut (w e1 X : List Char) (he : ∃ r, e1 ++ r = escStr w)
    (hX : strOk X) : ∀ f, parseVal f ('"' :: (e1 ++ X)) = none
  | 0 => rfl
  | f + 1 => by
    obtain ⟨r, hr⟩ := he
    rw [parseVal_succ_quote, escStr_prefix_noterm w e1 r X hr hX]
    rfl

theorem parseMembers_strcut (w e1 X : List Char)
    (he : ∃ r, e1 ++ r = escStr w) (hX : strOk X) :
    ∀ f (acc : List (List Char × JVal)),
    parseMembers f ('"' :: (e1 ++ X)) acc = none
  | 0, _ => rfl
  | f + 1, acc => by
    obtain ⟨r, hr⟩ := he
    rw [parseMembers_succ_quote, escStr_prefix_noterm w e1 r X hr hX]

theorem parseVal_cellshape (c : String) (CB : List Char)
    (hCB : CellShape c CB) (X : List Char) (hX : strOk X) (f : Nat) :
    parseVal f (CB ++ X) = none := by
  rcases hCB with rfl | ⟨e1, r, rfl, hr⟩
  · exact parseVal_strOk f X hX
  · rw [List.cons_append]
    exact parseVal_strcut c.data e1 X ⟨r, hr⟩ hX f

theorem parseElems_cells_bd : ∀ (cells1 : List String), cells1 ≠ [] →
    ∀ (X : List Char), (X = [] ∨ ∃ t, X = '}' :: t) → ∀ (f : Nat),
    parseElems f (joinComma (cells1.map (fun c => serStr c.data)) ++ X) = none
  | [], h, _, _, _ => absurd rfl h
  | [c], _, X, hX, 0 => rfl
  | [c], _, X, hX, f + 1 => by
    rw [List.map_cons, List.map_nil, joinComma_single, parseElems_succ]
    cases hv : parseVal f (serStr c.data ++ X) with
    | none => rfl
    | some y =>
      rw [parseVal_serStr_force c.data X f y hv]
      dsimp only
      rcases hX with rfl | ⟨t, rfl⟩
      · rfl
      · rw [skipWs_cons '}' t (by decide)]
        dsimp only
        rw [if_neg (by decide), if_neg (by decide)]
  | c :: c2 :: cs, _, X, hX, 0 => rfl
  | c :: c2 :: cs, _, X, hX, f + 1 => by
    rw [List.map_cons, List.map_cons, joinComma_cons_cons]
    have hassoc :
        (serStr c.data ++ ',' ::
            joinComma (serStr c2.data :: cs.map (fun c => serStr c.data))) ++ X
          = serStr c.data ++
              (',' :: (joinComma (serStr c2.data ::
                cs.map (fun c => serStr c.data)) ++ X)) := by
      simp [List.append_assoc]
    rw [hassoc, parseElems_succ]
    cases hv : parseVal f (serStr c.data ++
        (',' :: (joinComma (serStr c2.data ::
          cs.map (fun c => serStr c.data)) ++ X))) with
    | none => rfl
    | some y =>
      rw [parseVal_serStr_force c.data _ f y hv]
      dsimp only
      rw [skipWs_cons ',' _ (by decide)]
      dsimp only
      rw [if_pos rfl]
      obtain ⟨T, hT⟩ := joinComma_serStr_head (c2 :: cs) X (by simp)
      rw [List.map_cons] at hT
      rw [hT, skipWs_cons '"' T (by decide), ← hT]
      have hrec := parseElems_cells_bd (c2 :: cs) (by simp) X hX f
      rw [List.map_cons] at hrec
      rw [hrec]
      rfl

theorem joinComma_cellsCB_skipWs (cells1 : List String) (CB X : List Char)
    (hCB : CB = [] ∨ ∃ e1, CB = '"' :: e1) (hX : strOk X) :
    skipWs (joinComma (cells1.map (fun c => serStr c.data) ++ [CB]) ++ X)
      = joinComma (cells1.map (fun c => serStr c.data) ++ [CB]) ++ X := by
  cases cells1 with
  | nil =>
    rw [List.map_nil, List.nil_append, joinComma_single]
    rcases hCB with rfl | ⟨e1, rfl⟩
    · rw [List.nil_append]
      exact skipWs_strOk X hX
    · rw [List.cons_append]
      exact skipWs_cons '"' _ (by decide)
  | cons c cs =>
    have := joinComma_serStr_head (c :: cs) [] (by simp)
    obtain ⟨T, hT⟩ := this
    rw [List.append_nil] at hT
    rw [joinComma_append_one _ CB (by simp), List.map_cons] at *
    rw [List.append_assoc, hT, List.cons_append]
    exact skipWs_cons '"' _ (by decide)

theorem parseElems_cells_cut :
    ∀ (cells1 : List String) (ccur : String) (CB : List Char),
    CellShape ccur CB → ∀ (X : List Char), strOk X → ∀ (f : Nat),
    parseElems f
      (joinComma (cells1.map (fun c => serStr c.data) ++ [CB]) ++ X) = none
  | [], ccur, CB, hCB, X, hX, 0 => rfl
  | [], ccur, CB, hCB, X, hX, f + 1 => by
    rw [List.map_nil, List.nil_append, joinComma_single, parseElems_succ,
      parseVal_cellshape ccur CB hCB X hX f]
  | c :: cs, ccur, CB, hCB, X, hX, 0 => rfl
  | c :: cs, ccur, CB, hCB, X, hX, f + 1 => by
    rw [List.map_cons, List.cons_append,
      joinComma_cons_of_ne _ _ (by simp)]
    have hassoc :
        (serStr c.data ++ ',' ::
            joinComma (cs.map (fun c => serStr c.data) ++ [CB])) ++ X
          = serStr c.data ++
              (',' :: (joinComma (cs.map (fun c => serStr c.data) ++ [CB])
                ++ X)) := by
      simp [List.append_assoc]
    rw [hassoc, parseElems_succ]
    cases hv : parseVal f (serStr c.data ++
        (',' :: (joinComma (cs.map (fun c => serStr c.data) ++ [CB])
          ++ X))) with
    | none => rfl
    | some y =>
      rw [parseVal_serStr_force c.data _ f y hv]
      dsimp only
      rw [skipWs_cons ',' _ (by decide)]
      dsimp only
      rw [if_pos rfl]
      rw [joinComma_cellsCB_skipWs cs CB X
        (by rcases hCB with h | ⟨e1, r, h, _⟩
            · exact Or.inl h
            · exact Or.inr ⟨e1, h⟩) hX]
      rw [parseElems_cells_cut cs ccur CB hCB X hX f]
      rfl

theorem joinComma_cellsCB_head (cells1 : List String) (CB X : List Char)
    (hCB : CB = [] ∨ ∃ e1, CB = '"' :: e1) :
    (cells1 = [] ∧ CB = [] ∧
      joinComma (cells1.map (fun c => serStr c.data) ++ [CB]) ++ X = X) ∨
    (∃ T, joinComma (cells1.map (fun c => serStr c.data) ++ [CB]) ++ X
      = '"' :: T) := by
  cases cells1 with
  | nil =>
    rcases hCB with rfl | ⟨e1, rfl⟩
    · exact Or.inl ⟨rfl, rfl,
        by rw [List.map_nil, List.nil_append, joinComma_single,
          List.nil_append]⟩
    · exact Or.inr ⟨e1 ++ X,
        by rw [List.map_nil, List.nil_append, joinComma_single,
          List.cons_append]⟩
  | cons c cs =>
    refine Or.inr ⟨(escStr c.data ++ ['"']) ++
      ((',' :: joinComma (cs.map (fun c => serStr c.data) ++ [CB])) ++ X), ?_⟩
    rw [List.map_cons, List.cons_append, joinComma_cons_of_ne _ _ (by simp),
      serStr]
    simp [List.append_assoc]

theorem joinComma_rowsRB_head (rows1 : Grid) (RB X : List Char)
    (hRB : RB = [] ∨ ∃ T0, RB = '[' :: T0) :
    (rows1 = [] ∧ RB = [] ∧ joinComma (rows1.map serRow ++ [RB]) ++ X = X) ∨
    (∃ T, joinComma (rows1.map serRow ++ [RB]) ++ X = '[' :: T) := by
  cases rows1 with
  | nil =>
    rcases hRB with rfl | ⟨T0, rfl⟩
    · exact Or.inl ⟨rfl, rfl,
        by rw [List.map_nil, List.nil_append, joinComma_single,
          List.nil_append]⟩
    · exact Or.inr ⟨T0 ++ X,
        by rw [List.map_nil, List.nil_append, joinComma_single,
          List.cons_append]⟩
  | cons r rs =>
    refine Or.inr ⟨(joinComma (r.map (fun c => serStr c.data)) ++ [']']) ++
      ((',' :: joinComma (rs.map serRow ++ [RB])) ++ X), ?_⟩
    rw [List.map_cons, List.cons_append, joinComma_cons_of_ne _ _ (by simp),
      serRow]
    simp [List.append_assoc]

theorem rowShape_head (row : List String) (RB : List Char)
    (h : RowShape row RB) : RB = [] ∨ ∃ T0, RB = '[' :: T0 := by
  rcases h with rfl | ⟨c1, cr, _, rfl⟩ | ⟨c1, cc, cr, CB, _, _, rfl⟩
  · exact Or.inl rfl
  · exact Or.inr ⟨_, rfl⟩
  · exact Or.inr ⟨_, rfl⟩

/-- A row prefix cut inside a cell's string literal. -/
def RBInstr (rcur : List String) (RB : List Char) : Prop :=
  ∃ cells1 ccur crest e1 r, rcur = cells1 ++ ccur :: crest ∧
    e1 ++ r = escStr ccur.data ∧
    RB = '[' :: joinComma (cells1.map (fun c => serStr c.data) ++ ['"' :: e1])

/-- Row-prefix / continuation pairs on which an array-element parse can
only fail. -/
def RowSafe (rcur : List String) (RB X : List Char) : Prop :=
  (X = [] ∧ RowShape rcur RB) ∨ (strOk X ∧ RBInstr rcur RB)

theorem parseVal_rowsafe (rcur : List String) (RB X : List Char)
    (h : RowSafe rcur RB X) : ∀ f, parseVal f (RB ++ X) = none := by
  intro f
  cases f with
  | zero => rfl
  | succ f =>
    rcases h with ⟨rfl, hRB⟩ | ⟨hX, cells1, ccur, crest, e1, r, hrc, he, rfl⟩
    · rcases hRB with rfl | ⟨cells1, cr, hcr, rfl⟩ |
        ⟨cells1, ccur, crest, CB, hrow, hCB, rfl⟩
      · rw [List.nil_append]
        exact parseVal_nil (f + 1)
      · rw [List.append_nil, parseVal_succ_lbrack]
        cases cells1 with
        | nil => rw [List.map_nil, joinComma_nil]; rfl
        | cons c cs =>
          obtain ⟨T, hT⟩ := joinComma_serStr_head (c :: cs) [] (by simp)
          rw [List.append_nil] at hT
          rw [hT, skipWs_cons '"' T (by decide)]
          dsimp only
          rw [if_neg (by decide), ← hT]
          have := parseElems_cells_bd (c :: cs) (by simp) [] (Or.inl rfl) f
          rw [List.append_nil] at this
          rw [this]
          rfl
      · rw [List.append_nil, parseVal_succ_lbrack]
        rcases joinComma_cellsCB_head cells1 CB []
            (by rcases hCB with h | ⟨e1, r, h, _⟩
                · exact Or.inl h
                · exact Or.inr ⟨e1, h⟩) with
          ⟨h1, h2, heq⟩ | ⟨T, hT⟩
        · rw [List.append_nil] at heq
          rw [heq]
          rfl
        · rw [List.append_nil] at hT
          rw [hT, skipWs_cons '"' T (by decide)]
          dsimp only
          rw [if_neg (by decide), ← hT]
          have := parseElems_cells_cut cells1 ccur CB hCB []
            (by intro c hc; simp at hc) f
          rw [List.append_nil] at this
          rw [this]
          rfl
    · rw [List.cons_append, parseVal_succ_lbrack]
      rcases joinComma_cellsCB_head cells1 ('"' :: e1) X
          (Or.inr ⟨e1, rfl⟩) with ⟨h1, h2, heq⟩ | ⟨T, hT⟩
      · cases h2
      · rw [hT, skipWs_cons '"' T (by decide)]
        dsimp only
        rw [if_neg (by decide), ← hT]
        rw [parseElems_cells_cut cells1 ccur ('"' :: e1)
          (Or.inr ⟨e1, r, rfl, he⟩) X hX f]
        rfl

theorem parseElems_rows_bd : ∀ (rows1 : Grid), rows1 ≠ [] →
    ∀ (X : List Char), (X = [] ∨ ∃ t, X = '}' :: t) → ∀ (f : Nat),
    parseElems f (joinComma (rows1.map serRow) ++ X) = none
  | [], h, _, _, _ => absurd rfl h
  | [row], _, X, hX, 0 => rfl
  | [row], _, X, hX, f + 1 => by
    rw [List.map_cons, List.map_nil, joinComma_single, parseElems_succ]
    cases hv : parseVal f (serRow row ++ X) with
    | none => rfl
    | some y =>
      rw [parseVal_serRow_force row X f y hv]
      dsimp only
      rcases hX with rfl | ⟨t, rfl⟩
      · rfl
      · rw [skipWs_cons '}' t (by decide)]
        dsimp only
        rw [if_neg (by decide), if_neg (by decide)]
  | row :: row2 :: rs, _, X, hX, 0 => rfl
  | row :: row2 :: rs, _, X, hX, f + 1 => by
    rw [List.map_cons, List.map_cons, joinComma_cons_cons]
    have hassoc :
        (serRow row ++ ',' :: joinComma (serRow row2 :: rs.map serRow)) ++ X
          = serRow row ++
              (',' :: (joinComma (serRow row2 :: rs.map serRow) ++ X)) := by
      simp [List.append_assoc]
    rw [hassoc, parseElems_succ]
    cases hv : parseVal f (serRow row ++
        (',' :: (joinComma (serRow row2 :: rs.map serRow) ++ X))) with
    | none => rfl
    | some y =>
      rw [parseVal_serRow_force row _ f y hv]
      dsimp only
      rw [skipWs_cons ',' _ (by decide)]
      dsimp only
      rw [if_pos rfl]
      obtain ⟨T, hT⟩ := joinComma_serRow_head (row2 :: rs) X (by simp)
      rw [List.map_cons] at hT
      rw [hT, skipWs_cons '[' T (by decide), ← hT]
      have hrec := parseElems_rows_bd (row2 :: rs) (by simp) X hX f
      rw [List.map_cons] at hrec
      rw [hrec]
      rfl

theorem parseElems_rowsafe :
    ∀ (rows1 : Grid) (rcur : List String) (RB X : List Char),
    RowSafe rcur RB X → ∀ (f : Nat),
    parseElems f (joinComma (rows1.map serRow ++ [RB]) ++ X) = none
  | [], rcur, RB, X, hsafe, 0 => rfl
  | [], rcur, RB, X, hsafe, f + 1 => by
    rw [List.map_nil, List.nil_append, joinComma_single, parseElems_succ,
      parseVal_rowsafe rcur RB X hsafe f]
  | row :: rs, rcur, RB, X, hsafe, 0 => rfl
  | row :: rs, rcur, RB, X, hsafe, f + 1 => by
    rw [List.map_cons, List.cons_append,
      joinComma_cons_of_ne _ _ (by simp)]
    have hassoc :
        (serRow row ++ ',' :: joinComma (rs.map serRow ++ [RB])) ++ X
          = serRow row ++
              (',' :: (joinComma (rs.map serRow ++ [RB]) ++ X)) := by
      simp [List.append_assoc]
    rw [hassoc, parseElems_succ]
    cases hv : parseVal f (serRow row ++
        (',' :: (joinComma (rs.map serRow ++ [RB]) ++ X))) with
    | none => rfl
    | some y =>
      rw [parseVal_serRow_force row _ f y hv]
      dsimp only
      rw [skipWs_cons ',' _ (by decide)]
      dsimp only
      rw [if_pos rfl]
      have hRBh : RB = [] ∨ ∃ T0, RB = '[' :: T0 := by
        rcases hsafe with ⟨rfl, hRB⟩ |
          ⟨hX, cells1, ccur, crest, e1, r, hrc, he, rfl⟩
        · exact rowShape_head rcur RB hRB
        · exact Or.inr ⟨_, rfl⟩
      rcases joinComma_rowsRB_head rs RB X hRBh with ⟨h1, h2, heq⟩ | ⟨T, hT⟩
      · rw [heq]
        have hXnil : X = [] := by
          rcases hsafe with ⟨rfl, _⟩ |
            ⟨hX, cells1, ccur, crest, e1, r, hrc, he, hRB⟩
          · rfl
          · rw [h2] at hRB; cases hRB
        subst hXnil
        rw [show skipWs [] = [] from rfl, parseElems_nil f]
        rfl
      · rw [hT, skipWs_cons '[' T (by decide), ← hT]
        rw [parseElems_rowsafe rs rcur RB X hsafe f]
        rfl

theorem gridShape_head (g : Grid) (G : List Char) (h : GridShape g G) :
    ∃ T0, G = '[' :: T0 := by
  rcases h with ⟨r1, rr, _, rfl⟩ | ⟨r1, rc, rr, RB, _, _, rfl⟩
  · exact ⟨_, rfl⟩
  · exact ⟨_, rfl⟩

/-- Grid-prefix / continuation pairs on which a value parse can only
fail. -/
def GridSafe (g : Grid) (G X : List Char) : Prop :=
  (X = [] ∧ GridShape g G) ∨
  (strOk X ∧ ∃ rows1 rcur rrest RB, g = rows1 ++ rcur :: rrest ∧
      RBInstr rcur RB ∧ G = '[' :: joinComma (rows1.map serRow ++ [RB])) ∨
  (∃ t rows1 rr, X = '}' :: t ∧ rows1 ++ rr = g ∧
      G = '[' :: joinComma (rows1.map serRow))

theorem gridSafe_head (g : Grid) (G X : List Char) (h : GridSafe g G X) :
    ∃ T0, G = '[' :: T0 := by
  rcases h with ⟨_, hG⟩ | ⟨_, r1, rc, rr, RB, _, _, rfl⟩ | ⟨t, r1, rr, _, _, rfl⟩
  · exact gridShape_head g G hG
  · exact ⟨_, rfl⟩
  · exact ⟨_, rfl⟩

theorem parseVal_gridsafe (g : Grid) (G X : List Char)
    (h : GridSafe g G X) : ∀ f, parseVal f (G ++ X) = none := by
  intro f
  cases f with
  | zero => rfl
  | succ f =>
    rcases h with ⟨rfl, hG⟩ |
      ⟨hX, rows1, rcur, rrest, RB, hg, hRB, rfl⟩ |
      ⟨t, rows1, rr, rfl, hg, rfl⟩
    · rcases hG with ⟨rows1, rr, hg, rfl⟩ |
        ⟨rows1, rcur, rrest, RB, hg, hRB, rfl⟩
      · rw [List.append_nil, parseVal_succ_lbrack]
        cases rows1 with
        | nil => rw [List.map_nil, joinComma_nil]; rfl
        | cons r rs =>
          obtain ⟨T, hT⟩ := joinComma_serRow_head (r :: rs) [] (by simp)
          rw [List.append_nil] at hT
          rw [hT, skipWs_cons '[' T (by decide)]
          dsimp only
          rw [if_neg (by decide), ← hT]
          have := parseElems_rows_bd (r :: rs) (by simp) [] (Or.inl rfl) f
          rw [List.append_nil] at this
          rw [this]
          rfl
      · rw [List.append_nil, parseVal_succ_lbrack]
        rcases joinComma_rowsRB_head rows1 RB []
            (rowShape_head rcur RB hRB) with ⟨h1, h2, heq⟩ | ⟨T, hT⟩
        · rw [List.append_nil] at heq
          rw [heq]
          rfl
        · rw [List.append_nil] at hT
          rw [hT, skipWs_cons '[' T (by decide)]
          dsimp only
          rw [if_neg (by decide), ← hT]
          have := parseElems_rowsafe rows1 rcur RB []
            (Or.inl ⟨rfl, hRB⟩) f
          rw [List.append_nil] at this
          rw [this]
          rfl
    · rw [List.cons_append, parseVal_succ_lbrack]
      have hRBh : ∃ T0, RB = '[' :: T0 := by
        obtain ⟨c1, cc, cr, e1, r, _, _, h3⟩ := hRB
        exact ⟨_, h3⟩
      rcases joinComma_rowsRB_head rows1 RB X (Or.inr hRBh) with
        ⟨h1, h2, heq⟩ | ⟨T, hT⟩
      · obtain ⟨T0, hT0⟩ := hRBh
        rw [h2] at hT0
        cases hT0
      · rw [hT, skipWs_cons '[' T (by decide)]
        dsimp only
        rw [if_neg (by decide), ← hT]
        rw [parseElems_rowsafe rows1 rcur RB X (Or.inr ⟨hX, hRB⟩) f]
        rfl
    · rw [List.cons_append, parseVal_succ_lbrack]
      cases rows1 with
      | nil =>
        rw [List.map_nil, joinComma_nil, List.nil_append,
          skipWs_cons '}' t (by decide)]
        dsimp only
        rw [if_neg (by decide), parseElems_close '}' (Or.inl rfl) t f]
        rfl
      | cons r rs =>
        obtain ⟨T, hT⟩ := joinComma_serRow_head (r :: rs) ('}' :: t) (by simp)
        rw [hT, skipWs_cons '[' T (by decide)]
        dsimp only
        rw [if_neg (by decide), ← hT]
        rw [parseElems_rows_bd (r :: rs) (by simp) ('}' :: t)
          (Or.inr ⟨t, rfl⟩) f]
        rfl

theorem parseMembers_step (kv : String × Grid) (TAIL : List Char) (f : Nat)
    (acc : List (List Char × JVal)) :
    parseMembers (f + 1) (serMember kv ++ ',' :: TAIL) acc = none ∨
    parseMembers (f + 1) (serMember kv ++ ',' :: TAIL) acc
      = parseMembers f (skipWs TAIL)
          (jsObjAssign acc kv.1.data (encodeGrid kv.2)) := by
  have hs : serMember kv ++ ',' :: TAIL
      = '"' :: (escStr kv.1.data ++ '"' ::
          (':' :: (serGrid kv.2 ++ ',' :: TAIL))) := by
    rw [serMember, serStr]; simp [List.append_assoc]
  rw [hs, parseMembers_succ_quote, parseStrBody_escStr]
  dsimp only
  rw [skipWs_cons ':' _ (by decide)]
  dsimp only
  rw [if_pos rfl]
  have hsw : skipWs (serGrid kv.2 ++ ',' :: TAIL)
      = serGrid kv.2 ++ ',' :: TAIL := by
    rw [serGrid, List.cons_append]
    exact skipWs_cons '[' _ (by decide)
  rw [hsw]
  cases hv : parseVal f (serGrid kv.2 ++ ',' :: TAIL) with
  | none => exact Or.inl rfl
  | some y =>
    rw [parseVal_serGrid_force kv.2 _ f y hv]
    dsimp only
    rw [skipWs_cons ',' _ (by decide)]
    dsimp only
    rw [if_pos rfl]
    exact Or.inr rfl

theorem parseMembers_last (kv : String × Grid) (X : List Char) (f : Nat)
    (acc : List (List Char × JVal)) :
    parseMembers (f + 1) (serMember kv ++ X) acc
      = (match parseVal f (skipWs (serGrid kv.2 ++ X)) with
         | none => none
         | some (v, r4) =>
           match skipWs r4 with
           | [] => none
           | d2 :: r5 =>
             if d2 = ',' then
               parseMembers f (skipWs r5)
                 (jsObjAssign acc kv.1.data v)
             else if d2 = '}' then
               some (jsObjAssign acc kv.1.data v, r5)
             else none) := by
  have hs : serMember kv ++ X
      = '"' :: (escStr kv.1.data ++ '"' :: (':' :: (serGrid kv.2 ++ X))) := by
    rw [serMember, serStr]; simp [List.append_assoc]
  rw [hs, parseMembers_succ_quote, parseStrBody_escStr]
  dsimp only
  rw [skipWs_cons ':' _ (by decide)]
  dsimp only
  rw [if_pos rfl]

theorem parseMembers_boundary_none : ∀ (mc : PageDataMap), mc ≠ [] →
    ∀ (X : List Char), (X = [] ∨ ∃ t, X = ']' :: t) →
    ∀ (f : Nat) (acc : List (List Char × JVal)),
    parseMembers f (joinComma (mc.map serMember) ++ X) acc = none
  | [], h, _, _, _, _ => absurd rfl h
  | [kv], _, X, hX, 0, acc => rfl
  | [kv], _, X, hX, f + 1, acc => by
    rw [List.map_cons, List.map_nil, joinComma_single, parseMembers_last]
    have hsw : skipWs (serGrid kv.2 ++ X) = serGrid kv.2 ++ X := by
      rw [serGrid, List.cons_append]
      exact skipWs_cons '[' _ (by decide)
    rw [hsw]
    cases hv : parseVal f (serGrid kv.2 ++ X) with
    | none => rfl
    | some y =>
      rw [parseVal_serGrid_force kv.2 X f y hv]
      dsimp only
      rcases hX with rfl | ⟨t, rfl⟩
      · rfl
      · rw [skipWs_cons ']' t (by decide)]
        dsimp only
        rw [if_neg (by decide), if_neg (by decide)]
  | kv :: kv2 :: ms, _, X, hX, 0, acc => rfl
  | kv :: kv2 :: ms, _, X, hX, f + 1, acc => by
    rw [List.map_cons, List.map_cons, joinComma_cons_cons]
    have hassoc :
        (serMember kv ++ ',' ::
            joinComma (serMember kv2 :: ms.map serMember)) ++ X
          = serMember kv ++
              (',' :: (joinComma (serMember kv2 :: ms.map serMember)
                ++ X)) := by
      simp [List.append_assoc]
    rw [hassoc]
    rcases parseMembers_step kv
        (joinComma (serMember kv2 :: ms.map serMember) ++ X) f acc with
      h | h
    · exact h
    · rw [h]
      obtain ⟨T, hT⟩ := joinComma_serMember_head (kv2 :: ms) X (by simp)
      rw [List.map_cons] at hT
      rw [hT, skipWs_cons '"' T (by decide), ← hT]
      have hrec := parseMembers_boundary_none (kv2 :: ms) (by simp) X hX f
        (jsObjAssign acc kv.1.data (encodeGrid kv.2))
      rw [List.map_cons] at hrec
      rw [hrec]

theorem parseMembers_boundary_close : ∀ (mc : PageDataMap), mc ≠ [] →
    ∀ (t : List Char) (f : Nat) (acc : List (List Char × JVal)),
    parseMembers f (joinComma (mc.map serMember) ++ '}' :: t) acc = none ∨
    parseMembers f (joinComma (mc.map serMember) ++ '}' :: t) acc
      = some (assignFold acc mc, t)
  | [], h, _, _, _ => absurd rfl h
  | [kv], _, t, 0, acc => Or.inl rfl
  | [kv], _, t, f + 1, acc => by
    rw [List.map_cons, List.map_nil, joinComma_single, parseMembers_last]
    have hsw : skipWs (serGrid kv.2 ++ '}' :: t) = serGrid kv.2 ++ '}' :: t := by
      rw [serGrid, List.cons_append]
      exact skipWs_cons '[' _ (by decide)
    rw [hsw]
    cases hv : parseVal f (serGrid kv.2 ++ '}' :: t) with
    | none => exact Or.inl rfl
    | some y =>
      rw [parseVal_serGrid_force kv.2 _ f y hv]
      dsimp only
      rw [skipWs_cons '}' t (by decide)]
      dsimp only
      rw [if_neg (by decide), if_pos rfl]
      exact Or.inr rfl
  | kv :: kv2 :: ms, _, t, 0, acc => Or.inl rfl
  | kv :: kv2 :: ms, _, t, f + 1, acc => by
    rw [List.map_cons, List.map_cons, joinComma_cons_cons]
    have hassoc :
        (serMember kv ++ ',' ::
            joinComma (serMember kv2 :: ms.map serMember)) ++ '}' :: t
          = serMember kv ++
              (',' :: (joinComma (serMember kv2 :: ms.map serMember)
                ++ '}' :: t)) := by
      simp [List.append_assoc]
    rw [hassoc]
    rcases parseMembers_step kv
        (joinComma (serMember kv2 :: ms.map serMember) ++ '}' :: t) f acc with
      h | h
    · exact Or.inl h
    · rw [h]
      obtain ⟨T, hT⟩ := joinComma_serMember_head (kv2 :: ms) ('}' :: t)
        (by simp)
      rw [List.map_cons] at hT
      rw [hT, skipWs_cons '"' T (by decide), ← hT]
      have hrec := parseMembers_boundary_close (kv2 :: ms) (by simp) t f
        (jsObjAssign acc kv.1.data (encodeGrid kv.2))
      rw [List.map_cons] at hrec
      rcases hrec with h2 | h2
      · exact Or.inl h2
      · rw [h2]
        exact Or.inr rfl

/-- Member-prefix / continuation pairs on which the member parse can only
fail. -/
def MemberSafe (kv : String × Grid) (Bad X : List Char) : Prop :=
  (X = [] ∧ BadShape kv Bad) ∨
  (strOk X ∧ ∃ e1 r, Bad = '"' :: e1 ∧ e1 ++ r = escStr kv.1.data) ∨
  (strOk X ∧ ∃ G, Bad = serStr kv.1.data ++ ':' :: G ∧ GridSafe kv.2 G X)

theorem memberSafe_badhead (kv : String × Grid) (Bad X : List Char)
    (h : MemberSafe kv Bad X) : Bad = [] ∨ ∃ T0, Bad = '"' :: T0 := by
  rcases h with ⟨_, hB⟩ | ⟨_, e1, r, rfl, _⟩ | ⟨_, G, rfl, _⟩
  · rcases hB with hCS | rfl | rfl | ⟨G, _, rfl⟩
    · rcases hCS with rfl | ⟨e1, r, rfl, _⟩
      · exact Or.inl rfl
      · exact Or.inr ⟨e1, rfl⟩
    · exact Or.inr ⟨escStr kv.1.data ++ ['"'],
        by rw [serStr, List.cons_append]⟩
    · exact Or.inr ⟨(escStr kv.1.data ++ ['"']) ++ [':'],
        by rw [serStr, List.cons_append, List.cons_append]⟩
    · exact Or.inr ⟨(escStr kv.1.data ++ ['"']) ++ ':' :: G,
        by rw [serStr, List.cons_append, List.cons_append]⟩
  · exact Or.inr ⟨e1, rfl⟩
  · exact Or.inr ⟨(escStr kv.1.data ++ ['"']) ++ ':' :: G,
      by rw [serStr, List.cons_append, List.cons_append]⟩

theorem joinComma_memberBad_head (mdone : PageDataMap) (Bad X : List Char)
    (hB : Bad = [] ∨ ∃ T0, Bad = '"' :: T0) :
    (mdone = [] ∧ Bad = [] ∧
      joinComma (mdone.map serMember ++ [Bad]) ++ X = X) ∨
    (∃ T, joinComma (mdone.map serMember ++ [Bad]) ++ X = '"' :: T) := by
  cases mdone with
  | nil =>
    rcases hB with rfl | ⟨T0, rfl⟩
    · exact Or.inl ⟨rfl, rfl,
        by rw [List.map_nil, List.nil_append, joinComma_single,
          List.nil_append]⟩
    · exact Or.inr ⟨T0 ++ X,
        by rw [List.map_nil, List.nil_append, joinComma_single,
          List.cons_append]⟩
  | cons kv ms =>
    refine Or.inr ⟨(escStr kv.1.data ++ ['"']) ++ ((':' :: serGrid kv.2) ++
      ((',' :: joinComma (ms.map serMember ++ [Bad])) ++ X)), ?_⟩
    rw [List.map_cons, List.cons_append, joinComma_cons_of_ne _ _ (by simp),
      serMember, serStr]
    simp [List.append_assoc]

theorem parseMembers_cut : ∀ (mdone : PageDataMap) (cur : String × Grid)
    (Bad X : List Char), MemberSafe cur Bad X →
    ∀ (f : Nat) (acc : List (List Char × JVal)),
    parseMembers f (joinComma (mdone.map serMember ++ [Bad]) ++ X) acc = none
  | [], cur, Bad, X, hsafe, f, acc => by
    rw [List.map_nil, List.nil_append, joinComma_single]
    rcases hsafe with ⟨rfl, hBad⟩ | ⟨hX, e1, r, rfl, he⟩ | ⟨hX, G, rfl, hGS⟩
    · rw [List.append_nil]
      rcases hBad with hCS | rfl | rfl | ⟨G, hGS, rfl⟩
      · rcases hCS with rfl | ⟨e1, r, rfl, he⟩
        · exact parseMembers_nil f acc
        · have := parseMembers_strcut cur.1.data e1 [] ⟨r, he⟩
            (by intro c hc; simp at hc) f acc
          rw [List.append_nil] at this
          exact this
      · cases f with
        | zero => rfl
        | succ f =>
          have hs : serStr cur.1.data
              = '"' :: (escStr cur.1.data ++ '"' :: []) := by
            rw [serStr]; simp
          rw [hs, parseMembers_succ_quote, parseStrBody_escStr]
          rfl
      · cases f with
        | zero => rfl
        | succ f =>
          have hs : serStr cur.1.data ++ [':']
              = '"' :: (escStr cur.1.data ++ '"' :: [':']) := by
            rw [serStr]; simp
          rw [hs, parseMembers_succ_quote, parseStrBody_escStr]
          dsimp only
          rw [skipWs_cons ':' [] (by decide)]
          dsimp only
          rw [if_pos rfl]
          rw [show skipWs [] = [] from rfl, parseVal_nil f]
      · cases f with
        | zero => rfl
        | succ f =>
          have hs : serStr cur.1.data ++ ':' :: G
              = '"' :: (escStr cur.1.data ++ '"' :: (':' :: G)) := by
            rw [serStr]; simp
          rw [hs, parseMembers_succ_quote, parseStrBody_escStr]
          dsimp only
          rw [skipWs_cons ':' G (by decide)]
          dsimp only
          rw [if_pos rfl]
          obtain ⟨T0, rfl⟩ := gridShape_head cur.2 G hGS
          rw [skipWs_cons '[' T0 (by decide)]
          have := parseVal_gridsafe cur.2 ('[' :: T0) [] (Or.inl ⟨rfl, hGS⟩) f
          rw [List.append_nil] at this
          rw [this]
    · rw [List.cons_append]
      exact parseMembers_strcut cur.1.data e1 X ⟨r, he⟩ hX f acc
    · cases f with
      | zero => rfl
      | succ f =>
        obtain ⟨T0, rfl⟩ := gridSafe_head cur.2 G X hGS
        have hs : (serStr cur.1.data ++ ':' :: '[' :: T0) ++ X
            = '"' :: (escStr cur.1.data ++ '"' ::
                (':' :: ('[' :: (T0 ++ X)))) := by
          rw [serStr]; simp [List.append_assoc]
        rw [hs, parseMembers_succ_quote, parseStrBody_escStr]
        dsimp only
        rw [skipWs_cons ':' _ (by decide)]
        dsimp only
        rw [if_pos rfl]
        rw [skipWs_cons '[' _ (by decide)]
        have := parseVal_gridsafe cur.2 ('[' :: T0) X hGS f
        rw [List.cons_append] at this
        rw [this]
  | kv :: mdone, cur, Bad, X, hsafe, f, acc => by
    cases f with
    | zero => rfl
    | succ f =>
      rw [List.map_cons, List.cons_append, joinComma_cons_of_ne _ _ (by simp)]
      have hassoc :
          (serMember kv ++ ',' ::
              joinComma (mdone.map serMember ++ [Bad])) ++ X
            = serMember kv ++
                (',' :: (joinComma (mdone.map serMember ++ [Bad]) ++ X)) := by
        simp [List.append_assoc]
      rw [hassoc]
      rcases parseMembers_step kv
          (joinComma (mdone.map serMember ++ [Bad]) ++ X) f acc with h | h
      · exact h
      · rw [h]
        rcases joinComma_memberBad_head mdone Bad X
            (memberSafe_badhead cur Bad X hsafe) with ⟨h1, h2, heq⟩ | ⟨T, hT⟩
        · rw [heq]
          have hXnil : X = [] := by
            rcases hsafe with ⟨rfl, _⟩ | ⟨_, e1, r, hBeq, _⟩ | ⟨_, G, hBeq, _⟩
            · rfl
            · rw [h2] at hBeq; cases hBeq
            · rw [h2] at hBeq
              rw [serStr, List.cons_append, List.cons_append] at hBeq
              exact List.noConfusion hBeq
          subst hXnil
          rw [show skipWs [] = [] from rfl, parseMembers_nil f]
        · rw [hT, skipWs_cons '"' T (by decide), ← hT]
          exact parseMembers_cut mdone cur Bad X hsafe f _

theorem jsonParse_prefix_none (m : PageDataMap) (hm : m ≠ [])
    (p q : List Char) (hpq : p ++ q = serializePM m) (hp : p ≠ [])
    (hq : q ≠ []) : jsonParse p = none := by
  obtain ⟨w, rfl, hW⟩ := serializePM_prefix_shape m hm p q hpq hp hq
  rw [jsonParse, skipWs_cons '{' w (by decide), parseVal_succ_lcurl]
  rcases hW with ⟨mc, mrest, hmeq, hmc, rfl⟩ |
    ⟨mdone, cur, mrest, Bad, hmeq, hBS, rfl⟩
  · obtain ⟨T, hT⟩ := joinComma_serMember_head mc [] hmc
    rw [List.append_nil] at hT
    rw [hT, skipWs_cons '"' T (by decide)]
    dsimp only
    rw [if_neg (by decide), ← hT]
    have := parseMembers_boundary_none mc hmc [] (Or.inl rfl)
      ('{' :: joinComma (mc.map serMember)).length []
    rw [List.append_nil] at this
    rw [this]
    rfl
  · rcases joinComma_memberBad_head mdone Bad []
        (memberSafe_badhead cur Bad [] (Or.inl ⟨rfl, hBS⟩)) with
      ⟨h1, h2, heq⟩ | ⟨T, hT⟩
    · rw [List.append_nil] at heq
      rw [heq]
      rfl
    · rw [List.append_nil] at hT
      rw [hT, skipWs_cons '"' T (by decide)]
      dsimp only
      rw [if_neg (by decide), ← hT]
      have := parseMembers_cut mdone cur Bad [] (Or.inl ⟨rfl, hBS⟩)
        ('{' :: joinComma (mdone.map serMember ++ [Bad])).length []
      rw [List.append_nil] at this
      rw [this]
      rfl

theorem jsonParse_partial_none (mdone : PageDataMap) (cur : String × Grid)
    (Bad S : List Char) (hsafe : MemberSafe cur Bad S)
    (hBh : ∃ T0, Bad = '"' :: T0) :
    jsonParse ('{' :: (joinComma (mdone.map serMember ++ [Bad]) ++ S))
      = none := by
  rw [jsonParse, skipWs_cons '{' _ (by decide), parseVal_succ_lcurl]
  rcases joinComma_memberBad_head mdone Bad S (Or.inr hBh) with
    ⟨h1, h2, heq⟩ | ⟨T, hT⟩
  · obtain ⟨T0, hT0⟩ := hBh
    rw [h2] at hT0
    cases hT0
  · rw [hT, skipWs_cons '"' T (by decide)]
    dsimp only
    rw [if_neg (by decide), ← hT]
    have := parseMembers_cut mdone cur Bad S hsafe
      ('{' :: (joinComma (mdone.map serMember ++ [Bad]) ++ S)).length []
    rw [this]
    rfl

theorem trunc_eq_serializePM (mdone : PageDataMap) (key : String)
    (rows1 : Grid) :
    ('{' :: (joinComma (mdone.map serMember ++
        [serStr key.data ++ ':' :: '[' :: joinComma (rows1.map serRow)])
      ++ [']', '}']))
      = serializePM (mdone ++ [(key, rows1)]) := by
  have hmm2 : serMember (key, rows1)
      = (serStr key.data ++ ':' :: '[' :: joinComma (rows1.map serRow))
          ++ [']'] := by
    rw [serMember, serGrid]
    simp [List.append_assoc]
  have h3 : joinComma (mdone.map serMember ++ [serMember (key, rows1)])
      = joinComma (mdone.map serMember ++
          [serStr key.data ++ ':' :: '[' :: joinComma (rows1.map serRow)])
          ++ [']'] := by
    rw [hmm2, joinComma_ext]
  rw [serializePM, List.map_append, List.map_cons, List.map_nil, h3]
  simp [List.append_assoc]

theorem nodup_trunc (m mdone : PageDataMap) (key : String) (g g1 : Grid)
    (mrest : PageDataMap) (hm : m = mdone ++ (key, g) :: mrest)
    (hnd : (m.map Prod.fst).Nodup) :
    (((mdone ++ [(key, g1)]).map Prod.fst)).Nodup := by
  subst hm
  have h1 : ((mdone ++ [(key, g1)]).map Prod.fst)
      = mdone.map Prod.fst ++ [key] := by simp
  have h2 : ((mdone ++ (key, g) :: mrest).map Prod.fst)
      = mdone.map Prod.fst ++ key :: mrest.map Prod.fst := by simp
  rw [h1]
  rw [h2] at hnd
  refine List.Nodup.sublist ?_ hnd
  exact List.Sublist.append_left
    (List.Sublist.cons₂ key (List.nil_sublist _)) _

theorem getLast?_append_right (l1 l2 : List Char) (h : l2 ≠ []) :
    (l1 ++ l2).getLast? = l2.getLast? := by
  obtain ⟨li, ll, rfl⟩ := (List.eq_nil_or_concat l2).resolve_left h
  simp only [List.concat_eq_append, ← List.append_assoc]
  rw [List.getLast?_concat, List.getLast?_concat]

theorem serStr_getLast (k : List Char) : (serStr k).getLast? = some '"' := by
  rw [serStr, List.cons_append]
  rw [show '"' :: (escStr k ++ ['"']) = ('"' :: escStr k) ++ ['"'] from
    by rw [List.cons_append]]
  exact List.getLast?_concat _

theorem joinComma_append_ne_nil (xs : List (List Char)) (y : List Char)
    (h : y ≠ [] ∨ xs ≠ []) : joinComma (xs ++ [y]) ≠ [] := by
  cases xs with
  | nil =>
    rw [List.nil_append, joinComma_single]
    rcases h with h | h
    · exact h
    · exact absurd rfl h
  | cons a as =>
    rw [joinComma_append_one _ _ (by simp)]
    intro hc
    exact absurd (List.append_eq_nil.mp hc).2 (by simp)

theorem jsonParse_boundary_trials (mc : PageDataMap) (hmc : mc ≠ []) :
    jsonParse ('{' :: (joinComma (mc.map serMember) ++ ['}', '}'])) = none ∧
    (∀ t, jsonParse ('{' :: (joinComma (mc.map serMember) ++ ']' :: t))
      = none) := by
  constructor
  · rw [jsonParse, skipWs_cons '{' _ (by decide), parseVal_succ_lcurl]
    obtain ⟨T, hT⟩ := joinComma_serMember_head mc ['}', '}'] hmc
    rw [hT, skipWs_cons '"' T (by decide)]
    dsimp only
    rw [if_neg (by decide), ← hT]
    rcases parseMembers_boundary_close mc hmc ['}']
        ('{' :: (joinComma (mc.map serMember) ++ ['}', '}'])).length [] with
      h | h
    · rw [show joinComma (mc.map serMember) ++ ['}', '}']
          = joinComma (mc.map serMember) ++ '}' :: ['}'] from rfl, h]
      rfl
    · rw [show joinComma (mc.map serMember) ++ ['}', '}']
          = joinComma (mc.map serMember) ++ '}' :: ['}'] from rfl, h]
      rfl
  · intro t
    rw [jsonParse, skipWs_cons '{' _ (by decide), parseVal_succ_lcurl]
    obtain ⟨T, hT⟩ := joinComma_serMember_head mc (']' :: t) hmc
    rw [hT, skipWs_cons '"' T (by decide)]
    dsimp only
    rw [if_neg (by decide), ← hT]
    rw [parseMembers_boundary_none mc hmc (']' :: t) (Or.inr ⟨t, rfl⟩)
      ('{' :: (joinComma (mc.map serMember) ++ ']' :: t)).length []]
    rfl

theorem getLast?_cons_of_ne (a : Char) (l : List Char) (h : l ≠ []) :
    (a :: l).getLast? = l.getLast? := by
  rw [show a :: l = [a] ++ l from rfl]
  exact getLast?_append_right [a] l h

theorem strOk_bb : strOk ['}', '}'] := by
  intro c hc
  fin_cases hc <;> decide

theorem strOk_sb : strOk [']', '}'] := by
  intro c hc
  fin_cases hc <;> decide

theorem strOk_ssb : strOk [']', ']', '}'] := by
  intro c hc
  fin_cases hc <;> decide

theorem strOk_trial (S : List Char)
    (h : S = ['}', '}'] ∨ S = [']', '}'] ∨ S = [']', ']', '}']) :
    strOk S := by
  rcases h with rfl | rfl | rfl
  · exact strOk_bb
  · exact strOk_sb
  · exact strOk_ssb

theorem repair_prefix_classify (m : PageDataMap) (hm : m ≠ [])
    (hnd : (m.map Prod.fst).Nodup) (p q : List Char)
    (hpq : p ++ q = serializePM m) (hp : p ≠ []) (hq : q ≠ [])
    (hlast : p.getLast? = some ']') :
    (jsonParse (p ++ ['}', '}']) = none ∧
     jsonParse (p ++ [']', '}']) = none ∧
     jsonParse (p ++ [']', ']', '}']) = none) ∨
    (∃ mdone key g g1 mrest, m = mdone ++ (key, g) :: mrest ∧
      (∃ g2, g1 ++ g2 = g) ∧
      jsonParse (p ++ ['}', '}']) = none ∧
      jsonParse (p ++ [']', '}']) = some (encodePM (mdone ++ [(key, g1)]))) := by
  obtain ⟨w, hpw, hW⟩ := serializePM_prefix_shape m hm p q hpq hp hq
  have hwne : w ≠ [] := by
    intro hc
    subst hc
    rw [hpw] at hlast
    exact absurd (Option.some.inj hlast) (by decide)
  have hwlast : w.getLast? = some ']' := by
    rw [hpw, getLast?_cons_of_ne '{' w hwne] at hlast
    exact hlast
  rcases hW with ⟨mc, mrest, hmeq, hmc, rfl⟩ |
    ⟨mdone, cur, mrest, Bad, hmeq, hBS, rfl⟩
  · left
    obtain ⟨h1, h2⟩ := jsonParse_boundary_trials mc hmc
    refine ⟨?_, ?_, ?_⟩
    · rw [hpw, List.cons_append]; exact h1
    · rw [hpw, List.cons_append]; exact h2 ['}']
    · rw [hpw, List.cons_append]; exact h2 [']', '}']
  · have hJL : Bad ≠ [] →
        (joinComma (mdone.map serMember ++ [Bad])).getLast?
          = Bad.getLast? := fun h =>
      joinComma_append_getLast (mdone.map serMember) Bad h
    rcases hBS with hCS | hB3 | hB4 | ⟨G, hGS, hB5⟩
    · rcases hCS with hB0 | ⟨e1, r, hBe, he⟩
      · exfalso
        subst hB0
        cases mdone with
        | nil =>
          rw [List.map_nil, List.nil_append, joinComma_single] at hwne
          exact hwne rfl
        | cons kv ms =>
          have hcomp := joinComma_append_nil_getLast
            ((kv :: ms).map serMember) (by simp)
          rw [hcomp] at hwlast
          exact absurd (Option.some.inj hwlast) (by decide)
      · left
        subst hBe
        refine ⟨?_, ?_, ?_⟩
        · rw [hpw, List.cons_append]
          exact jsonParse_partial_none mdone cur _ _
            (Or.inr (Or.inl ⟨strOk_bb, e1, r, rfl, he⟩)) ⟨e1, rfl⟩
        · rw [hpw, List.cons_append]
          exact jsonParse_partial_none mdone cur _ _
            (Or.inr (Or.inl ⟨strOk_sb, e1, r, rfl, he⟩)) ⟨e1, rfl⟩
        · rw [hpw, List.cons_append]
          exact jsonParse_partial_none mdone cur _ _
            (Or.inr (Or.inl ⟨strOk_ssb, e1, r, rfl, he⟩)) ⟨e1, rfl⟩
    · exfalso
      subst hB3
      rw [hJL (by rw [serStr]; simp), serStr_getLast] at hwlast
      exact absurd (Option.some.inj hwlast) (by decide)
    · exfalso
      subst hB4
      rw [hJL (by simp), List.getLast?_concat] at hwlast
      exact absurd (Option.some.inj hwlast) (by decide)
    · have hBne : Bad ≠ [] := by
        subst hB5
        rw [serStr]
        simp
      rcases hGS with ⟨rows1, rr, hg, hGe⟩ |
        ⟨rows1, rcur, rrest, RB, hg, hRS, hGe⟩
      · -- row-boundary cut: repair succeeds with the truncated grid
        right
        obtain ⟨key, g⟩ := cur
        refine ⟨mdone, key, g, rows1, mrest, hmeq, ⟨rr, hg⟩, ?_, ?_⟩
        · rw [hpw, List.cons_append]
          refine jsonParse_partial_none mdone (key, g) Bad _
            (Or.inr (Or.inr ⟨strOk_bb, G, hB5, ?_⟩)) ?_
          · exact Or.inr (Or.inr ⟨['}'], rows1, rr, rfl, hg, hGe⟩)
          · subst hB5
            exact ⟨(escStr key.data ++ ['"']) ++ ':' :: G,
              by rw [serStr, List.cons_append, List.cons_append]⟩
        · rw [hpw, List.cons_append]
          subst hB5
          subst hGe
          rw [trunc_eq_serializePM mdone key rows1]
          exact jsonParse_serializePM (mdone ++ [(key, rows1)])
            (nodup_trunc m mdone key g rows1 mrest hmeq hnd)
      · rcases hRS with hRB0 | ⟨cells1, cr, hcr, hRBe⟩ |
          ⟨cells1, ccur, crest, CB, hrow, hCSc, hRBe⟩
        · exfalso
          subst hRB0
          subst hGe
          subst hB5
          rw [hJL hBne, getLast?_append_right _ _ (by simp),
            getLast?_cons_of_ne ':' _ (by simp)] at hwlast
          cases rows1 with
          | nil =>
            rw [List.map_nil, List.nil_append, joinComma_single] at hwlast
            exact absurd (Option.some.inj hwlast) (by decide)
          | cons r0 rs =>
            rw [getLast?_cons_of_ne '[' _
              (joinComma_append_ne_nil _ _ (Or.inr (by simp))),
              joinComma_append_nil_getLast _ (by simp)] at hwlast
            exact absurd (Option.some.inj hwlast) (by decide)
        · exfalso
          subst hRBe
          subst hGe
          subst hB5
          rw [hJL hBne, getLast?_append_right _ _ (by simp),
            getLast?_cons_of_ne ':' _ (by simp),
            getLast?_cons_of_ne '[' _
              (joinComma_append_ne_nil _ _ (Or.inl (by simp))),
            joinComma_append_getLast _ _ (by simp)] at hwlast
          cases cells1 with
          | nil =>
            rw [List.map_nil, joinComma_nil] at hwlast
            exact absurd (Option.some.inj hwlast) (by decide)
          | cons c0 cs =>
            obtain ⟨ci, cl, hcc⟩ :=
              (List.eq_nil_or_concat (c0 :: cs)).resolve_left (by simp)
            rw [hcc, List.concat_eq_append, List.map_append, List.map_cons,
              List.map_nil, getLast?_cons_of_ne '[' _
                (joinComma_append_ne_nil _ _ (Or.inl (by rw [serStr]; simp))),
              joinComma_append_getLast _ _ (by rw [serStr]; simp),
              serStr_getLast] at hwlast
            exact absurd (Option.some.inj hwlast) (by decide)
        · rcases hCSc with hCB0 | ⟨e1, r, hCBe, he⟩
          · exfalso
            subst hCB0
            subst hRBe
            subst hGe
            subst hB5
            rw [hJL hBne, getLast?_append_right _ _ (by simp),
              getLast?_cons_of_ne ':' _ (by simp),
              getLast?_cons_of_ne '[' _
                (joinComma_append_ne_nil _ _ (Or.inl (by simp)))] at hwlast
            cases cells1 with
            | nil =>
              rw [joinComma_append_getLast _ _ (by simp)] at hwlast
              rw [List.map_nil, List.nil_append, joinComma_single] at hwlast
              exact absurd (Option.some.inj hwlast) (by decide)
            | cons c0 cs =>
              rw [joinComma_append_getLast _ _ (by simp),
                getLast?_cons_of_ne '[' _
                  (joinComma_append_ne_nil _ _ (Or.inr (by simp))),
                joinComma_append_nil_getLast _ (by simp)] at hwlast
              exact absurd (Option.some.inj hwlast) (by decide)
          · left
            subst hCBe
            subst hRBe
            subst hGe
            subst hB5
            refine ⟨?_, ?_, ?_⟩
            all_goals
              rw [hpw, List.cons_append]
              refine jsonParse_partial_none mdone cur _ _
                (Or.inr (Or.inr ⟨strOk_trial _ (by simp), _, rfl,
                  Or.inr (Or.inl
                    ⟨strOk_trial _ (by simp), rows1, rcur, rrest, _, hg,
                      ⟨cells1, ccur, crest, e1, r, hrow, he, rfl⟩, rfl⟩)⟩))
                ⟨(escStr cur.1.data ++ ['"']) ++ ':' :: _,
                  by rw [serStr, List.cons_append, List.cons_append]⟩

theorem preprocess_take (m : PageDataMap) (k : Nat) (hk1 : 0 < k)
    (hk2 : k ≤ (serializePM m).length) :
    ∃ k', 0 < k' ∧ k' ≤ k ∧
      preprocess ((serializePM m).take k) = (serializePM m).take k' := by
  obtain ⟨kk, rfl⟩ : ∃ kk, k = kk + 1 := ⟨k - 1, by omega⟩
  have hsdec : serializePM m = '{' :: (joinComma (m.map serMember) ++ ['}']) := by
    rw [serializePM_decomp, List.cons_append]
  have hTdec : (serializePM m).take (kk + 1)
      = '{' :: (joinComma (m.map serMember) ++ ['}']).take kk := by
    rw [hsdec, List.take_succ_cons]
  have hsplit := List.takeWhile_append_dropWhile
    (p := jsTrimWs) (l := ((serializePM m).take (kk + 1)).reverse)
  have hTeq : (((serializePM m).take (kk + 1)).reverse.dropWhile
        jsTrimWs).reverse ++
      (((serializePM m).take (kk + 1)).reverse.takeWhile jsTrimWs).reverse
      = (serializePM m).take (kk + 1) := by
    have h2 := congrArg List.reverse hsplit
    rw [List.reverse_append, List.reverse_reverse] at h2
    exact h2
  have hDne : (((serializePM m).take (kk + 1)).reverse.dropWhile
      jsTrimWs).reverse ≠ [] := by
    intro hc
    rw [List.reverse_eq_nil_iff] at hc
    have hall := List.dropWhile_eq_nil_iff.mp hc
    have : jsTrimWs '{' = true := hall '{' (by
      rw [List.mem_reverse, hTdec]
      simp)
    exact absurd this (by decide)
  have htrim : trimBoth ((serializePM m).take (kk + 1))
      = (((serializePM m).take (kk + 1)).reverse.dropWhile
          jsTrimWs).reverse := by
    rw [trimBoth, hTdec, List.dropWhile_cons, if_neg (by decide), ← hTdec]
  generalize hT2 : (((serializePM m).take (kk + 1)).reverse.dropWhile
      jsTrimWs).reverse = T2 at hTeq hDne htrim
  generalize hu : (((serializePM m).take (kk + 1)).reverse.takeWhile
      jsTrimWs).reverse = u at hTeq
  have hk'le : T2.length ≤ kk + 1 := by
    have h1 := congrArg List.length hTeq
    rw [List.length_append, List.length_take] at h1
    omega
  have hT2take : T2 = (serializePM m).take T2.length := by
    have h1 : ((serializePM m).take (kk + 1)).take T2.length = T2 := by
      rw [← hTeq, List.take_left]
    conv_lhs => rw [← h1]
    rw [List.take_take, min_eq_left hk'le]
  have hT2pos : 0 < T2.length := List.length_pos.mpr hDne
  have hT2head : ∃ T2', T2 = '{' :: T2' := by
    cases hc : T2 with
    | nil => exact absurd hc hDne
    | cons c T2' =>
      rw [hc, hTdec] at hTeq
      rw [List.cons_append] at hTeq
      exact ⟨T2', by rw [(List.cons.inj hTeq).1]⟩
  obtain ⟨T2', hT2'⟩ := hT2head
  have hmemT2 : ∀ c ∈ T2, c ∈ serializePM m := by
    intro c hc
    have h1 : c ∈ (serializePM m).take (kk + 1) := by
      rw [← hTeq]
      exact List.mem_append.mpr (Or.inl hc)
    exact (List.take_sublist _ _).mem h1
  have hnl : '\n' ∉ T2 := by
    intro habs
    have := serializePM_chars m '\n' (hmemT2 '\n' habs)
    simp at this
  have hcl : isCommentLine T2 = false := by
    rw [isCommentLine, hT2', List.dropWhile_cons, if_neg (by decide)]
    cases T2' with
    | nil => rfl
    | cons c2 t => rfl
  have hfence : ¬(T2.take 3 = [btick, btick, btick]) := by
    rw [hT2']
    intro habs
    rw [List.take_succ_cons] at habs
    exact absurd (List.cons.inj habs).1 (by decide)
  have hcut : cutToBrace T2 = T2 := by
    rw [cutToBrace, hT2', List.findIdx?_cons]
    simp
  refine ⟨T2.length, hT2pos, hk'le, ?_⟩
  rw [preprocess]
  simp only [htrim, if_neg hfence, stripCommentLines_id _ hnl hcl, hcut]
  exact hT2take

theorem lastIdxRowSep_spec (t : List Char) (i : Nat)
    (h : lastIdxRowSep t = some i) :
    i < t.length ∧ (t.drop i).take 2 = [']', ','] := by
  constructor
  · have hmem := List.mem_of_find?_eq_some h
    rw [List.mem_reverse, List.mem_range] at hmem
    exact hmem
  · have hp := List.find?_some h
    exact of_decide_eq_true hp

theorem lastIdxBracket_spec (t : List Char) (i : Nat)
    (h : lastIdxBracket t = some i) :
    i < t.length ∧ (t.drop i).take 1 = [']'] := by
  constructor
  · have hmem := List.mem_of_find?_eq_some h
    rw [List.mem_reverse, List.mem_range] at hmem
    exact hmem
  · have hp := List.find?_some h
    exact of_decide_eq_true hp

theorem tryRepairJson_rowSep (t : List Char) (i : Nat)
    (h : lastIdxRowSep t = some i) :
    tryRepairJson t =
      (match jsonParse (t.take (i + 1) ++ ['}', '}']) with
       | some v => some v
       | none =>
         match jsonParse (t.take (i + 1) ++ [']', '}']) with
         | some v => some v
         | none =>
           match jsonParse (t.take (i + 1) ++ [']', ']', '}']) with
           | some v => some v
           | none => jsonParse (t.take (i + 1) ++ [']', '}'])) := by
  simp only [tryRepairJson, h]

theorem tryRepairJson_bracket (t : List Char) (i : Nat)
    (h1 : lastIdxRowSep t = none) (h2 : lastIdxBracket t = some i) :
    tryRepairJson t =
      (match jsonParse (t.take (i + 1) ++ ['}', '}']) with
       | some v => some v
       | none =>
         match jsonParse (t.take (i + 1) ++ [']', '}']) with
         | some v => some v
         | none =>
           match jsonParse (t.take (i + 1) ++ [']', ']', '}']) with
           | some v => some v
           | none => jsonParse (t.take (i + 1) ++ [']', '}'])) := by
  simp only [tryRepairJson, h1, h2]

theorem tryRepairJson_noBracket (t : List Char)
    (h1 : lastIdxRowSep t = none) (h2 : lastIdxBracket t = none) :
    tryRepairJson t = none := by
  simp only [tryRepairJson, h1, h2]

theorem repair_trials_result (m : PageDataMap) (hm : m ≠ [])
    (hnd : (m.map Prod.fst).Nodup) (i : Nat)
    (hilt : i + 1 < (serializePM m).length)
    (hhead : ∃ tail, (serializePM m).drop i = ']' :: tail) :
    (match jsonParse ((serializePM m).take (i + 1) ++ ['}', '}']) with
     | some v => some v
     | none =>
       match jsonParse ((serializePM m).take (i + 1) ++ [']', '}']) with
       | some v => some v
       | none =>
         match jsonParse ((serializePM m).take (i + 1)
             ++ [']', ']', '}']) with
         | some v => some v
         | none =>
           jsonParse ((serializePM m).take (i + 1) ++ [']', '}']))
      = none ∨
    (∃ mdone key g g1 mrest, m = mdone ++ (key, g) :: mrest ∧
      (∃ g2, g1 ++ g2 = g) ∧
      (match jsonParse ((serializePM m).take (i + 1) ++ ['}', '}']) with
       | some v => some v
       | none =>
         match jsonParse ((serializePM m).take (i + 1) ++ [']', '}']) with
         | some v => some v
         | none =>
           match jsonParse ((serializePM m).take (i + 1)
               ++ [']', ']', '}']) with
           | some v => some v
           | none =>
             jsonParse ((serializePM m).take (i + 1) ++ [']', '}']))
        = some (encodePM (mdone ++ [(key, g1)]))) := by
  obtain ⟨tail, htail⟩ := hhead
  have hsplitp : (serializePM m).take (i + 1)
      = (serializePM m).take i ++ [']'] := by
    rw [List.take_add, htail]
    rfl
  have hplast : ((serializePM m).take (i + 1)).getLast? = some ']' := by
    rw [hsplitp]
    exact List.getLast?_concat _
  have hpq : (serializePM m).take (i + 1) ++ (serializePM m).drop (i + 1)
      = serializePM m := List.take_append_drop _ _
  have hpne : (serializePM m).take (i + 1) ≠ [] := by
    rw [hsplitp]
    simp
  have hqne : (serializePM m).drop (i + 1) ≠ [] := by
    intro hc
    have := congrArg List.length hc
    rw [List.length_drop] at this
    simp at this
    omega
  rcases repair_prefix_classify m hm hnd _ _ hpq hpne hqne hplast with
    ⟨h1, h2, h3⟩ | ⟨mdone, key, g, g1, mrest, hmeq, hpre, h1, h2⟩
  · left
    rw [h1, h2, h3]
  · right
    exact ⟨mdone, key, g, g1, mrest, hmeq, hpre, by rw [h1, h2]⟩

/-- C4: for every truncation of a serialized page map at a proper nonempty
prefix (in particular any valid JSON prefix cut off mid-array), the
parse-with-repair path either fails with the `(Truncated)` parse error or
returns exactly the complete leading pages plus the complete leading rows
of the cut-off page; it never returns a partially-parsed string cell. -/
theorem c4_truncation (m : PageDataMap) (hnd : (m.map Prod.fst).Nodup)
    (k : Nat) (hk1 : 0 < k) (hk2 : k < (serializePM m).length) :
    parseWithRepair ((serializePM m).take k)
      = Except.error "JSON 解析失敗 (Truncated)" ∨
    ∃ mdone key g g1 mrest, m = mdone ++ (key, g) :: mrest ∧
      (∃ g2, g1 ++ g2 = g) ∧
      parseWithRepair ((serializePM m).take k)
        = Except.ok (encodePM (mdone ++ [(key, g1)])) := by
  by_cases hm : m = []
  · subst hm
    left
    have hk : k = 1 := by
      have hlen : (serializePM ([] : PageDataMap)).length = 2 := rfl
      omega
    subst hk
    rfl
  · obtain ⟨k', hk'1, hk'2, hpre⟩ := preprocess_take m k hk1 (le_of_lt hk2)
    have hk'lt : k' < (serializePM m).length := lt_of_le_of_lt hk'2 hk2
    have hlen_t : ((serializePM m).take k').length = k' := by
      rw [List.length_take]
      omega
    have htne : (serializePM m).take k' ≠ [] := by
      intro hc
      rw [hc] at hlen_t
      simp at hlen_t
      omega
    have hqne : (serializePM m).drop k' ≠ [] := by
      intro hc
      have := congrArg List.length hc
      rw [List.length_drop] at this
      simp at this
      omega
    have hdirect : jsonParse ((serializePM m).take k') = none :=
      jsonParse_prefix_none m hm _ _ (List.take_append_drop _ _) htne hqne
    unfold parseWithRepair
    rw [hpre, hdirect]
    cases hrs : lastIdxRowSep ((serializePM m).take k') with
    | some i =>
      obtain ⟨hi, hpat⟩ := lastIdxRowSep_spec _ i hrs
      rw [hlen_t] at hi
      have hdrop_eq : ((serializePM m).take k').drop i
          = ((serializePM m).drop i).take (k' - i) := by
        rw [List.drop_take]
      have hhead : ∃ tail, (serializePM m).drop i = ']' :: tail := by
        cases hsd : (serializePM m).drop i with
        | nil =>
          rw [hdrop_eq, hsd] at hpat
          simp at hpat
        | cons c tail =>
          refine ⟨tail, ?_⟩
          obtain ⟨jj, hjj⟩ : ∃ jj, k' - i = jj + 1 := ⟨k' - i - 1, by omega⟩
          rw [hdrop_eq, hsd, hjj, List.take_succ_cons] at hpat
          have h22 : (c :: (tail.take jj)).take 2
              = c :: (tail.take jj).take 1 := rfl
          rw [h22] at hpat
          rw [(List.cons.inj hpat).1]
      have h2ile : i + 1 < (serializePM m).length := by omega
      have htt : ((serializePM m).take k').take (i + 1)
          = (serializePM m).take (i + 1) := by
        rw [List.take_take, min_eq_left (by omega)]
      rcases repair_trials_result m hm hnd i h2ile hhead with
        hL | ⟨mdone, key, g, g1, mrest, hmeq, hgpre, hR⟩
      · left
        rw [tryRepairJson_rowSep _ i hrs, htt, hL]
      · right
        refine ⟨mdone, key, g, g1, mrest, hmeq, hgpre, ?_⟩
        rw [tryRepairJson_rowSep _ i hrs, htt, hR]
    | none =>
      cases hbr : lastIdxBracket ((serializePM m).take k') with
      | some i =>
        obtain ⟨hi, hpat⟩ := lastIdxBracket_spec _ i hbr
        rw [hlen_t] at hi
        have hdrop_eq : ((serializePM m).take k').drop i
            = ((serializePM m).drop i).take (k' - i) := by
          rw [List.drop_take]
        have hhead : ∃ tail, (serializePM m).drop i = ']' :: tail := by
          cases hsd : (serializePM m).drop i with
          | nil =>
            rw [hdrop_eq, hsd] at hpat
            simp at hpat
          | cons c tail =>
            refine ⟨tail, ?_⟩
            obtain ⟨jj, hjj⟩ : ∃ jj, k' - i = jj + 1 := ⟨k' - i - 1, by omega⟩
            rw [hdrop_eq, hsd, hjj, List.take_succ_cons] at hpat
            have h11 : (c :: (tail.take jj)).take 1 = [c] := rfl
            rw [h11] at hpat
            rw [(List.cons.inj hpat).1]
        have h2ile : i + 1 < (serializePM m).length := by omega
        have htt : ((serializePM m).take k').take (i + 1)
            = (serializePM m).take (i + 1) := by
          rw [List.take_take, min_eq_left (by omega)]
        rcases repair_trials_result m hm hnd i h2ile hhead with
          hL | ⟨mdone, key, g, g1, mrest, hmeq, hgpre, hR⟩
        · left
          rw [tryRepairJson_bracket _ i hrs hbr, htt, hL]
        · right
          refine ⟨mdone, key, g, g1, mrest, hmeq, hgpre, ?_⟩
          rw [tryRepairJson_bracket _ i hrs hbr, htt, hR]
      | none =>
        left
        rw [tryRepairJson_noBracket _ hrs hbr]

theorem c4_truncation_witness :
    parseWithRepair ((serializePM [("1", [["A"], ["B"]])]).take 12)
      = Except.error "JSON 解析失敗 (Truncated)" ∨
    ∃ mdone key g g1 mrest,
      [("1", [["A"], ["B"]])] = mdone ++ (key, g) :: mrest ∧
      (∃ g2, g1 ++ g2 = g) ∧
      parseWithRepair ((serializePM [("1", [["A"], ["B"]])]).take 12)
        = Except.ok (encodePM (mdone ++ [(key, g1)])) :=
  c4_truncation [("1", [["A"], ["B"]])] (by decide) 12 (by decide) (by decide)

end PdfToExcel
